import Mathlib

/-!
# ProteinPersistence: the filtration and persistence pipeline of `pdb2persistence.cpp`

A shallow embedding of `src/pdb2persistence.cpp`.  The CGAL alpha shape is an
input record of the queries the source makes of it; the loop that assigns
filtration indices and builds the boundary matrix, the comparator
`Sort_triples`, the per-cell index slots and the diagram extraction are
translated from the source.  The PHAT reducer, which the source only calls, is
modelled from the specification.
-/

namespace ProteinPersistence

/-! ## Basic types -/

/-- The number type `FT` of filtration values (finite values, as rationals). -/
abbrev FT := ℚ

/-- The source's `typedef int Dim`; only the values 0..3 occur.  Written `ℕ` below. -/
abbrev Dim := ℕ

/-- The source's `typedef int Index`: a filtration index, counted from 0.  The
filtration is taken to be shorter than the range of `int`.  Written `ℕ` below. -/
abbrev Index := ℕ

/-- A CGAL vertex handle: an identifier with equality and an order. -/
abbrev Vertex_handle := ℕ

/-- A CGAL cell handle: an identifier with equality and an order. -/
abbrev Cell_handle := ℕ

/-- A PHAT column: the vector of row indices that the source fills with `push_back`. -/
abbrev Column := List ℕ

/-- A CGAL edge: a cell and the local numbers of the two end points in it. -/
structure Edge where
  first : Cell_handle
  second : ℤ
  third : ℤ
deriving DecidableEq

/-- A CGAL facet: a cell and the local number of the opposite vertex. -/
structure Facet where
  first : Cell_handle
  second : ℤ
deriving DecidableEq

/-- The `CGAL::Object` of a filtration entry: what `CGAL::assign` can recover. -/
inductive Object where
  | vertex (v : Vertex_handle)
  | edge (e : Edge)
  | facet (f : Facet)
  | cell (c : Cell_handle)
deriving DecidableEq

/-- The source's `CGAL::Triple<FT,int,CGAL::Object>`: weight, dimension, cell. -/
structure Triple where
  first : FT
  second : ℕ
  third : Object
deriving DecidableEq

/-- The `CGAL::Alpha_status` of a simplex, as far as the source reads it. -/
structure Alpha_status where
  is_Gabriel : Bool
  alpha_min : FT
  alpha_mid : FT

/-- The CGAL alpha shape as the source queries it: the four finite iterators,
`cell->vertex(i)`, `cell->index(v)`, the circulator `incident_cells(e)`,
`mirror_facet(f)` and the alpha statuses. -/
structure Alpha_shape_3 where
  finite_vertices : List Vertex_handle
  finite_edges : List Edge
  finite_facets : List Facet
  finite_cells : List Cell_handle
  vertex : Cell_handle → ℤ → Vertex_handle
  index : Cell_handle → Vertex_handle → ℤ
  incident_cells : Edge → List Cell_handle
  mirror_facet : Facet → Facet
  get_alpha_status : Vertex_handle → Alpha_status
  get_edge_alpha_map : Vertex_handle × Vertex_handle → Alpha_status
  get_facet_status : Cell_handle → ℤ → Alpha_status
  get_alpha : Cell_handle → FT

/-! ## Failing operations -/

/-- Modelled from the spec: the macro `CGAL_assertion` is declared outside the
source file; a violated assertion makes the computation fail ("query must fail
loudly if read while Unassigned"). -/
def CGAL_assertion (b : Bool) : Option Unit :=
  if b then some () else none

/-- A `std::map`, as a finite partial function on keys. -/
abbrev Map (K V : Type) := K → Option V

/-- `std::map::at`: fails on an absent key. -/
def Map.at {K V : Type} (m : Map K V) (k : K) : Option V := m k

/-- `std::map::operator[]` read: an absent key yields the default-constructed value. -/
def Map.get {K V : Type} (m : Map K V) (dflt : V) (k : K) : V := (m k).getD dflt

/-- `std::map::operator[]` write: the entry of `k` becomes `v`. -/
def Map.set {K V : Type} [DecidableEq K] (m : Map K V) (k : K) (v : V) : Map K V :=
  fun k' => if k' = k then some v else m k'

/-! ## `Vertex_info_3` -/

/-- The source's `Vertex_info_3<Index>`: an optional filtration index. -/
structure Vertex_info_3 where
  index_ : Option ℕ

/-- The constructor: `index_ = boost::none`. -/
def Vertex_info_3.new : Vertex_info_3 := ⟨none⟩

/-- `has_index()`. -/
def Vertex_info_3.has_index (s : Vertex_info_3) : Bool := s.index_.isSome

/-- `index()`: asserts `has_index()` and returns `index_.get()`. -/
def Vertex_info_3.index (s : Vertex_info_3) : Option ℕ :=
  (CGAL_assertion s.has_index).bind fun _ => s.index_

/-- `set_index(I)`. -/
def Vertex_info_3.set_index (_s : Vertex_info_3) (I : ℕ) : Vertex_info_3 := ⟨some I⟩

/-! ## `Cell_info_3` -/

/-- The source's `Cell_info_3<Index>`: six optional edge slots and four
optional facet slots (arrays, as functions of the position). -/
structure Cell_info_3 where
  edge_index_ : ℕ → Option ℕ
  facet_index_ : ℤ → Option ℕ

/-- The constructor: every slot is `boost::none`. -/
def Cell_info_3.new : Cell_info_3 := ⟨fun _ => none, fun _ => none⟩

/-- `edge_conv(i, j)`: the slot of the local edge `{i, j}`; `none` is the bare `throw`. -/
def edge_conv (i j : ℤ) : Option ℕ :=
  let a := if i > j then j else i
  let b := if i > j then i else j
  if a = 0 ∧ b = 1 then some 0
  else if a = 0 ∧ b = 2 then some 1
  else if a = 0 ∧ b = 3 then some 2
  else if a = 1 ∧ b = 2 then some 3
  else if a = 1 ∧ b = 3 then some 4
  else if a = 2 ∧ b = 3 then some 5
  else none

/-- `has_edge_index(i, j)`. -/
def Cell_info_3.has_edge_index (s : Cell_info_3) (i j : ℤ) : Option Bool :=
  (edge_conv i j).map fun k => (s.edge_index_ k).isSome

/-- `edge_index(i, j)`: asserts `has_edge_index(i, j)`, then reads the slot. -/
def Cell_info_3.edge_index (s : Cell_info_3) (i j : ℤ) : Option ℕ :=
  (s.has_edge_index i j).bind fun h =>
  (CGAL_assertion h).bind fun _ =>
  (edge_conv i j).bind fun k => s.edge_index_ k

/-- `has_facet_index(i)`: asserts `0 <= i < 4`. -/
def Cell_info_3.has_facet_index (s : Cell_info_3) (i : ℤ) : Option Bool :=
  (CGAL_assertion (decide (0 ≤ i ∧ i < 4))).bind fun _ => some (s.facet_index_ i).isSome

/-- `facet_index(i)`: asserts `has_facet_index(i)`, then reads the slot. -/
def Cell_info_3.facet_index (s : Cell_info_3) (i : ℤ) : Option ℕ :=
  (s.has_facet_index i).bind fun h =>
  (CGAL_assertion h).bind fun _ => s.facet_index_ i

/-- `set_edge_index(i, j, I)`. -/
def Cell_info_3.set_edge_index (s : Cell_info_3) (i j : ℤ) (I : ℕ) : Option Cell_info_3 :=
  (edge_conv i j).map fun k =>
    { s with edge_index_ := fun k' => if k' = k then some I else s.edge_index_ k' }

/-- `set_facet_index(i, I)`. -/
def Cell_info_3.set_facet_index (s : Cell_info_3) (i : ℤ) (I : ℕ) : Cell_info_3 :=
  { s with facet_index_ := fun i' => if i' = i then some I else s.facet_index_ i' }

/-- `set_index_of_edge(T, e, c_info, I)`: every cell around the edge records `I`
in the slot of the edge's two end points; the cycle of the circulator is the
list `incident_cells e`. -/
def set_index_of_edge (T : Alpha_shape_3) (e : Edge) (c_info : Map Cell_handle Cell_info_3)
    (I : ℕ) : Option (Map Cell_handle Cell_info_3) :=
  let v1 := T.vertex e.first e.second
  let v2 := T.vertex e.first e.third
  (T.incident_cells e).foldlM
    (fun ci ch =>
      ((ci.get Cell_info_3.new ch).set_edge_index (T.index ch v1) (T.index ch v2) I).map
        fun info => ci.set ch info)
    c_info

/-- `set_index_of_facet(T, f, c_info, I)`: the facet's cell and the cell of its
mirror facet both record `I`. -/
def set_index_of_facet (T : Alpha_shape_3) (f : Facet) (c_info : Map Cell_handle Cell_info_3)
    (I : ℕ) : Map Cell_handle Cell_info_3 :=
  let c1 := c_info.set f.first ((c_info.get Cell_info_3.new f.first).set_facet_index f.second I)
  let mf := T.mirror_facet f
  c1.set mf.first ((c1.get Cell_info_3.new mf.first).set_facet_index mf.second I)

/-! ## Sorting -/

/-- The comparator `Sort_triples::operator()`. -/
def Sort_triples (a b : Triple) : Bool :=
  if a.first < b.first then true
  else if a.first > b.first then false
  else decide (a.second < b.second)

/-- `std::sort(first, last, comp)`: the elements in an order in which no
element is `comp`-smaller than an earlier one (here by insertion). -/
def std_sort {α : Type} (comp : α → α → Bool) (l : List α) : List α :=
  l.insertionSort (fun a b => comp b a = false)

/-! ## The filtration -/

/-- The weight of a 0-cell (source lines 217-233). -/
def vertex_alpha (T : Alpha_shape_3) (v : Vertex_handle) : FT :=
  let as := T.get_alpha_status v
  if as.is_Gabriel then as.alpha_min else as.alpha_mid

/-- The weight of a 1-cell (source lines 237-256): the status is found under
the ordered pair of the end points. -/
def edge_alpha (T : Alpha_shape_3) (e : Edge) : FT :=
  let v1 := T.vertex e.first e.second
  let v2 := T.vertex e.first e.third
  let vhp := if v1 < v2 then (v1, v2) else (v2, v1)
  let as := T.get_edge_alpha_map vhp
  if as.is_Gabriel then as.alpha_min else as.alpha_mid

/-- The weight of a 2-cell (source lines 260-277). -/
def facet_alpha (T : Alpha_shape_3) (f : Facet) : FT :=
  let as := T.get_facet_status f.first f.second
  if as.is_Gabriel then as.alpha_min else as.alpha_mid

/-- The vector `circumradii` before sorting (source lines 211-292): the
0-cells, then the 1-cells, the 2-cells and the 3-cells. -/
def circumradii (T : Alpha_shape_3) : List Triple :=
  T.finite_vertices.map (fun v => ⟨vertex_alpha T v, 0, Object.vertex v⟩) ++
  T.finite_edges.map (fun e => ⟨edge_alpha T e, 1, Object.edge e⟩) ++
  T.finite_facets.map (fun f => ⟨facet_alpha T f, 2, Object.facet f⟩) ++
  T.finite_cells.map (fun c => ⟨T.get_alpha c, 3, Object.cell c⟩)

/-- The vector `circumradii` after `std::sort` (source line 298): the filtration. -/
def filtration (T : Alpha_shape_3) : List Triple :=
  std_sort Sort_triples (circumradii T)

/-! ## The boundary matrix container -/

/-- Modelled from the spec: the container `phat::boundary_matrix` is not under
src/; it is "an array of N Boundary Columns, dim-tagged, indexed 0..N-1". -/
structure Bdd_Type where
  dims : List ℕ
  matrix : List Column

/-- Modelled from the spec: `set_num_cols(n)` of the absent PHAT container, on a
fresh matrix: `n` empty columns of dimension 0. -/
def Bdd_Type.set_num_cols (n : ℕ) : Bdd_Type :=
  ⟨List.replicate n 0, List.replicate n []⟩

/-- Modelled from the spec: `set_dim(idx, d)` of the absent PHAT container. -/
def Bdd_Type.set_dim (bm : Bdd_Type) (idx : ℕ) (d : ℕ) : Bdd_Type :=
  { bm with dims := bm.dims.set idx d }

/-- Modelled from the spec: `set_col(idx, col)` of the absent PHAT container. -/
def Bdd_Type.set_col (bm : Bdd_Type) (idx : ℕ) (col : Column) : Bdd_Type :=
  { bm with matrix := bm.matrix.set idx col }

/-- Modelled from the spec: `get_num_cols()` of the absent PHAT container. -/
def Bdd_Type.get_num_cols (bm : Bdd_Type) : ℕ := bm.matrix.length

/-- Modelled from the spec: `get_dim(idx)` of the absent PHAT container. -/
def Bdd_Type.get_dim (bm : Bdd_Type) (idx : ℕ) : ℕ := bm.dims.getD idx 0

/-- Modelled from the spec: `get_col(idx)` of the absent PHAT container. -/
def Bdd_Type.get_col (bm : Bdd_Type) (idx : ℕ) : Column := bm.matrix.getD idx []

/-! ## The index assignment and matrix building loop (source lines 307-396) -/

/-- The variables the loop updates. -/
structure Loop_state where
  filtration_index : ℕ
  curr_index : ℕ
  boundary_matrix : Bdd_Type
  alpha_map : List (ℕ × FT)
  v_info : Map Vertex_handle Vertex_info_3
  c_info : Map Cell_handle Cell_info_3

/-- The variables before the loop (source lines 307-318), for a filtration of `n` cells. -/
def Loop_state.init (n : ℕ) : Loop_state :=
  { filtration_index := 0
    curr_index := 0
    boundary_matrix := Bdd_Type.set_num_cols n
    alpha_map := List.replicate n (0, 0)
    v_info := fun _ => none
    c_info := fun _ => none }

/-- The end points of an edge. -/
def Edge.v1 (T : Alpha_shape_3) (e : Edge) : Vertex_handle := T.vertex e.first e.second

/-- The second end point of an edge. -/
def Edge.v2 (T : Alpha_shape_3) (e : Edge) : Vertex_handle := T.vertex e.first e.third

/-- The column of an edge (source lines 343-359): the indices of the two end
points, the smaller first. -/
def edge_column (T : Alpha_shape_3) (s : Loop_state) (e : Edge) : Option Column :=
  ((s.v_info.at (e.v1 T)).bind fun i => CGAL_assertion i.has_index).bind fun _ =>
  ((s.v_info.at (e.v2 T)).bind fun i => CGAL_assertion i.has_index).bind fun _ =>
  ((s.v_info.get Vertex_info_3.new (e.v1 T)).index).bind fun i1 =>
  ((s.v_info.get Vertex_info_3.new (e.v2 T)).index).bind fun i2 =>
  some (if i1 > i2 then [i2, i1] else [i1, i2])

/-- The column of a facet (source lines 368-377): the indices in the three edge
slots of the facet's cell, sorted. -/
def facet_column (s : Loop_state) (f : Facet) : Option Column :=
  ((s.c_info.at f.first).bind fun ci =>
    ci.edge_index (Int.tmod (f.second + 1) 4) (Int.tmod (f.second + 2) 4)).bind fun i1 =>
  ((s.c_info.at f.first).bind fun ci =>
    ci.edge_index (Int.tmod (f.second + 1) 4) (Int.tmod (f.second + 3) 4)).bind fun i2 =>
  ((s.c_info.at f.first).bind fun ci =>
    ci.edge_index (Int.tmod (f.second + 2) 4) (Int.tmod (f.second + 3) 4)).bind fun i3 =>
  some (std_sort (fun a b : ℕ => decide (a < b)) [i1, i2, i3])

/-- The column of a 3-cell (source lines 387-391): the indices in its four
facet slots, sorted. -/
def cell_column (s : Loop_state) (c : Cell_handle) : Option Column :=
  ((s.c_info.at c).bind fun ci => ci.facet_index 0).bind fun i0 =>
  ((s.c_info.at c).bind fun ci => ci.facet_index 1).bind fun i1 =>
  ((s.c_info.at c).bind fun ci => ci.facet_index 2).bind fun i2 =>
  ((s.c_info.at c).bind fun ci => ci.facet_index 3).bind fun i3 =>
  some (std_sort (fun a b : ℕ => decide (a < b)) [i0, i1, i2, i3])

/-- One iteration of the loop over the sorted `circumradii` (source lines
320-396); `none` when an assertion, `std::map::at` or `edge_conv` fails. -/
def loop_body (T : Alpha_shape_3) (s : Loop_state) (it : Triple) : Option Loop_state :=
  let alpha_map := s.alpha_map.set s.curr_index (it.second, it.first)
  match it.third with
  | Object.vertex v =>
    some { filtration_index := s.filtration_index + 1
           curr_index := s.curr_index + 1
           boundary_matrix := (s.boundary_matrix.set_dim s.curr_index 0).set_col s.curr_index []
           alpha_map := alpha_map
           v_info := s.v_info.set v ((s.v_info.get Vertex_info_3.new v).set_index s.curr_index)
           c_info := s.c_info }
  | Object.edge e =>
    (edge_column T s e).bind fun col =>
    (set_index_of_edge T e s.c_info s.curr_index).bind fun c_info =>
    some { filtration_index := s.filtration_index + 1
           curr_index := s.curr_index + 1
           boundary_matrix := (s.boundary_matrix.set_dim s.curr_index 1).set_col s.curr_index col
           alpha_map := alpha_map
           v_info := s.v_info
           c_info := c_info }
  | Object.facet f =>
    (facet_column s f).bind fun col =>
    some { filtration_index := s.filtration_index + 1
           curr_index := s.curr_index + 1
           boundary_matrix := (s.boundary_matrix.set_dim s.curr_index 2).set_col s.curr_index col
           alpha_map := alpha_map
           v_info := s.v_info
           c_info := set_index_of_facet T f s.c_info s.curr_index }
  | Object.cell c =>
    (cell_column s c).bind fun col =>
    some { filtration_index := s.filtration_index + 1
           curr_index := s.curr_index + 1
           boundary_matrix := (s.boundary_matrix.set_dim s.curr_index 3).set_col s.curr_index col
           alpha_map := alpha_map
           v_info := s.v_info
           c_info := s.c_info }

/-- The loop over a sequence of filtration entries, from a given state. -/
def run_loop (T : Alpha_shape_3) (s : Loop_state) (l : List Triple) : Option Loop_state :=
  l.foldlM (loop_body T) s

/-- The loop of source lines 320-396 over the whole filtration. -/
def build (T : Alpha_shape_3) : Option Loop_state :=
  run_loop T (Loop_state.init (filtration T).length) (filtration T)

/-! ## The reducer (specification section 4.4) -/

/-- Modelled from the spec: the lowest one of a column of the absent PHAT
reducer, "its lowest (maximum-index) nonzero entry"; `none` for the empty column. -/
def get_max_index (col : Finset ℕ) : Option ℕ :=
  if h : col.Nonempty then some (col.max' h) else none

/-- Modelled from the spec: column addition of the absent PHAT reducer, "add
means symmetric difference of the sorted index sets". -/
def add_to (source target : Finset ℕ) : Finset ℕ := symmDiff target source

/-- Modelled from the spec: the working state of the absent PHAT reducer, the
columns as index sets and the table "from r to the column index that currently
has r as its lowest nonzero entry, initially empty". -/
structure Reducer_state where
  matrix : List (Finset ℕ)
  lowest_one_lookup : ℕ → Option ℕ

/-- Modelled from the spec: the inner loop of the absent PHAT reducer, "while
its current lowest nonzero row r already has an owner column j', add column j'
into column j"; `none` when the iteration budget is used up. -/
def reduce_column (matrix : List (Finset ℕ)) (lookup : ℕ → Option ℕ) :
    ℕ → Finset ℕ → Option (Finset ℕ)
  | 0, _ => none
  | fuel + 1, col =>
    match get_max_index col with
    | none => some col
    | some r =>
      match lookup r with
      | none => some col
      | some j' => reduce_column matrix lookup fuel (add_to (matrix.getD j' ∅) col)

/-- Modelled from the spec: the iteration budget given to the inner loop of the
absent PHAT reducer, one test more than the lowest one of the column allows
additions; `reduce_column_total` shows that it is never used up. -/
def reduce_budget (col : Finset ℕ) : ℕ :=
  match get_max_index col with
  | none => 1
  | some r => r + 2

/-- Modelled from the spec: the treatment of column `j` by the absent PHAT
reducer.  With `twist`, a column already known to pair as a birth (its row has
an owner) is not reduced and is cleared ("skip reducing a column already known
to pair"); otherwise the column is reduced and, "if nonempty, register column j
as owner of that lowest row".  On an upper-triangular matrix treated left to
right no row at or after `j` has an owner yet (`reduce_step_matrix`). -/
def reduce_step (twist : Bool) (st : Reducer_state) (j : ℕ) : Option Reducer_state :=
  if twist && (st.lowest_one_lookup j).isSome then
    some { st with matrix := st.matrix.set j ∅ }
  else
    (reduce_column st.matrix st.lowest_one_lookup (reduce_budget (st.matrix.getD j ∅))
      (st.matrix.getD j ∅)).map fun col =>
      match get_max_index col with
      | none => { st with matrix := st.matrix.set j col }
      | some r =>
        { matrix := st.matrix.set j col
          lowest_one_lookup := fun r' => if r' = r then some j else st.lowest_one_lookup r' }

/-- Modelled from the spec: the absent PHAT reducer, "process columns left to
right (low index first, consistent with filtration order)" from the empty
owner table; `twist` switches the short-circuit on. -/
def reduce_matrix (twist : Bool) (bm : Bdd_Type) : Option Reducer_state :=
  (List.range bm.get_num_cols).foldlM (reduce_step twist)
    { matrix := bm.matrix.map List.toFinset, lowest_one_lookup := fun _ => none }

/-- Modelled from the spec: `phat::twist_reduction`, which is not under src/. -/
def twist_reduction (bm : Bdd_Type) : Option Reducer_state := reduce_matrix true bm

/-- Modelled from the spec: the pairs that the absent PHAT routine reads off a
reduced matrix, "for every column j whose reduction ends nonempty with lowest
row r, emit pair (birth_index=r, death_index=j)". -/
def emit_pairs (st : Reducer_state) : List (ℕ × ℕ) :=
  (List.range st.matrix.length).filterMap fun j =>
    (get_max_index (st.matrix.getD j ∅)).map fun r => (r, j)

/-- Modelled from the spec: `phat::compute_persistence_pairs<twist_reduction>`,
which is not under src/: reduce, then emit the pairs. -/
def compute_persistence_pairs (bm : Bdd_Type) : Option (List (ℕ × ℕ)) :=
  (twist_reduction bm).map emit_pairs

/-- Modelled from the spec: `phat::persistence_pairs::sort`, which is not under
src/: the pairs in increasing order of (birth_index, death_index). -/
def sort_pairs (pairs : List (ℕ × ℕ)) : List (ℕ × ℕ) :=
  std_sort (fun a b : ℕ × ℕ => decide (a.1 < b.1 ∨ (a.1 = b.1 ∧ a.2 < b.2))) pairs

/-- Modelled from the spec: the treatment of column `j` by the plain reduction,
without any short-circuit: "while its current lowest nonzero row r already has
an owner column j', add column j' into column j"; "if nonempty, register column
j as owner of that lowest row". -/
def plain_reduce_step (st : Reducer_state) (j : ℕ) : Option Reducer_state :=
  (reduce_column st.matrix st.lowest_one_lookup (reduce_budget (st.matrix.getD j ∅))
    (st.matrix.getD j ∅)).map fun col =>
    match get_max_index col with
    | none => { st with matrix := st.matrix.set j col }
    | some r =>
      { matrix := st.matrix.set j col
        lowest_one_lookup := fun r' => if r' = r then some j else st.lowest_one_lookup r' }

/-- Modelled from the spec: the plain left-to-right column reduction, "process
columns left to right (low index first, consistent with filtration order)". -/
def plain_reduction (bm : Bdd_Type) : Option Reducer_state :=
  (List.range bm.get_num_cols).foldlM plain_reduce_step
    { matrix := bm.matrix.map List.toFinset, lowest_one_lookup := fun _ => none }

/-- Modelled from the spec: the pairs emitted after the plain reduction. -/
def plain_persistence_pairs (bm : Bdd_Type) : Option (List (ℕ × ℕ)) :=
  (plain_reduction bm).map emit_pairs

/-- Modelled from the spec: the reducer of the absent PHAT library with the
columns treated in the order `order`; the specification's order, "left to
right (low index first)", is `List.range n`.  The short-circuit, "skip reducing
a column already known to pair", has an occasion to apply only where a death
column is treated before its birth column, as when the columns are treated by
decreasing dimension. -/
def reduce_in_order (twist : Bool) (order : List ℕ) (bm : Bdd_Type) : Option Reducer_state :=
  order.foldlM (reduce_step twist)
    { matrix := bm.matrix.map List.toFinset, lowest_one_lookup := fun _ => none }

/-! ## The diagram extraction (source lines 412-422) -/

/-- The source's `persistence_diagram_t`. -/
abbrev persistence_diagram_t := List (FT × FT)

/-- The source's `persistence_diagrams_t`. -/
abbrev persistence_diagrams_t := List persistence_diagram_t

/-- One iteration of the extraction loop (source lines 414-419); `none` when a
vector is indexed outside its range. -/
def extract_pair (circumradii : List Triple) (persistence_diagrams : persistence_diagrams_t)
    (p : ℕ × ℕ) : Option persistence_diagrams_t :=
  circumradii[p.1]?.bind fun tb =>
  circumradii[p.2]?.bind fun td =>
  if tb.first ≠ td.first then
    persistence_diagrams[tb.second]?.map fun diagram =>
      persistence_diagrams.set tb.second (diagram ++ [(tb.first, td.first)])
  else some persistence_diagrams

/-- The extraction loop (source lines 412-420) over the sorted pairs. -/
def extract_diagrams (circumradii : List Triple) (pairs : List (ℕ × ℕ)) :
    Option persistence_diagrams_t :=
  pairs.foldlM (extract_pair circumradii) (List.replicate 3 [])

/-- The function `pdb2persistence` from the alpha shape on (source lines
211-422); `none` when the computation fails. -/
def pdb2persistence (T : Alpha_shape_3) : Option persistence_diagrams_t :=
  (build T).bind fun s =>
  (compute_persistence_pairs s.boundary_matrix).bind fun pairs =>
  extract_diagrams (filtration T) (sort_pairs pairs)

/-! ## Index slots: what an iteration reads and what it writes -/

/-- The places where the loop keeps filtration indices: the entry of a vertex in
`v_info`, an edge slot of a cell in `c_info`, a facet slot of a cell in `c_info`. -/
inductive Slot where
  | v (v : Vertex_handle)
  | e (c : Cell_handle) (k : ℕ)
  | f (c : Cell_handle) (i : ℤ)
deriving DecidableEq

/-- The dimension of the cells whose indices a slot holds. -/
def Slot.dim : Slot → ℕ
  | Slot.v _ => 0
  | Slot.e _ _ => 1
  | Slot.f _ _ => 2

/-- The content of a slot in a loop state; `none` when the slot is unassigned
(also when the map has no entry for the key). -/
def Loop_state.slot (s : Loop_state) : Slot → Option ℕ
  | Slot.v v => (s.v_info v).bind fun vi => vi.index_
  | Slot.e c k => (s.c_info c).bind fun ci => ci.edge_index_ k
  | Slot.f c i => (s.c_info c).bind fun ci => ci.facet_index_ i

/-- The contents of a list of slots; `none` when one of them is unassigned. -/
def Loop_state.slots (s : Loop_state) : List (Option Slot) → Option (List ℕ)
  | [] => some []
  | σ :: rest => (σ.bind s.slot).bind fun i => (s.slots rest).map fun is => i :: is

/-- The dimension that the loop gives to the column of an object (`set_dim`). -/
def Object.dim : Object → ℕ
  | Object.vertex _ => 0
  | Object.edge _ => 1
  | Object.facet _ => 2
  | Object.cell _ => 3

/-- The slots that the iteration for an object reads: the declared boundary
faces of the object.  A local edge on which `edge_conv` throws has no slot. -/
def Object.reads (T : Alpha_shape_3) : Object → List (Option Slot)
  | Object.vertex _ => []
  | Object.edge e => [some (Slot.v (e.v1 T)), some (Slot.v (e.v2 T))]
  | Object.facet f =>
    [(edge_conv (Int.tmod (f.second + 1) 4) (Int.tmod (f.second + 2) 4)).map (Slot.e f.first),
     (edge_conv (Int.tmod (f.second + 1) 4) (Int.tmod (f.second + 3) 4)).map (Slot.e f.first),
     (edge_conv (Int.tmod (f.second + 2) 4) (Int.tmod (f.second + 3) 4)).map (Slot.e f.first)]
  | Object.cell c => [some (Slot.f c 0), some (Slot.f c 1), some (Slot.f c 2), some (Slot.f c 3)]

/-- The slots that the iteration for an object assigns. -/
def Object.writes (T : Alpha_shape_3) : Object → Slot → Bool
  | Object.vertex v, Slot.v v' => decide (v' = v)
  | Object.edge e, Slot.e c k =>
    decide (c ∈ T.incident_cells e) &&
      decide (edge_conv (T.index c (e.v1 T)) (T.index c (e.v2 T)) = some k)
  | Object.facet f, Slot.f c i =>
    decide (c = f.first ∧ i = f.second) ||
      decide (c = (T.mirror_facet f).first ∧ i = (T.mirror_facet f).second)
  | _, _ => false

/-- The column that the iteration for an object stores: the contents of the
slots it reads, in increasing order. -/
def column_of (T : Alpha_shape_3) (s : Loop_state) (o : Object) : Option Column :=
  (s.slots (o.reads T)).map (std_sort (fun a b : ℕ => decide (a < b)))

/-- The filtration positions of the cells that assign a slot: the cells that a
reader of the slot has as the declared boundary face behind it. -/
def writers (T : Alpha_shape_3) (l : List Triple) (σ : Slot) : List ℕ :=
  (List.range l.length).filter fun i => (l[i]?.map fun a => a.third.writes T σ) == some true

/-- The index that the cell at position `k` of the filtration receives: the
value of `curr_index` when the loop reaches it. -/
def assigned_index (T : Alpha_shape_3) (k : ℕ) : Option ℕ :=
  (run_loop T (Loop_state.init (filtration T).length) ((filtration T).take k)).map
    fun s => s.curr_index

/-- What holds of the loop state once the loop has run over the first entries
`p` of a filtration of `n` cells: the counter is the number of entries, the
vectors keep their size, the first entries of `alpha_map` and of the dimensions
are those of `p`, every assigned slot holds the position of an entry that
writes it, and every row of a column is such a position, below the column's. -/
def Build_inv (T : Alpha_shape_3) (n : ℕ) (p : List Triple) (s : Loop_state) : Prop :=
  s.curr_index = p.length ∧
  s.boundary_matrix.matrix.length = n ∧
  s.boundary_matrix.dims.length = n ∧
  s.alpha_map.length = n ∧
  (∀ j, j < p.length → s.alpha_map[j]? = p[j]?.map fun t => (t.second, t.first)) ∧
  (∀ j, j < p.length → s.boundary_matrix.dims[j]? = p[j]?.map fun t => t.third.dim) ∧
  (∀ (σ : Slot) (I : ℕ), s.slot σ = some I → ∃ t, p[I]? = some t ∧ t.third.writes T σ = true) ∧
  (∀ j r : ℕ, r ∈ s.boundary_matrix.matrix.getD j [] →
    ∃ tj tr σ, p[j]? = some tj ∧ p[r]? = some tr ∧ r < j ∧
      some σ ∈ tj.third.reads T ∧ tr.third.writes T σ = true)

/-- What holds of the reducer state once the columns below `k` of the columns
`D` have been treated: the later columns are untouched, every owner recorded
in the table is a treated column with that lowest one, and every treated
nonempty column is recorded as the owner of its lowest one. -/
def Reducer_inv (D : List (Finset ℕ)) (k : ℕ) (st : Reducer_state) : Prop :=
  st.matrix.length = D.length ∧
  (∀ j, k ≤ j → st.matrix.getD j ∅ = D.getD j ∅) ∧
  (∀ r j, st.lowest_one_lookup r = some j →
    j < k ∧ get_max_index (st.matrix.getD j ∅) = some r) ∧
  (∀ j r, j < k → get_max_index (st.matrix.getD j ∅) = some r →
    st.lowest_one_lookup r = some j)

/-- What holds of the reducer state once the columns `done` of the columns `D`
have been treated, in any order, against the result `R` of the plain
left-to-right reduction: the treated columns are those of `R`, the others are
untouched, and the owners recorded are the treated columns of `R` with that
lowest one. -/
def Order_inv (R : Reducer_state) (D : List (Finset ℕ)) (done : List ℕ)
    (st : Reducer_state) : Prop :=
  st.matrix.length = D.length ∧
  (∀ c, c ∈ done → st.matrix.getD c ∅ = R.matrix.getD c ∅) ∧
  (∀ c, c ∉ done → st.matrix.getD c ∅ = D.getD c ∅) ∧
  ∀ r c, st.lowest_one_lookup r = some c ↔
    c ∈ done ∧ get_max_index (R.matrix.getD c ∅) = some r

/-- A boundary matrix is upper-triangular: every row index of column `j` is below `j`. -/
def Bdd_Type.upper_triangular (bm : Bdd_Type) : Prop :=
  ∀ j, j < bm.get_num_cols → ∀ r ∈ bm.get_col j, r < j

/-- A boundary matrix is graded: columns of dimension `d` hold only rows of
dimension `d - 1`. -/
def Bdd_Type.graded (bm : Bdd_Type) : Prop :=
  ∀ j, j < bm.get_num_cols → ∀ r ∈ bm.get_col j, bm.get_dim r + 1 = bm.get_dim j

instance (bm : Bdd_Type) : Decidable bm.upper_triangular := by
  unfold Bdd_Type.upper_triangular
  infer_instance

instance (bm : Bdd_Type) : Decidable bm.graded := by
  unfold Bdd_Type.graded
  infer_instance

/-- A column as a vector over the two-element field, indexed by the rows. -/
def ind (s : Finset ℕ) : ℕ → ZMod 2 :=
  fun i => if i ∈ s then 1 else 0

/-- The product `D * D` of a boundary matrix with itself vanishes over the
two-element field: for every column `j` and row `i`, the number of rows `r` of
column `j` whose own column contains `i` is even. -/
def Bdd_Type.boundary_squared_zero (bm : Bdd_Type) : Prop :=
  ∀ j, j < bm.get_num_cols → ∀ i, i < bm.get_num_cols →
    ((bm.get_col j).toFinset.filter fun r => i ∈ bm.get_col r).card % 2 = 0

instance (bm : Bdd_Type) : Decidable bm.boundary_squared_zero := by
  unfold Bdd_Type.boundary_squared_zero
  infer_instance

/-- The weight of the cell at a position of the filtration. -/
def weight_at (circumradii : List Triple) (i : ℕ) : FT :=
  (circumradii[i]?.map Triple.first).getD 0

/-- The dimension of the cell at a position of the filtration. -/
def dim_at (circumradii : List Triple) (i : ℕ) : ℕ :=
  (circumradii[i]?.map Triple.second).getD 0

/-- The diagram of dimension `d` as the specification defines it: the (birth
weight, death weight) of the pairs whose birth cell has dimension `d` and
whose two weights differ. -/
def diagram_of (circumradii : List Triple) (pairs : List (ℕ × ℕ)) (d : ℕ) :
    persistence_diagram_t :=
  (pairs.filter fun p =>
      decide (dim_at circumradii p.1 = d ∧ weight_at circumradii p.1 ≠ weight_at circumradii p.2)).map
    fun p => (weight_at circumradii p.1, weight_at circumradii p.2)

/-! ## Concrete alpha shapes -/

/-- Two points of weight `p` joined by one edge of weight `w`. -/
def two_points (p w : FT) : Alpha_shape_3 where
  finite_vertices := [0, 1]
  finite_edges := [⟨0, 0, 1⟩]
  finite_facets := []
  finite_cells := []
  vertex := fun _ i => i.toNat
  index := fun _ v => v
  incident_cells := fun _ => [0]
  mirror_facet := fun f => f
  get_alpha_status := fun _ => ⟨true, p, p⟩
  get_edge_alpha_map := fun _ => ⟨true, w, w⟩
  get_facet_status := fun _ _ => ⟨true, 0, 0⟩
  get_alpha := fun _ => 0

/-- A filled tetrahedron: the cell 0 on the vertices 0..3, its six edges and
four facets; points of weight 0, edges of weight 1, facets of weight 2 and the
cell of weight 3.  The mirror facets lie in an outer cell 1. -/
def tetrahedron : Alpha_shape_3 where
  finite_vertices := [0, 1, 2, 3]
  finite_edges := [⟨0, 0, 1⟩, ⟨0, 0, 2⟩, ⟨0, 0, 3⟩, ⟨0, 1, 2⟩, ⟨0, 1, 3⟩, ⟨0, 2, 3⟩]
  finite_facets := [⟨0, 0⟩, ⟨0, 1⟩, ⟨0, 2⟩, ⟨0, 3⟩]
  finite_cells := [0]
  vertex := fun _ i => i.toNat
  index := fun _ v => v
  incident_cells := fun _ => [0]
  mirror_facet := fun f => ⟨1, f.second⟩
  get_alpha_status := fun _ => ⟨true, 0, 0⟩
  get_edge_alpha_map := fun _ => ⟨false, 0, 1⟩
  get_facet_status := fun _ _ => ⟨true, 2, 5⟩
  get_alpha := fun _ => 3

/-- Three points of weight `p`, the three edges between them of weight `w` and
the facet they bound of weight `w2`: the facet opposite to the local vertex 3
of the cell 0.  The mirror facet lies in an outer cell 1. -/
def triangle (p w w2 : FT) : Alpha_shape_3 where
  finite_vertices := [0, 1, 2]
  finite_edges := [⟨0, 0, 1⟩, ⟨0, 0, 2⟩, ⟨0, 1, 2⟩]
  finite_facets := [⟨0, 3⟩]
  finite_cells := []
  vertex := fun _ i => i.toNat
  index := fun _ v => v
  incident_cells := fun _ => [0]
  mirror_facet := fun f => ⟨1, f.second⟩
  get_alpha_status := fun _ => ⟨true, p, p⟩
  get_edge_alpha_map := fun _ => ⟨true, w, w⟩
  get_facet_status := fun _ _ => ⟨true, w2, w2⟩
  get_alpha := fun _ => 0

/-- The loop state that `build` returns (the initial state if the loop fails). -/
def built (T : Alpha_shape_3) : Loop_state :=
  (build T).getD (Loop_state.init 0)

/-! ## Invariance under relabeling: auxiliary definitions -/

/-- The entry at a position of a filtration (a vertex of weight 0 outside it). -/
def entry_at (l : List Triple) (r : ℕ) : Triple :=
  l.getD r ⟨0, 0, Object.vertex 0⟩

/-- A set of positions of a filtration as a vector over the two-element
field, indexed by the entries: the coordinate of an entry is 1 when its position
is in the set. -/
def vec (l : List Triple) (s : Finset ℕ) : Triple → ZMod 2 :=
  fun t => if t ∈ l ∧ l.indexOf t ∈ s then 1 else 0

/-- The restriction of a vector to the coordinates selected by `U`. -/
def restrict_to {X : Type} (U : X → Bool) : (X → ZMod 2) →ₗ[ZMod 2] (X → ZMod 2) where
  toFun := fun v x => if U x then v x else 0
  map_add' := by
    intro v w
    funext x
    by_cases h : U x <;> simp [h]
  map_smul' := by
    intro a v
    funext x
    by_cases h : U x <;> simp [h]

/-- The slots that the iteration for an object assigns, as a list. -/
def Object.written (T : Alpha_shape_3) : Object → List Slot
  | Object.vertex v => [Slot.v v]
  | Object.edge e =>
    (T.incident_cells e).filterMap fun c =>
      (edge_conv (T.index c (e.v1 T)) (T.index c (e.v2 T))).map (Slot.e c)
  | Object.facet f =>
    [Slot.f f.first f.second, Slot.f (T.mirror_facet f).first (T.mirror_facet f).second]
  | Object.cell _ => []

/-- Entry `a` is a declared boundary face of entry `b`: `b` reads a slot that `a` writes. -/
def is_face (T : Alpha_shape_3) (a b : Triple) : Bool :=
  (b.third.reads T).any fun σ =>
    match σ with
    | some σ => a.third.writes T σ
    | none => false

/-- A valid complex: no cell is listed twice and no index slot is written by
two different cells. -/
def Valid_complex (T : Alpha_shape_3) : Prop :=
  (circumradii T).Nodup ∧
  ∀ a ∈ circumradii T, ∀ b ∈ circumradii T,
    (∃ σ ∈ a.third.written T, σ ∈ b.third.written T) → a = b

instance (T : Alpha_shape_3) : Decidable (Valid_complex T) := by
  unfold Valid_complex
  infer_instance

/-- The boundary of an entry as a vector over the two-element field, indexed by
the entries: the coordinate of a listed cell is 1 when it is a declared face. -/
def face_vec (T : Alpha_shape_3) (b : Triple) : Triple → ZMod 2 :=
  fun t => if t ∈ circumradii T ∧ is_face T t b = true then 1 else 0

/-- The same alpha shape with its cells supplied in another order. -/
def reorder (T : Alpha_shape_3) (vs : List Vertex_handle) (es : List Edge) (fs : List Facet)
    (cs : List Cell_handle) : Alpha_shape_3 :=
  { T with finite_vertices := vs, finite_edges := es, finite_facets := fs, finite_cells := cs }

/-- The entries whose key (weight, dimension) is at least `(x, d)`. -/
def key_ge (x : FT) (d : ℕ) (t : Triple) : Bool :=
  !(Sort_triples t ⟨x, d, Object.vertex 0⟩)

/-- The entries whose key (weight, dimension) is above `(x, d)`. -/
def key_gt (x : FT) (d : ℕ) (t : Triple) : Bool :=
  Sort_triples ⟨x, d, Object.vertex 0⟩ t

/-- The entries of weight below `y`. -/
def weight_lt (y : FT) (t : Triple) : Bool := decide (t.first < y)

/-- The entries of weight at most `y`. -/
def weight_le (y : FT) (t : Triple) : Bool := decide (t.first ≤ y)

/-- The number of columns, among those of the entries selected by `P`, whose
reduced form has its lowest one at an entry selected by `U`. -/
def low_count (l : List Triple) (st : Reducer_state) (U P : Triple → Bool) : ℕ :=
  ((Finset.range (l.countP P)).filter fun c =>
    ((get_max_index (st.matrix.getD c ∅)).map fun r => U (entry_at l r)).getD false = true).card

/-- The conditions under which the iteration for an object can run at all,
whatever the state: `edge_conv` does not throw on a local edge it is asked for. -/
def Object.well_formed (T : Alpha_shape_3) (o : Object) : Prop :=
  (∀ σ ∈ o.reads T, σ ≠ none) ∧
  ∀ e, o = Object.edge e →
    ∀ c ∈ T.incident_cells e, edge_conv (T.index c (e.v1 T)) (T.index c (e.v2 T)) ≠ none

/-! ## Scenarios: auxiliary definitions -/

/-- Every boundary face that the iteration for an object reads is a listed
cell: the specification's "no dangling boundary references (every referenced
face exists in the set)". -/
def Object.resolved (T : Alpha_shape_3) (o : Object) : Prop :=
  ∀ σ ∈ o.reads T, ∃ u ∈ circumradii T, σ.map (u.third.writes T) = some true

instance (T : Alpha_shape_3) (o : Object) : Decidable (o.resolved T) := by
  unfold Object.resolved
  infer_instance

/-- The conditions of `Object.well_formed`, in a form that can be evaluated. -/
def Object.well_formed_bool (T : Alpha_shape_3) (o : Object) : Bool :=
  (o.reads T).all (fun σ => σ.isSome) &&
    match o with
    | Object.edge e =>
      (T.incident_cells e).all fun c =>
        (edge_conv (T.index c (e.v1 T)) (T.index c (e.v2 T))).isSome
    | _ => true

/-- The entries of dimension at most `k`. -/
def dim_le (k : ℕ) (t : Triple) : Bool := decide (t.second ≤ k)

/-- The boundary of a boundary vanishes over the two-element field: between
any two listed cells, the number of listed cells that have the one as a face
and are a face of the other is even. -/
def Boundary_squared_zero (T : Alpha_shape_3) : Prop :=
  ∀ t ∈ circumradii T, ∀ u ∈ circumradii T,
    ((circumradii T).filter fun m => is_face T u m && is_face T m t).length % 2 = 0

instance (T : Alpha_shape_3) : Decidable (Boundary_squared_zero T) := by
  unfold Boundary_squared_zero
  infer_instance

/-- The filtration entry of a 0-cell. -/
def vertex_entry (T : Alpha_shape_3) (v : Vertex_handle) : Triple :=
  ⟨vertex_alpha T v, 0, Object.vertex v⟩


/-! # Properties -/

/-! ## The index slots and the loop -/

theorem CGAL_assertion_bind {α : Type} (b : Bool) (f : Unit → Option α) :
    (CGAL_assertion b).bind f = if b then f () else none := by
  cases b <;> simp [CGAL_assertion]

theorem sort_pair_lt (i1 i2 : ℕ) :
    std_sort (fun a b : ℕ => decide (a < b)) [i1, i2] = if i1 > i2 then [i2, i1] else [i1, i2] := by
  simp only [std_sort, List.insertionSort, List.orderedInsert]
  by_cases h : i1 > i2
  · have : ¬ i2 < i1 ↔ False := by simp; omega
    simp [h]
  · simp [h]

theorem edge_column_eq (T : Alpha_shape_3) (s : Loop_state) (e : Edge) :
    edge_column T s e = column_of T s (Object.edge e) := by
  simp only [edge_column, column_of, Object.reads, Map.at, Map.get, Vertex_info_3.index,
    Vertex_info_3.has_index, Loop_state.slot, Loop_state.slots, CGAL_assertion_bind, sort_pair_lt]
  cases h1 : s.v_info (e.v1 T) with
  | none => simp [h1]
  | some vi1 =>
    cases h1' : vi1.index_ with
    | none => simp [h1, h1']
    | some i1 =>
      cases h2 : s.v_info (e.v2 T) with
      | none => simp [h1, h2, h1']
      | some vi2 =>
        cases h2' : vi2.index_ with
        | none => simp [h1, h2, h1', h2']
        | some i2 =>
          simp [h1, h2, h1', h2', CGAL_assertion, sort_pair_lt]

theorem edge_index_eq (ci : Cell_info_3) (a b : ℤ) :
    ci.edge_index a b = (edge_conv a b).bind fun k => ci.edge_index_ k := by
  simp only [Cell_info_3.edge_index, Cell_info_3.has_edge_index, CGAL_assertion_bind]
  cases h : edge_conv a b with
  | none => simp
  | some k => cases h' : ci.edge_index_ k <;> simp [h']

theorem facet_index_eq (ci : Cell_info_3) (i : ℤ) (h0 : 0 ≤ i) (h4 : i < 4) :
    ci.facet_index i = ci.facet_index_ i := by
  simp only [Cell_info_3.facet_index, Cell_info_3.has_facet_index, CGAL_assertion_bind]
  cases h' : ci.facet_index_ i <;> simp [h', h0, h4]

theorem at_edge_index_eq (s : Loop_state) (c : Cell_handle) (a b : ℤ) :
    ((s.c_info.at c).bind fun ci => ci.edge_index a b) =
      ((edge_conv a b).map (Slot.e c)).bind s.slot := by
  simp only [Map.at, edge_index_eq, Loop_state.slot]
  cases h : edge_conv a b with
  | none => cases s.c_info c <;> simp
  | some k => simp [Loop_state.slot]

theorem facet_column_eq (T : Alpha_shape_3) (s : Loop_state) (f : Facet) :
    facet_column s f = column_of T s (Object.facet f) := by
  simp only [facet_column, column_of, Object.reads, Loop_state.slots, at_edge_index_eq]
  cases ((edge_conv (Int.tmod (f.second + 1) 4) (Int.tmod (f.second + 2) 4)).map
      (Slot.e f.first)).bind s.slot <;>
    cases ((edge_conv (Int.tmod (f.second + 1) 4) (Int.tmod (f.second + 3) 4)).map
      (Slot.e f.first)).bind s.slot <;>
    cases ((edge_conv (Int.tmod (f.second + 2) 4) (Int.tmod (f.second + 3) 4)).map
      (Slot.e f.first)).bind s.slot <;> simp

theorem at_facet_index_eq (s : Loop_state) (c : Cell_handle) (i : ℤ) (h0 : 0 ≤ i) (h4 : i < 4) :
    ((s.c_info.at c).bind fun ci => ci.facet_index i) = s.slot (Slot.f c i) := by
  simp only [Map.at, Loop_state.slot]
  cases s.c_info c <;> simp [facet_index_eq, h0, h4]

theorem cell_column_eq (T : Alpha_shape_3) (s : Loop_state) (c : Cell_handle) :
    cell_column s c = column_of T s (Object.cell c) := by
  simp only [cell_column, column_of, Object.reads, Loop_state.slots]
  rw [at_facet_index_eq s c 0 (by norm_num) (by norm_num),
    at_facet_index_eq s c 1 (by norm_num) (by norm_num),
    at_facet_index_eq s c 2 (by norm_num) (by norm_num),
    at_facet_index_eq s c 3 (by norm_num) (by norm_num)]
  simp only [Option.some_bind]
  cases s.slot (Slot.f c 0) <;> cases s.slot (Slot.f c 1) <;>
    cases s.slot (Slot.f c 2) <;> cases s.slot (Slot.f c 3) <;> simp
theorem set_edge_fold_slot (T : Alpha_shape_3) (v1 v2 : Vertex_handle) (I : ℕ)
    (L : List Cell_handle) :
    ∀ (ci ci' : Map Cell_handle Cell_info_3),
      L.foldlM (fun ci ch =>
        ((ci.get Cell_info_3.new ch).set_edge_index (T.index ch v1) (T.index ch v2) I).map
          fun info => ci.set ch info) ci = some ci' →
      (∀ c k, ((ci' c).bind fun x => x.edge_index_ k) =
        if c ∈ L ∧ edge_conv (T.index c v1) (T.index c v2) = some k then some I
        else (ci c).bind fun x => x.edge_index_ k) ∧
      (∀ c i, ((ci' c).bind fun x => x.facet_index_ i) = (ci c).bind fun x => x.facet_index_ i) := by
  induction L with
  | nil =>
    intro ci ci' h
    simp at h
    subst h
    simp
  | cons ch L ih =>
    intro ci ci' h
    rw [List.foldlM_cons] at h
    cases hstep : ((ci.get Cell_info_3.new ch).set_edge_index (T.index ch v1) (T.index ch v2) I).map
          fun info => ci.set ch info with
    | none => rw [hstep] at h; simp at h
    | some ci1 =>
      rw [hstep] at h
      simp only [Option.some_bind, Option.bind_eq_bind] at h
      obtain ⟨ih1, ih2⟩ := ih ci1 ci' h
      simp only [Cell_info_3.set_edge_index, Option.map_map, Option.map_eq_some'] at hstep
      obtain ⟨k0, hk0, hci1⟩ := hstep
      subst hci1
      constructor
      · intro c k
        rw [ih1]
        by_cases hc : c = ch
        · subst hc
          by_cases hk : k = k0
          · subst hk
            simp [hk0, Map.set]
          · have hk' : ¬ (edge_conv (T.index c v1) (T.index c v2) = some k) := by
              rw [hk0]; simp; exact fun h => hk h.symm
            simp [hk', Map.set, Map.get, hk]
            cases ci c <;> simp [Cell_info_3.new]
        · simp [Map.set, hc]
      · intro c i
        rw [ih2]
        by_cases hc : c = ch
        · subst hc
          simp [Map.set, Map.get]
          cases ci c <;> simp [Cell_info_3.new]
        · simp [Map.set, hc]

theorem set_index_of_edge_slot (T : Alpha_shape_3) (e : Edge) (I : ℕ)
    (ci ci' : Map Cell_handle Cell_info_3) (h : set_index_of_edge T e ci I = some ci') :
    (∀ c k, ((ci' c).bind fun x => x.edge_index_ k) =
        if (Object.edge e).writes T (Slot.e c k) then some I
        else (ci c).bind fun x => x.edge_index_ k) ∧
      (∀ c i, ((ci' c).bind fun x => x.facet_index_ i) = (ci c).bind fun x => x.facet_index_ i) := by
  have := set_edge_fold_slot T (T.vertex e.first e.second) (T.vertex e.first e.third) I
    (T.incident_cells e) ci ci' h
  refine ⟨fun c k => ?_, this.2⟩
  rw [this.1]
  simp [Object.writes, Edge.v1, Edge.v2]

theorem set_facet_one_slot (ci : Map Cell_handle Cell_info_3) (c0 : Cell_handle) (i0 : ℤ)
    (I : ℕ) :
    (∀ c k, (((ci.set c0 ((ci.get Cell_info_3.new c0).set_facet_index i0 I)) c).bind
        fun x => x.edge_index_ k) = (ci c).bind fun x => x.edge_index_ k) ∧
      (∀ c i, (((ci.set c0 ((ci.get Cell_info_3.new c0).set_facet_index i0 I)) c).bind
        fun x => x.facet_index_ i) =
        if c = c0 ∧ i = i0 then some I else (ci c).bind fun x => x.facet_index_ i) := by
  constructor
  · intro c k
    by_cases hc : c = c0
    · subst hc
      simp [Map.set, Map.get, Cell_info_3.set_facet_index]
      cases ci c <;> simp [Cell_info_3.new]
    · simp [Map.set, hc]
  · intro c i
    by_cases hc : c = c0
    · subst hc
      by_cases hi : i = i0
      · simp [Map.set, Map.get, Cell_info_3.set_facet_index, hi]
      · simp [Map.set, Map.get, Cell_info_3.set_facet_index, hi]
        cases ci c <;> simp [Cell_info_3.new]
    · simp [Map.set, hc]

theorem set_index_of_facet_slot (T : Alpha_shape_3) (f : Facet) (I : ℕ)
    (ci : Map Cell_handle Cell_info_3) :
    (∀ c k, (((set_index_of_facet T f ci I) c).bind fun x => x.edge_index_ k) =
        (ci c).bind fun x => x.edge_index_ k) ∧
      (∀ c i, (((set_index_of_facet T f ci I) c).bind fun x => x.facet_index_ i) =
        if (Object.facet f).writes T (Slot.f c i) then some I
        else (ci c).bind fun x => x.facet_index_ i) := by
  have h1 := set_facet_one_slot ci f.first f.second I
  have h2 := set_facet_one_slot
    (ci.set f.first ((ci.get Cell_info_3.new f.first).set_facet_index f.second I))
    (T.mirror_facet f).first (T.mirror_facet f).second I
  constructor
  · intro c k
    simp only [set_index_of_facet]
    rw [h2.1, h1.1]
  · intro c i
    simp only [set_index_of_facet]
    rw [h2.2, h1.2]
    simp only [Object.writes, Bool.or_eq_true, decide_eq_true_eq]
    by_cases ha : c = (T.mirror_facet f).first ∧ i = (T.mirror_facet f).second
    · simp [ha]
    · by_cases hb : c = f.first ∧ i = f.second
      · simp [hb]
      · simp [ha, hb]
theorem loop_body_some (T : Alpha_shape_3) (s s' : Loop_state) (t : Triple)
    (h : loop_body T s t = some s') :
    ∃ col, column_of T s t.third = some col ∧
      s'.curr_index = s.curr_index + 1 ∧
      s'.boundary_matrix.matrix = s.boundary_matrix.matrix.set s.curr_index col ∧
      s'.boundary_matrix.dims = s.boundary_matrix.dims.set s.curr_index t.third.dim ∧
      s'.alpha_map = s.alpha_map.set s.curr_index (t.second, t.first) ∧
      ∀ σ, s'.slot σ = if t.third.writes T σ then some s.curr_index else s.slot σ := by
  unfold loop_body at h
  cases ht : t.third with
  | vertex v =>
    simp only [ht, Option.some.injEq] at h
    subst h
    refine ⟨[], by simp [column_of, Object.reads, Loop_state.slots, std_sort], rfl, rfl, rfl, rfl, ?_⟩
    intro σ
    cases σ with
    | v v' =>
      by_cases hv : v' = v
      · simp [Loop_state.slot, Object.writes, Map.set, hv, Vertex_info_3.set_index]
      · simp [Loop_state.slot, Object.writes, Map.set, hv]
    | e c k => simp [Loop_state.slot, Object.writes]
    | f c i => simp [Loop_state.slot, Object.writes]
  | edge e =>
    simp only [ht] at h
    rw [edge_column_eq] at h
    cases hcol : column_of T s (Object.edge e) with
    | none => simp [hcol] at h
    | some col =>
      cases hci : set_index_of_edge T e s.c_info s.curr_index with
      | none => simp [hcol, hci] at h
      | some ci =>
        simp only [hcol, hci, Option.some_bind, Option.some.injEq] at h
        subst h
        refine ⟨col, rfl, rfl, rfl, rfl, rfl, ?_⟩
        have hs := set_index_of_edge_slot T e s.curr_index s.c_info ci hci
        intro σ
        cases σ with
        | v v' => simp [Loop_state.slot, Object.writes]
        | e c k => simp only [Loop_state.slot]; exact hs.1 c k
        | f c i => simp only [Loop_state.slot, Object.writes]; simpa using hs.2 c i
  | facet f =>
    simp only [ht] at h
    rw [facet_column_eq T] at h
    cases hcol : column_of T s (Object.facet f) with
    | none => simp [hcol] at h
    | some col =>
      simp only [hcol, Option.some_bind, Option.some.injEq] at h
      subst h
      refine ⟨col, rfl, rfl, rfl, rfl, rfl, ?_⟩
      have hs := set_index_of_facet_slot T f s.curr_index s.c_info
      intro σ
      cases σ with
      | v v' => simp [Loop_state.slot, Object.writes]
      | e c k => simp only [Loop_state.slot, Object.writes]; simpa using hs.1 c k
      | f c i => simp only [Loop_state.slot]; exact hs.2 c i
  | cell c =>
    simp only [ht] at h
    rw [cell_column_eq T] at h
    cases hcol : column_of T s (Object.cell c) with
    | none => simp [hcol] at h
    | some col =>
      simp only [hcol, Option.some_bind, Option.some.injEq] at h
      subst h
      refine ⟨col, rfl, rfl, rfl, rfl, rfl, ?_⟩
      intro σ
      cases σ <;> simp [Loop_state.slot, Object.writes]
theorem std_sort_perm {α : Type} (comp : α → α → Bool) (l : List α) :
    (std_sort comp l).Perm l :=
  List.perm_insertionSort _ l

theorem mem_std_sort {α : Type} (comp : α → α → Bool) (l : List α) (x : α) :
    x ∈ std_sort comp l ↔ x ∈ l :=
  (std_sort_perm comp l).mem_iff

theorem length_std_sort {α : Type} (comp : α → α → Bool) (l : List α) :
    (std_sort comp l).length = l.length :=
  (std_sort_perm comp l).length_eq

theorem slots_some (s : Loop_state) (L : List (Option Slot)) :
    ∀ is, s.slots L = some is →
      List.Forall₂ (fun (σ : Option Slot) (i : ℕ) => σ.bind s.slot = some i) L is := by
  induction L with
  | nil =>
    intro is h
    simp [Loop_state.slots] at h
    subst h
    exact List.Forall₂.nil
  | cons σ L ih =>
    intro is h
    simp only [Loop_state.slots] at h
    cases h1 : σ.bind s.slot with
    | none => simp [h1] at h
    | some i =>
      cases h2 : s.slots L with
      | none => simp [h1, h2] at h
      | some js =>
        simp [h1, h2] at h
        subst h
        exact List.Forall₂.cons h1 (ih js h2)

theorem slots_mem (s : Loop_state) (L : List (Option Slot)) (is : List ℕ)
    (h : s.slots L = some is) (r : ℕ) (hr : r ∈ is) :
    ∃ σ, some σ ∈ L ∧ s.slot σ = some r := by
  have hf := slots_some s L is h
  induction hf with
  | nil => simp at hr
  | cons hab _ ih =>
    rename_i a b l1 l2 htail
    simp only [List.mem_cons] at hr
    rcases hr with hr | hr
    · subst hr
      cases a with
      | none => simp at hab
      | some σ => exact ⟨σ, by simp, by simpa using hab⟩
    · cases hs2 : s.slots l1 with
      | none =>
        simp only [Loop_state.slots, hab, Option.some_bind, hs2, Option.map_none'] at h
        cases h
      | some js =>
        simp only [Loop_state.slots, hab, Option.some_bind, hs2, Option.map_some',
          Option.some.injEq, List.cons.injEq, true_and] at h
        subst h
        obtain ⟨σ, hσ, hs⟩ := ih hs2 hr
        exact ⟨σ, List.mem_cons_of_mem _ hσ, hs⟩

theorem column_of_mem (T : Alpha_shape_3) (s : Loop_state) (o : Object) (col : Column)
    (h : column_of T s o = some col) (r : ℕ) (hr : r ∈ col) :
    ∃ σ, some σ ∈ o.reads T ∧ s.slot σ = some r := by
  simp only [column_of, Option.map_eq_some'] at h
  obtain ⟨is, his, hcol⟩ := h
  subst hcol
  rw [mem_std_sort] at hr
  exact slots_mem s _ is his r hr

theorem lt_of_getElem?_some {α : Type} {l : List α} {i : ℕ} {x : α} (h : l[i]? = some x) :
    i < l.length := by
  by_contra hcon
  have hle : l.length ≤ i := by omega
  rw [List.getElem?_eq_none hle] at h
  cases h

theorem pairwise_getElem? {α : Type} {R : α → α → Prop} {l : List α} (h : l.Pairwise R)
    {i j : ℕ} {a b : α} (hi : l[i]? = some a) (hj : l[j]? = some b) (hij : i < j) : R a b := by
  have hil := lt_of_getElem?_some hi
  have hjl := lt_of_getElem?_some hj
  have hR := List.pairwise_iff_getElem.1 h i j hil hjl hij
  rw [List.getElem?_eq_getElem hil] at hi
  rw [List.getElem?_eq_getElem hjl] at hj
  simp only [Option.some.injEq] at hi hj
  rw [← hi, ← hj]
  exact hR

theorem run_loop_append (T : Alpha_shape_3) (s : Loop_state) (p q : List Triple) :
    run_loop T s (p ++ q) = (run_loop T s p).bind fun s1 => run_loop T s1 q := by
  simp [run_loop, List.foldlM_append]

theorem run_loop_snoc (T : Alpha_shape_3) (s s' : Loop_state) (p : List Triple) (t : Triple)
    (h : run_loop T s (p ++ [t]) = some s') :
    ∃ s1, run_loop T s p = some s1 ∧ loop_body T s1 t = some s' := by
  rw [run_loop_append] at h
  cases h1 : run_loop T s p with
  | none => simp [h1] at h
  | some s1 =>
    refine ⟨s1, rfl, ?_⟩
    rw [h1] at h
    simpa [run_loop] using h

theorem run_loop_inv (T : Alpha_shape_3) (n : ℕ) (p : List Triple) :
    ∀ s, run_loop T (Loop_state.init n) p = some s → p.length ≤ n → Build_inv T n p s := by
  induction p using List.reverseRecOn with
  | nil =>
    intro s h _
    simp [run_loop] at h
    subst h
    refine ⟨rfl, by simp [Loop_state.init, Bdd_Type.set_num_cols],
      by simp [Loop_state.init, Bdd_Type.set_num_cols], by simp [Loop_state.init], ?_, ?_, ?_, ?_⟩
    · intro j hj; simp at hj
    · intro j hj; simp at hj
    · intro σ I h
      cases σ <;> simp [Loop_state.init, Loop_state.slot] at h
    · intro j r hr
      simp [Loop_state.init, Bdd_Type.set_num_cols, List.getElem?_replicate] at hr
      split at hr <;> simp at hr
  | append_singleton p t ih =>
    intro s' h hlen
    obtain ⟨s, hs, hb⟩ := run_loop_snoc T _ s' p t h
    simp only [List.length_append, List.length_singleton] at hlen
    obtain ⟨hk, hml, hdl, hal, ha, hd, hslot, hm⟩ := ih s hs (by omega)
    obtain ⟨col, hcol, hk', hm', hd', ha', hslot'⟩ := loop_body_some T s s' t hb
    refine ⟨by simp [hk', hk], by simp [hm', hml], by simp [hd', hdl], by simp [ha', hal],
      ?_, ?_, ?_, ?_⟩
    · intro j hj
      simp only [List.length_append, List.length_singleton] at hj
      rw [ha', List.getElem?_set, hk]
      by_cases hjp : p.length = j
      · subst hjp
        simp [hal]; omega
      · have : j < p.length := by omega
        simp [hjp, ha j this, List.getElem?_append_left this]
    · intro j hj
      simp only [List.length_append, List.length_singleton] at hj
      rw [hd', List.getElem?_set, hk]
      by_cases hjp : p.length = j
      · subst hjp
        simp [hdl]; omega
      · have : j < p.length := by omega
        simp [hjp, hd j this, List.getElem?_append_left this]
    · intro σ I hI
      rw [hslot'] at hI
      by_cases hw : t.third.writes T σ = true
      · simp only [hw, if_true, Option.some.injEq] at hI
        subst hI
        exact ⟨t, by simp [hk], hw⟩
      · simp only [hw, Bool.false_eq_true, if_false] at hI
        obtain ⟨t0, ht0, hw0⟩ := hslot σ I hI
        have hlt : I < p.length := lt_of_getElem?_some ht0
        exact ⟨t0, by rw [List.getElem?_append_left hlt]; exact ht0, hw0⟩
    · intro j r hr
      rw [hm', hk] at hr
      by_cases hjp : p.length = j
      · subst hjp
        have hcolj : (s.boundary_matrix.matrix.set p.length col).getD p.length [] = col := by
          have hlt' : p.length < s.boundary_matrix.matrix.length := by omega
          simp [List.getElem?_set, hlt']
        rw [hcolj] at hr
        obtain ⟨σ, hσ, hsr⟩ := column_of_mem T s t.third col hcol r hr
        obtain ⟨tr, htr, hwr⟩ := hslot σ r hsr
        have hlt : r < p.length := lt_of_getElem?_some htr
        exact ⟨t, tr, σ, by simp, by rw [List.getElem?_append_left hlt]; exact htr, hlt, hσ, hwr⟩
      · have hold : (s.boundary_matrix.matrix.set p.length col).getD j [] =
            s.boundary_matrix.matrix.getD j [] := by
          simp [List.getElem?_set, hjp]
        rw [hold] at hr
        obtain ⟨tj, tr, σ, htj, htr, hrj, hσ, hw⟩ := hm j r hr
        have hlt : j < p.length := lt_of_getElem?_some htj
        exact ⟨tj, tr, σ, by rw [List.getElem?_append_left hlt]; exact htj,
          by rw [List.getElem?_append_left (show r < p.length by omega)]; exact htr, hrj, hσ, hw⟩
theorem Sort_triples_iff (a b : Triple) :
    Sort_triples a b = true ↔
      a.first < b.first ∨ (a.first = b.first ∧ a.second < b.second) := by
  unfold Sort_triples
  by_cases h1 : a.first < b.first
  · simp [h1]
  · by_cases h2 : a.first > b.first
    · have h3 : a.first ≠ b.first := ne_of_gt h2
      simp [h1, h2, h3]
    · have h3 : a.first = b.first := le_antisymm (not_lt.mp h2) (not_lt.mp h1)
      simp [h3]

theorem Sort_triples_false_iff (a b : Triple) :
    Sort_triples b a = false ↔
      a.first < b.first ∨ (a.first = b.first ∧ a.second ≤ b.second) := by
  rw [← Bool.not_eq_true, Sort_triples_iff]
  constructor
  · intro h
    rcases lt_trichotomy a.first b.first with h1 | h1 | h1
    · exact Or.inl h1
    · refine Or.inr ⟨h1, ?_⟩
      by_contra hc
      exact h (Or.inr ⟨h1.symm, not_le.mp hc⟩)
    · exact absurd (Or.inl h1) h
  · rintro (h | ⟨h1, h2⟩) (h' | ⟨h1', h2'⟩)
    · exact lt_asymm h h'
    · rw [h1'] at h; exact lt_irrefl _ h
    · rw [h1] at h'; exact lt_irrefl _ h'
    · exact absurd h2 (not_le.mpr h2')

theorem std_sort_sorted {α : Type} (comp : α → α → Bool)
    (htotal : ∀ a b, comp b a = false ∨ comp a b = false)
    (htrans : ∀ a b c, comp b a = false → comp c b = false → comp c a = false) (l : List α) :
    (std_sort comp l).Pairwise (fun a b => comp b a = false) := by
  haveI : IsTotal α (fun a b => comp b a = false) := ⟨htotal⟩
  haveI : IsTrans α (fun a b => comp b a = false) := ⟨htrans⟩
  exact List.sorted_insertionSort (fun a b => comp b a = false) l

theorem filtration_sorted (l : List Triple) :
    (std_sort Sort_triples l).Pairwise (fun a b => Sort_triples b a = false) := by
  apply std_sort_sorted
  · intro a b
    simp only [Sort_triples_false_iff]
    rcases lt_trichotomy a.first b.first with h | h | h
    · exact Or.inl (Or.inl h)
    · rcases le_total a.second b.second with h2 | h2
      · exact Or.inl (Or.inr ⟨h, h2⟩)
      · exact Or.inr (Or.inr ⟨h.symm, h2⟩)
    · exact Or.inr (Or.inl h)
  · intro a b c
    simp only [Sort_triples_false_iff]
    rintro (h | ⟨h1, h2⟩) (h' | ⟨h1', h2'⟩)
    · exact Or.inl (lt_trans h h')
    · exact Or.inl (h1' ▸ h)
    · exact Or.inl (h1 ▸ h')
    · exact Or.inr ⟨h1.trans h1', le_trans h2 h2'⟩

theorem nat_sort_sorted (l : List ℕ) :
    (std_sort (fun a b : ℕ => decide (a < b)) l).Pairwise (fun a b => a ≤ b) := by
  have h := std_sort_sorted (fun a b : ℕ => decide (a < b))
    (by intro a b; simp; omega) (by intro a b c; simp; omega) l
  refine h.imp ?_
  intro a b hab
  simpa using hab

/-- C5: when every boundary face has weight at most its coface's weight and a
strictly smaller dimension, sorting with `Sort_triples` places every face at a
strictly smaller position than each of its cofaces, equal weights included. -/
theorem face_before_coface (l : List Triple) (face : Triple → Triple → Prop)
    (hface : ∀ a ∈ l, ∀ b ∈ l, face a b → a.first ≤ b.first ∧ a.second < b.second)
    (i j : ℕ) (a b : Triple)
    (hi : (std_sort Sort_triples l)[i]? = some a) (hj : (std_sort Sort_triples l)[j]? = some b)
    (hab : face a b) : i < j := by
  have hil := lt_of_getElem?_some hi
  have hjl := lt_of_getElem?_some hj
  have ha : a ∈ l := (mem_std_sort _ _ _).1 (List.getElem?_mem hi)
  have hb : b ∈ l := (mem_std_sort _ _ _).1 (List.getElem?_mem hj)
  obtain ⟨hw, hd⟩ := hface a ha b hb hab
  by_contra hcon
  rcases Nat.lt_or_ge j i with hji | hji
  · have hs := (List.pairwise_iff_getElem.1 (filtration_sorted l)) j i hjl hil hji
    rw [List.getElem?_eq_getElem hil] at hi
    rw [List.getElem?_eq_getElem hjl] at hj
    simp only [Option.some.injEq] at hi hj
    rw [hi, hj, Sort_triples_false_iff] at hs
    rcases hs with hs | ⟨hs1, hs2⟩
    · exact absurd hw (not_le.mpr hs)
    · exact absurd hs2 (not_le.mpr hd)
  · have hij : i = j := by omega
    subst hij
    rw [hi] at hj
    simp only [Option.some.injEq] at hj
    subst hj
    exact lt_irrefl _ hd
theorem run_loop_stable (T : Alpha_shape_3) (q : List Triple) :
    ∀ s s', run_loop T s q = some s' →
      s'.curr_index = s.curr_index + q.length ∧
      ∀ j : ℕ, j < s.curr_index →
        s'.boundary_matrix.matrix.getD j [] = s.boundary_matrix.matrix.getD j [] := by
  induction q with
  | nil =>
    intro s s' h
    simp [run_loop] at h
    subst h
    simp
  | cons t q ih =>
    intro s s' h
    have h' : run_loop T s ([t] ++ q) = some s' := by simpa using h
    rw [run_loop_append] at h'
    cases h1 : run_loop T s [t] with
    | none => simp [h1] at h'
    | some s1 =>
      rw [h1] at h'
      simp only [Option.some_bind] at h'
      have hb : loop_body T s t = some s1 := by simpa [run_loop] using h1
      obtain ⟨col, -, hk', hm', -, -, -⟩ := loop_body_some T s s1 t hb
      obtain ⟨hc, hst⟩ := ih s1 s' h'
      refine ⟨by simp [hc, hk']; omega, ?_⟩
      intro j hj
      rw [hst j (by omega), hm']
      have hne : ¬ s.curr_index = j := by omega
      simp [List.getElem?_set, hne]

theorem take_succ_of_getElem? {α : Type} (l : List α) (k : ℕ) (t : α) (h : l[k]? = some t) :
    l.take (k + 1) = l.take k ++ [t] := by
  rw [List.take_succ, h]
  rfl

theorem build_step (T : Alpha_shape_3) (s : Loop_state) (h : build T = some s) (k : ℕ)
    (t : Triple) (hk : (filtration T)[k]? = some t) :
    ∃ sk sk1, run_loop T (Loop_state.init (filtration T).length) ((filtration T).take k) = some sk ∧
      loop_body T sk t = some sk1 ∧
      run_loop T (Loop_state.init (filtration T).length) ((filtration T).take (k + 1)) = some sk1 ∧
      Build_inv T (filtration T).length ((filtration T).take k) sk ∧
      sk.curr_index = k ∧
      s.boundary_matrix.get_col k = sk1.boundary_matrix.get_col k := by
  have hkl := lt_of_getElem?_some hk
  have hsplit : filtration T = (filtration T).take (k + 1) ++ (filtration T).drop (k + 1) :=
    (List.take_append_drop _ _).symm
  unfold build at h
  rw [hsplit, run_loop_append] at h
  rw [← hsplit] at h
  cases h1 : run_loop T (Loop_state.init (filtration T).length) ((filtration T).take (k + 1)) with
  | none => simp [h1] at h
  | some sk1 =>
    rw [h1] at h
    simp only [Option.some_bind] at h
    rw [take_succ_of_getElem? _ k t hk] at h1
    obtain ⟨sk, hsk, hb⟩ := run_loop_snoc T _ sk1 _ t h1
    have hinv := run_loop_inv T (filtration T).length _ sk hsk
      (by rw [List.length_take]; exact min_le_right _ _)
    have hck : sk.curr_index = k := by
      rw [hinv.1, List.length_take]; exact min_eq_left (le_of_lt hkl)
    obtain ⟨-, -, hk', -, -, -, -⟩ := loop_body_some T sk sk1 t hb
    refine ⟨sk, sk1, hsk, hb, ?_, hinv, hck, ?_⟩
    · rfl
    · have := (run_loop_stable T _ sk1 s h).2 k (by omega)
      simpa [Bdd_Type.get_col] using this

theorem build_inv (T : Alpha_shape_3) (s : Loop_state) (h : build T = some s) :
    Build_inv T (filtration T).length (filtration T) s :=
  run_loop_inv T _ _ s h (le_refl _)

/-- C1: when the index assignment succeeds, every row index stored in column
`j` of the built boundary matrix is strictly less than `j`. -/
theorem upper_triangular_invariant (T : Alpha_shape_3) (s : Loop_state)
    (h : build T = some s) (j r : ℕ) (hr : r ∈ s.boundary_matrix.get_col j) : r < j := by
  obtain ⟨-, -, -, -, -, -, -, hm⟩ := build_inv T s h
  obtain ⟨_, _, _, _, _, hrj, _, _⟩ := hm j r hr
  exact hrj
theorem circumradii_dim (T : Alpha_shape_3) (t : Triple) (ht : t ∈ circumradii T) :
    t.second = t.third.dim := by
  simp only [circumradii, List.mem_append, List.mem_map] at ht
  rcases ht with ((⟨v, -, rfl⟩ | ⟨e, -, rfl⟩) | ⟨f, -, rfl⟩) | ⟨c, -, rfl⟩ <;> rfl

theorem filtration_dim (T : Alpha_shape_3) (t : Triple) (ht : t ∈ filtration T) :
    t.second = t.third.dim :=
  circumradii_dim T t ((mem_std_sort _ _ _).1 ht)

theorem assigned_index_eq (T : Alpha_shape_3) (s : Loop_state) (h : build T = some s) (k : ℕ)
    (hk : k < (filtration T).length) : assigned_index T k = some k := by
  have hk' : (filtration T)[k]? = some ((filtration T)[k]) := List.getElem?_eq_getElem hk
  obtain ⟨sk, sk1, hsk, -, -, -, hck, -⟩ := build_step T s h k _ hk'
  simp [assigned_index, hsk, hck]

/-- C9: when the loop runs through, the cell at position `k` of the sorted
sequence is processed with `curr_index = k`, the slots it writes hold `k`
afterwards, `alpha_map` and the matrix dimensions hold its dimension and weight
at slot `k`, and the map from positions to assigned indices is injective with
image exactly the indices below the filtration size. -/
theorem index_assignment_is_position (T : Alpha_shape_3) (s : Loop_state)
    (h : build T = some s) :
    (∀ k t, (filtration T)[k]? = some t →
      assigned_index T k = some k ∧
      ∃ s1, run_loop T (Loop_state.init (filtration T).length) ((filtration T).take (k + 1)) =
          some s1 ∧
        ∀ σ, t.third.writes T σ = true → s1.slot σ = some k) ∧
    s.alpha_map = (filtration T).map (fun t => (t.second, t.first)) ∧
    s.boundary_matrix.dims = (filtration T).map (fun t => t.third.dim) ∧
    (∀ t, t ∈ filtration T → t.second = t.third.dim) ∧
    (∀ k1 k2, k1 < (filtration T).length → k2 < (filtration T).length →
      assigned_index T k1 = assigned_index T k2 → k1 = k2) ∧
    (∀ i, i < (filtration T).length →
      ∃ k, k < (filtration T).length ∧ assigned_index T k = some i) := by
  obtain ⟨-, -, hdl, hal, ha, hd, -, -⟩ := build_inv T s h
  refine ⟨?_, ?_, ?_, filtration_dim T, ?_, ?_⟩
  · intro k t hk
    refine ⟨assigned_index_eq T s h k (lt_of_getElem?_some hk), ?_⟩
    obtain ⟨sk, sk1, -, hb, hsk1, -, hck, -⟩ := build_step T s h k t hk
    obtain ⟨-, -, -, -, -, -, hslot⟩ := loop_body_some T sk sk1 t hb
    refine ⟨sk1, hsk1, ?_⟩
    intro σ hσ
    rw [hslot σ, hσ, hck]
    rfl
  · apply List.ext_getElem?
    intro j
    by_cases hj : j < (filtration T).length
    · rw [ha j hj, List.getElem?_map]
    · rw [List.getElem?_eq_none (by omega), List.getElem?_eq_none (by simp; omega)]
  · apply List.ext_getElem?
    intro j
    by_cases hj : j < (filtration T).length
    · rw [hd j hj, List.getElem?_map]
    · rw [List.getElem?_eq_none (by omega), List.getElem?_eq_none (by simp; omega)]
  · intro k1 k2 h1 h2 heq
    rw [assigned_index_eq T s h k1 h1, assigned_index_eq T s h k2 h2] at heq
    exact Option.some.inj heq
  · intro i hi
    exact ⟨i, hi, assigned_index_eq T s h i hi⟩

theorem reads_length (T : Alpha_shape_3) (o : Object) (h : 1 ≤ o.dim) :
    (o.reads T).length = o.dim + 1 := by
  cases o <;> simp [Object.reads, Object.dim] at h ⊢

theorem slots_length (s : Loop_state) (L : List (Option Slot)) (is : List ℕ)
    (h : s.slots L = some is) : is.length = L.length :=
  (List.Forall₂.length_eq (slots_some s L is h)).symm

theorem built_column (T : Alpha_shape_3) (s : Loop_state) (h : build T = some s)
    (k : ℕ) (t : Triple) (hk : (filtration T)[k]? = some t) :
    ∃ sk is,
      run_loop T (Loop_state.init (filtration T).length) ((filtration T).take k) = some sk ∧
      sk.slots (t.third.reads T) = some is ∧
      (∀ r, r ∈ s.boundary_matrix.get_col k ↔ r ∈ is) ∧
      (t.third.dim = 0 → s.boundary_matrix.get_col k = []) ∧
      (is.Nodup →
        (s.boundary_matrix.get_col k).Pairwise (fun a b => a < b) ∧
        (1 ≤ t.third.dim → (s.boundary_matrix.get_col k).length = t.third.dim + 1)) := by
  obtain ⟨sk, sk1, hsk, hb, -, hinv, hck, hcol⟩ := build_step T s h k t hk
  obtain ⟨col, hco, -, hm', -, -, -⟩ := loop_body_some T sk sk1 t hb
  have hkl := lt_of_getElem?_some hk
  have hget : s.boundary_matrix.get_col k = col := by
    rw [hcol]
    have hlt : k < sk.boundary_matrix.matrix.length := by rw [hinv.2.1]; exact hkl
    simp [Bdd_Type.get_col, hm', hck, List.getElem?_set, hlt]
  simp only [column_of, Option.map_eq_some'] at hco
  obtain ⟨is, his, hsort⟩ := hco
  refine ⟨sk, is, hsk, his, ?_, ?_, ?_⟩
  · intro r
    rw [hget, ← hsort, mem_std_sort]
  · intro hd
    have hr : t.third.reads T = [] := by
      cases ht : t.third <;> simp [ht, Object.dim, Object.reads] at hd ⊢
    rw [hr] at his
    simp [Loop_state.slots] at his
    rw [hget, ← hsort, his]
    rfl
  · intro hnd
    rw [hget, ← hsort]
    constructor
    · have hs := nat_sort_sorted is
      have hnd' : (std_sort (fun a b : ℕ => decide (a < b)) is).Nodup :=
        (std_sort_perm _ is).nodup_iff.2 hnd
      exact List.Pairwise.imp₂ (fun a b hle hne => lt_of_le_of_ne hle hne) hs hnd'
    · intro hd
      rw [length_std_sort, slots_length sk _ is his, reads_length T _ hd]

theorem mem_writers (T : Alpha_shape_3) (l : List Triple) (σ : Slot) (i : ℕ) :
    i ∈ writers T l σ ↔ ∃ a, l[i]? = some a ∧ a.third.writes T σ = true := by
  simp only [writers, List.mem_filter, List.mem_range, beq_iff_eq, Option.map_eq_some']
  constructor
  · rintro ⟨-, a, ha, hw⟩
    exact ⟨a, ha, hw⟩
  · rintro ⟨a, ha, hw⟩
    exact ⟨lt_of_getElem?_some ha, a, ha, hw⟩

theorem slots_eq_faces (T : Alpha_shape_3) (l : List Triple) (k : ℕ) (sk : Loop_state)
    (hslot : ∀ (σ : Slot) (I : ℕ), sk.slot σ = some I →
      I < k ∧ ∃ a, l[I]? = some a ∧ a.third.writes T σ = true)
    (L : List (Option Slot)) (is : List ℕ)
    (hf : List.Forall₂ (fun (σ : Option Slot) (i : ℕ) => σ.bind sk.slot = some i) L is) :
    ∀ faces : List ℕ,
      L.map (fun σ => σ.map (writers T l)) = faces.map (fun i => some [i]) →
      is = faces ∧ ∀ i ∈ faces, i < k := by
  induction hf with
  | nil =>
    intro faces h
    cases faces with
    | nil => exact ⟨rfl, by simp⟩
    | cons f faces => simp at h
  | @cons σ i L is hσ _ ih =>
    intro faces h
    cases faces with
    | nil => simp at h
    | cons f faces =>
      simp only [List.map_cons, List.cons.injEq] at h
      obtain ⟨hhead, htail⟩ := h
      obtain ⟨hrest, hlt⟩ := ih faces htail
      cases σ with
      | none => simp at hσ
      | some σ' =>
        simp only [Option.some_bind] at hσ
        simp only [Option.map_some', Option.some.injEq] at hhead
        obtain ⟨hik, a, ha, hw⟩ := hslot σ' i hσ
        have hmem : i ∈ writers T l σ' := (mem_writers T l σ' i).2 ⟨a, ha, hw⟩
        rw [hhead, List.mem_singleton] at hmem
        subst hmem
        refine ⟨by rw [hrest], ?_⟩
        intro j hj
        simp only [List.mem_cons] at hj
        rcases hj with rfl | hj
        · exact hik
        · exact hlt j hj

/-- C10: in the built matrix every entry of the column of the cell at position
`k` is the filtration index of a preceding cell that is a declared boundary
face of it, and a dimension-0 cell has the empty column.  When each declared
boundary face of the cell is one listed cell, at the positions `faces` of the
filtration, and these cells are distinct, the faces all precede the cell and
its column is the ascending list of exactly those positions: strictly
ascending, with `d + 1` entries for a cell of dimension `d ≥ 1`. -/
theorem boundary_column_shape (T : Alpha_shape_3) (s : Loop_state) (h : build T = some s)
    (k : ℕ) (t : Triple) (hk : (filtration T)[k]? = some t) :
    (t.third.dim = 0 → s.boundary_matrix.get_col k = []) ∧
    (∀ r ∈ s.boundary_matrix.get_col k, r < k ∧
      ∃ σ a, some σ ∈ t.third.reads T ∧ (filtration T)[r]? = some a ∧
        a.third.writes T σ = true) ∧
    ∀ faces : List ℕ,
      (t.third.reads T).map (fun σ => σ.map (writers T (filtration T))) =
        faces.map (fun i => some [i]) →
      faces.Nodup →
      s.boundary_matrix.get_col k = std_sort (fun a b : ℕ => decide (a < b)) faces ∧
      (∀ i ∈ faces, i < k) ∧
      (∀ r, r ∈ s.boundary_matrix.get_col k ↔ r ∈ faces) ∧
      (s.boundary_matrix.get_col k).Pairwise (fun a b => a < b) ∧
      (1 ≤ t.third.dim → (s.boundary_matrix.get_col k).length = t.third.dim + 1) := by
  obtain ⟨sk, sk1, hsk, hb, -, hinv, hck, hcol⟩ := build_step T s h k t hk
  obtain ⟨col, hco, -, hm', -, -, -⟩ := loop_body_some T sk sk1 t hb
  have hkl := lt_of_getElem?_some hk
  have hget : s.boundary_matrix.get_col k = col := by
    rw [hcol]
    have hlt : k < sk.boundary_matrix.matrix.length := by rw [hinv.2.1]; exact hkl
    simp [Bdd_Type.get_col, hm', hck, List.getElem?_set, hlt]
  simp only [column_of, Option.map_eq_some'] at hco
  obtain ⟨is, his, hsort⟩ := hco
  have hslot : ∀ (σ : Slot) (I : ℕ), sk.slot σ = some I →
      I < k ∧ ∃ a, (filtration T)[I]? = some a ∧ a.third.writes T σ = true := by
    intro σ I hI
    obtain ⟨a, ha, hw⟩ := hinv.2.2.2.2.2.2.1 σ I hI
    have hIk : I < k := by
      have := lt_of_getElem?_some ha
      rw [List.length_take] at this
      exact lt_of_lt_of_le this (min_le_left _ _)
    rw [List.getElem?_take_of_lt hIk] at ha
    exact ⟨hIk, a, ha, hw⟩
  refine ⟨?_, ?_, ?_⟩
  · intro hd
    have hr : t.third.reads T = [] := by
      cases ht : t.third <;> simp [ht, Object.dim, Object.reads] at hd ⊢
    rw [hr] at his
    simp [Loop_state.slots] at his
    rw [hget, ← hsort, his]
    rfl
  · intro r hr
    rw [hget, ← hsort, mem_std_sort] at hr
    obtain ⟨σ, hσ, hs⟩ := slots_mem sk _ is his r hr
    obtain ⟨hrk, a, ha, hw⟩ := hslot σ r hs
    exact ⟨hrk, σ, a, hσ, ha, hw⟩
  · intro faces hfaces hnd
    obtain ⟨heq, hlt⟩ := slots_eq_faces T (filtration T) k sk hslot _ is
      (slots_some sk _ is his) faces hfaces
    subst heq
    refine ⟨by rw [hget, hsort], hlt, ?_, ?_, ?_⟩
    · intro r
      rw [hget, ← hsort, mem_std_sort]
    · rw [hget, ← hsort]
      have hs := nat_sort_sorted is
      have hnd' : (std_sort (fun a b : ℕ => decide (a < b)) is).Nodup :=
        (std_sort_perm _ is).nodup_iff.2 hnd
      exact List.Pairwise.imp₂ (fun a b hle hne => lt_of_le_of_ne hle hne) hs hnd'
    · intro hd
      rw [hget, ← hsort, length_std_sort, slots_length sk _ is his, reads_length T _ hd]

/-! ## The reducer, the extraction and the whole function -/

theorem get_max_index_eq_none (col : Finset ℕ) : get_max_index col = none ↔ col = ∅ := by
  unfold get_max_index
  by_cases h : col.Nonempty
  · simp [h, Finset.nonempty_iff_ne_empty.1 h]
  · simp [h, Finset.not_nonempty_iff_eq_empty.1 h]

theorem get_max_index_eq_some (col : Finset ℕ) (r : ℕ) :
    get_max_index col = some r ↔ r ∈ col ∧ ∀ x ∈ col, x ≤ r := by
  unfold get_max_index
  by_cases h : col.Nonempty
  · simp only [h, dite_true, Option.some.injEq]
    constructor
    · intro hr
      subst hr
      exact ⟨Finset.max'_mem col h, fun x hx => Finset.le_max' col x hx⟩
    · rintro ⟨hr, hle⟩
      exact le_antisymm (Finset.max'_le col h r hle) (Finset.le_max' col r hr)
  · simp only [h, dite_false]
    constructor
    · intro hc; cases hc
    · rintro ⟨hr, -⟩
      exact absurd ⟨r, hr⟩ h

theorem mem_add_to (source target : Finset ℕ) (x : ℕ) :
    x ∈ add_to source target ↔ (x ∈ target ∧ x ∉ source) ∨ (x ∈ source ∧ x ∉ target) := by
  simp [add_to, Finset.mem_symmDiff]

theorem reduce_budget_add_to (source target : Finset ℕ) (r : ℕ)
    (hs : get_max_index source = some r) (ht : get_max_index target = some r) :
    reduce_budget (add_to source target) ≤ r + 1 := by
  rw [get_max_index_eq_some] at hs ht
  unfold reduce_budget
  cases h : get_max_index (add_to source target) with
  | none => simp
  | some r2 =>
    rw [get_max_index_eq_some] at h
    obtain ⟨hmem, -⟩ := h
    rw [mem_add_to] at hmem
    have hle : r2 ≤ r := by
      rcases hmem with ⟨h1, -⟩ | ⟨h1, -⟩
      · exact ht.2 r2 h1
      · exact hs.2 r2 h1
    have hne : r2 ≠ r := by
      rintro rfl
      rcases hmem with ⟨-, h2⟩ | ⟨-, h2⟩
      · exact h2 hs.1
      · exact h2 ht.1
    simp only
    omega

theorem reduce_column_total (matrix : List (Finset ℕ)) (lookup : ℕ → Option ℕ)
    (hown : ∀ r j, lookup r = some j → get_max_index (matrix.getD j ∅) = some r) :
    ∀ (fuel : ℕ) (col : Finset ℕ), reduce_budget col ≤ fuel →
      ∃ col', reduce_column matrix lookup fuel col = some col' ∧
        ∀ r, get_max_index col' = some r → lookup r = none := by
  intro fuel
  induction fuel with
  | zero =>
    intro col h
    unfold reduce_budget at h
    cases hm : get_max_index col <;> simp [hm] at h
  | succ fuel ih =>
    intro col h
    cases hm : get_max_index col with
    | none =>
      refine ⟨col, by simp only [reduce_column, hm], ?_⟩
      intro r hr
      rw [hm] at hr
      cases hr
    | some r =>
      cases hl : lookup r with
      | none =>
        refine ⟨col, by simp only [reduce_column, hm, hl], ?_⟩
        intro r' hr'
        rw [hm] at hr'
        cases hr'
        exact hl
      | some j =>
        simp only [reduce_column, hm, hl]
        apply ih
        have h1 := reduce_budget_add_to (matrix.getD j ∅) col r (hown r j hl) hm
        have h2 : reduce_budget col = r + 2 := by simp [reduce_budget, hm]
        omega

theorem reduce_column_preserves (matrix : List (Finset ℕ)) (lookup : ℕ → Option ℕ)
    (P : ℕ → Prop)
    (hP : ∀ r j, lookup r = some j → P r → ∀ x ∈ matrix.getD j ∅, P x) :
    ∀ (fuel : ℕ) (col col' : Finset ℕ), (∀ x ∈ col, P x) →
      reduce_column matrix lookup fuel col = some col' → ∀ x ∈ col', P x := by
  intro fuel
  induction fuel with
  | zero =>
    intro col col' _ h
    simp [reduce_column] at h
  | succ fuel ih =>
    intro col col' hcol h
    unfold reduce_column at h
    cases hm : get_max_index col with
    | none =>
      simp only [hm, Option.some.injEq] at h
      subst h
      exact hcol
    | some r =>
      cases hl : lookup r with
      | none =>
        simp only [hm, hl, Option.some.injEq] at h
        subst h
        exact hcol
      | some j =>
        simp only [hm, hl] at h
        refine ih _ col' ?_ h
        intro x hx
        rw [mem_add_to] at hx
        rcases hx with ⟨hx, -⟩ | ⟨hx, -⟩
        · exact hcol x hx
        · exact hP r j hl (hcol r ((get_max_index_eq_some col r).1 hm).1) x hx

theorem getD_set_self {α : Type} (l : List α) (k : ℕ) (a d : α) (h : k < l.length) :
    (l.set k a).getD k d = a := by
  simp [List.getElem?_set, h]

theorem getD_set_ne {α : Type} (l : List α) (k j : ℕ) (a d : α) (h : k ≠ j) :
    (l.set k a).getD j d = l.getD j d := by
  simp [List.getElem?_set, h]

theorem reduce_step_inv (twist : Bool) (D : List (Finset ℕ)) (Q : ℕ → ℕ → Prop)
    (hQ : ∀ j' j r x, j' < j → Q j' r → Q j r → Q j' x → Q j x)
    (k : ℕ) (hk : k < D.length) (st : Reducer_state) (hinv : Reducer_inv D k st)
    (hq : ∀ j x, x ∈ st.matrix.getD j ∅ → Q j x) :
    ∃ st', reduce_step twist st k = some st' ∧ Reducer_inv D (k + 1) st' ∧
      ∀ j x, x ∈ st'.matrix.getD j ∅ → Q j x := by
  obtain ⟨hlen, hb, hc, hd⟩ := hinv
  have hkl : k < st.matrix.length := by omega
  unfold reduce_step
  by_cases hg : (twist && (st.lowest_one_lookup k).isSome) = true
  · rw [if_pos hg]
    refine ⟨_, rfl, ⟨by simp [hlen], ?_, ?_, ?_⟩, ?_⟩
    · intro j hj
      rw [getD_set_ne _ _ _ _ _ (by omega)]
      exact hb j (by omega)
    · intro r j hl
      obtain ⟨h1, h2⟩ := hc r j hl
      refine ⟨by omega, ?_⟩
      rw [getD_set_ne _ _ _ _ _ (by omega)]
      exact h2
    · intro j r hj hm
      by_cases hjk : k = j
      · subst hjk
        rw [getD_set_self _ _ _ _ hkl] at hm
        simp [get_max_index] at hm
      · rw [getD_set_ne _ _ _ _ _ hjk] at hm
        exact hd j r (by omega) hm
    · intro j x hx
      by_cases hjk : k = j
      · subst hjk
        rw [getD_set_self _ _ _ _ hkl] at hx
        simp at hx
      · rw [getD_set_ne _ _ _ _ _ hjk] at hx
        exact hq j x hx
  · rw [if_neg hg]
    obtain ⟨col, hcol, hfree⟩ := reduce_column_total st.matrix st.lowest_one_lookup
      (fun r j hl => (hc r j hl).2) _ (st.matrix.getD k ∅) (le_refl _)
    have hqcol : ∀ x ∈ col, Q k x := by
      refine reduce_column_preserves st.matrix st.lowest_one_lookup (Q k) ?_ _ _ col
        (fun x hx => hq k x hx) hcol
      intro r j hl hr x hx
      obtain ⟨hjk, hm⟩ := hc r j hl
      have hrj : r ∈ st.matrix.getD j ∅ := ((get_max_index_eq_some _ r).1 hm).1
      exact hQ j k r x hjk (hq j r hrj) hr (hq j x hx)
    rw [hcol]
    simp only [Option.map_some']
    cases hm : get_max_index col with
    | none =>
      refine ⟨_, rfl, ⟨by simp [hlen], ?_, ?_, ?_⟩, ?_⟩
      · intro j hj
        simp only
        rw [getD_set_ne _ _ _ _ _ (by omega)]
        exact hb j (by omega)
      · intro r j hl
        obtain ⟨h1, h2⟩ := hc r j hl
        refine ⟨by omega, ?_⟩
        simp only
        rw [getD_set_ne _ _ _ _ _ (by omega)]
        exact h2
      · intro j r hj hmj
        simp only at hmj ⊢
        by_cases hjk : k = j
        · subst hjk
          rw [getD_set_self _ _ _ _ hkl, hm] at hmj
          cases hmj
        · rw [getD_set_ne _ _ _ _ _ hjk] at hmj
          exact hd j r (by omega) hmj
      · intro j x hx
        simp only at hx
        by_cases hjk : k = j
        · subst hjk
          rw [getD_set_self _ _ _ _ hkl] at hx
          exact hqcol x hx
        · rw [getD_set_ne _ _ _ _ _ hjk] at hx
          exact hq j x hx
    | some r0 =>
      have hfree0 := hfree r0 hm
      refine ⟨_, rfl, ⟨by simp [hlen], ?_, ?_, ?_⟩, ?_⟩
      · intro j hj
        simp only
        rw [getD_set_ne _ _ _ _ _ (by omega)]
        exact hb j (by omega)
      · intro r j hl
        simp only at hl ⊢
        by_cases hr : r = r0
        · subst hr
          simp only [if_true, Option.some.injEq] at hl
          subst hl
          refine ⟨by omega, ?_⟩
          rw [getD_set_self _ _ _ _ hkl]
          exact hm
        · simp only [hr, if_false] at hl
          obtain ⟨h1, h2⟩ := hc r j hl
          refine ⟨by omega, ?_⟩
          rw [getD_set_ne _ _ _ _ _ (by omega)]
          exact h2
      · intro j r hj hmj
        simp only at hmj ⊢
        by_cases hjk : k = j
        · subst hjk
          rw [getD_set_self _ _ _ _ hkl, hm] at hmj
          cases hmj
          simp
        · rw [getD_set_ne _ _ _ _ _ hjk] at hmj
          have hl := hd j r (by omega) hmj
          have hr : r ≠ r0 := by
            rintro rfl
            rw [hfree0] at hl
            cases hl
          simp [hr, hl]
      · intro j x hx
        simp only at hx
        by_cases hjk : k = j
        · subst hjk
          rw [getD_set_self _ _ _ _ hkl] at hx
          exact hqcol x hx
        · rw [getD_set_ne _ _ _ _ _ hjk] at hx
          exact hq j x hx

theorem reduce_fold_inv (twist : Bool) (D : List (Finset ℕ)) (Q : ℕ → ℕ → Prop)
    (hQ : ∀ j' j r x, j' < j → Q j' r → Q j r → Q j' x → Q j x)
    (hD : ∀ j x, x ∈ D.getD j ∅ → Q j x) :
    ∀ k, k ≤ D.length →
      ∃ st, (List.range k).foldlM (reduce_step twist)
          { matrix := D, lowest_one_lookup := fun _ => none } = some st ∧
        Reducer_inv D k st ∧ ∀ j x, x ∈ st.matrix.getD j ∅ → Q j x := by
  intro k
  induction k with
  | zero =>
    intro _
    refine ⟨_, rfl, ⟨rfl, fun j _ => rfl, ?_, ?_⟩, hD⟩
    · intro r j h
      simp at h
    · intro j r hj
      omega
  | succ k ih =>
    intro hk
    obtain ⟨st, hst, hinv, hq⟩ := ih (by omega)
    obtain ⟨st', hst', hinv', hq'⟩ := reduce_step_inv twist D Q hQ k (by omega) st hinv hq
    refine ⟨st', ?_, hinv', hq'⟩
    rw [List.range_succ, List.foldlM_append, hst]
    simpa using hst'

theorem reduce_matrix_inv (twist : Bool) (bm : Bdd_Type) (Q : ℕ → ℕ → Prop)
    (hQ : ∀ j' j r x, j' < j → Q j' r → Q j r → Q j' x → Q j x)
    (hD : ∀ j x, x ∈ (bm.matrix.map List.toFinset).getD j ∅ → Q j x) :
    ∃ st, reduce_matrix twist bm = some st ∧
      Reducer_inv (bm.matrix.map List.toFinset) bm.get_num_cols st ∧
      ∀ j x, x ∈ st.matrix.getD j ∅ → Q j x := by
  have := reduce_fold_inv twist (bm.matrix.map List.toFinset) Q hQ hD bm.get_num_cols
    (by simp [Bdd_Type.get_num_cols])
  exact this

theorem mem_emit_pairs (st : Reducer_state) (p : ℕ × ℕ) :
    p ∈ emit_pairs st ↔
      p.2 < st.matrix.length ∧ get_max_index (st.matrix.getD p.2 ∅) = some p.1 := by
  simp only [emit_pairs, List.mem_filterMap, List.mem_range, Option.map_eq_some']
  constructor
  · rintro ⟨j, hj, r, hr, rfl⟩
    exact ⟨hj, hr⟩
  · rintro ⟨hj, hr⟩
    exact ⟨p.2, hj, p.1, hr, rfl⟩

theorem emit_pairs_births (st : Reducer_state) :
    (emit_pairs st).map Prod.fst =
      (List.range st.matrix.length).filterMap fun j => get_max_index (st.matrix.getD j ∅) := by
  simp only [emit_pairs, List.map_filterMap]
  congr 1
  funext j
  cases get_max_index (st.matrix.getD j ∅) <;> rfl

theorem mem_map_toFinset_getD (bm : Bdd_Type) (j x : ℕ)
    (h : x ∈ (bm.matrix.map List.toFinset).getD j ∅) :
    j < bm.get_num_cols ∧ x ∈ bm.get_col j := by
  simp only [List.getD_eq_getElem?_getD, List.getElem?_map] at h
  cases hj : bm.matrix[j]? with
  | none => simp [hj] at h
  | some col =>
    simp only [hj, Option.map_some', Option.getD_some, List.mem_toFinset] at h
    refine ⟨lt_of_getElem?_some hj, ?_⟩
    simp [Bdd_Type.get_col, hj, h]

/-- C3: the reduction of any boundary matrix (so in particular of any
upper-triangular one) returns a reduced matrix in which each row index is the
lowest one of at most one column, and the birth indices of the emitted pairs
are pairwise distinct. -/
theorem no_double_ownership (bm : Bdd_Type) :
    ∃ st pairs, twist_reduction bm = some st ∧ compute_persistence_pairs bm = some pairs ∧
      (∀ j1 j2 r, get_max_index (st.matrix.getD j1 ∅) = some r →
        get_max_index (st.matrix.getD j2 ∅) = some r → j1 = j2) ∧
      (pairs.map Prod.fst).Nodup := by
  obtain ⟨st, hst, ⟨hlen, -, -, hd⟩, -⟩ := reduce_matrix_inv true bm (fun _ _ => True)
    (fun _ _ _ _ _ _ _ _ => trivial) (fun _ _ _ => trivial)
  have hlen' : st.matrix.length = bm.get_num_cols := by
    simpa [Bdd_Type.get_num_cols] using hlen
  have hlt : ∀ j r, get_max_index (st.matrix.getD j ∅) = some r → j < bm.get_num_cols := by
    intro j r h
    by_contra hcon
    have : st.matrix.getD j ∅ = ∅ := by
      simp [List.getElem?_eq_none (show st.matrix.length ≤ j by omega)]
    rw [this] at h
    simp [get_max_index] at h
  have huniq : ∀ j1 j2 r, get_max_index (st.matrix.getD j1 ∅) = some r →
      get_max_index (st.matrix.getD j2 ∅) = some r → j1 = j2 := by
    intro j1 j2 r h1 h2
    have e1 := hd j1 r (hlt j1 r h1) h1
    have e2 := hd j2 r (hlt j2 r h2) h2
    rw [e1] at e2
    exact Option.some.inj e2
  refine ⟨st, emit_pairs st, hst, by simp [compute_persistence_pairs, twist_reduction, hst],
    huniq, ?_⟩
  rw [emit_pairs_births]
  refine List.Nodup.filterMap ?_ (List.nodup_range _)
  intro j1 j2 r h1 h2
  exact huniq j1 j2 r (by simpa using h1) (by simpa using h2)

theorem compute_pairs_valid (bm : Bdd_Type) (hu : bm.upper_triangular) (hg : bm.graded) :
    ∃ pairs, compute_persistence_pairs bm = some pairs ∧
      ∀ p ∈ pairs, p.1 < p.2 ∧ bm.get_dim p.2 = bm.get_dim p.1 + 1 := by
  obtain ⟨st, hst, -, hq⟩ := reduce_matrix_inv true bm
    (fun j x => x < j ∧ bm.get_dim x + 1 = bm.get_dim j)
    (by
      rintro j' j r x hj ⟨-, h2⟩ ⟨-, h4⟩ ⟨h5, h6⟩
      exact ⟨by omega, by omega⟩)
    (by
      intro j x hx
      obtain ⟨hj, hx'⟩ := mem_map_toFinset_getD bm j x hx
      exact ⟨hu j hj x hx', hg j hj x hx'⟩)
  refine ⟨emit_pairs st, by simp [compute_persistence_pairs, twist_reduction, hst], ?_⟩
  intro p hp
  rw [mem_emit_pairs] at hp
  have hmem := ((get_max_index_eq_some _ _).1 hp.2).1
  obtain ⟨h1, h2⟩ := hq p.2 p.1 hmem
  exact ⟨h1, h2.symm⟩

/-- C2: for every upper-triangular boundary matrix whose columns of dimension
`d` hold only rows of dimension `d - 1`, the reducer returns pairs, and every
returned pair has its birth index below its death index and a death cell one
dimension above the birth cell. -/
theorem pairing_validity (bm : Bdd_Type) (hu : bm.upper_triangular) (hg : bm.graded) :
    ∃ pairs, compute_persistence_pairs bm = some pairs ∧
      ∀ p ∈ pairs, p.1 < p.2 ∧ bm.get_dim p.2 = bm.get_dim p.1 + 1 :=
  compute_pairs_valid bm hu hg

theorem extract_pair_some (circ : List Triple) (pd pd' : persistence_diagrams_t) (p : ℕ × ℕ)
    (h : extract_pair circ pd p = some pd') :
    p.1 < circ.length ∧ p.2 < circ.length ∧ pd'.length = pd.length ∧
      ∀ d, pd'.getD d [] = pd.getD d [] ++ diagram_of circ [p] d := by
  unfold extract_pair at h
  cases hb : circ[p.1]? with
  | none => simp [hb] at h
  | some tb =>
    cases hd : circ[p.2]? with
    | none => simp [hb, hd] at h
    | some td =>
      simp only [hb, hd, Option.some_bind] at h
      refine ⟨lt_of_getElem?_some hb, lt_of_getElem?_some hd, ?_⟩
      by_cases hne : tb.first ≠ td.first
      · rw [if_pos hne] at h
        cases hcur : pd[tb.second]? with
        | none => simp [hcur] at h
        | some diagram =>
          simp only [hcur, Option.map_some', Option.some.injEq] at h
          subst h
          refine ⟨by simp, ?_⟩
          intro d
          have hlt := lt_of_getElem?_some hcur
          by_cases hdd : tb.second = d
          · subst hdd
            simp [diagram_of, weight_at, dim_at, hb, hd, hne, List.getElem?_set, hlt, hcur]
          · simp [diagram_of, weight_at, dim_at, hb, hd, hne, List.getElem?_set, hdd]
      · rw [if_neg hne] at h
        simp only [Option.some.injEq] at h
        subst h
        refine ⟨rfl, ?_⟩
        intro d
        have : tb.first = td.first := not_not.mp hne
        simp [diagram_of, weight_at, dim_at, hb, hd, this]

theorem diagram_of_append (circ : List Triple) (p q : List (ℕ × ℕ)) (d : ℕ) :
    diagram_of circ (p ++ q) d = diagram_of circ p d ++ diagram_of circ q d := by
  simp [diagram_of]

theorem extract_fold_some (circ : List Triple) (pairs : List (ℕ × ℕ)) :
    ∀ (pd pd' : persistence_diagrams_t), pairs.foldlM (extract_pair circ) pd = some pd' →
      (∀ p ∈ pairs, p.1 < circ.length ∧ p.2 < circ.length) ∧ pd'.length = pd.length ∧
      ∀ d, pd'.getD d [] = pd.getD d [] ++ diagram_of circ pairs d := by
  induction pairs with
  | nil =>
    intro pd pd' h
    simp at h
    subst h
    simp [diagram_of]
  | cons p pairs ih =>
    intro pd pd' h
    rw [List.foldlM_cons] at h
    cases h1 : extract_pair circ pd p with
    | none => simp [h1] at h
    | some pd1 =>
      rw [h1] at h
      simp only [Option.some_bind, Option.bind_eq_bind] at h
      obtain ⟨hr1, hr2, hl1, hd1⟩ := extract_pair_some circ pd pd1 p h1
      obtain ⟨hr, hl, hd⟩ := ih pd1 pd' h
      refine ⟨?_, by rw [hl, hl1], ?_⟩
      · intro q hq
        simp only [List.mem_cons] at hq
        rcases hq with rfl | hq
        · exact ⟨hr1, hr2⟩
        · exact hr q hq
      · intro d
        rw [hd d, hd1 d, List.append_assoc, ← diagram_of_append]
        rfl

theorem extract_diagrams_some (circ : List Triple) (pairs : List (ℕ × ℕ))
    (diagrams : persistence_diagrams_t) (h : extract_diagrams circ pairs = some diagrams) :
    (∀ p ∈ pairs, p.1 < circ.length ∧ p.2 < circ.length) ∧
      diagrams = [diagram_of circ pairs 0, diagram_of circ pairs 1, diagram_of circ pairs 2] := by
  obtain ⟨hr, hl, hd⟩ := extract_fold_some circ pairs _ diagrams h
  refine ⟨hr, ?_⟩
  simp only [List.length_replicate] at hl
  apply List.ext_getElem?
  intro d
  have h3 := hd d
  rcases Nat.lt_or_ge d 3 with hlt | hge
  · have hdl : d < diagrams.length := by omega
    rw [List.getD_eq_getElem?_getD, List.getElem?_eq_getElem hdl] at h3
    rw [List.getElem?_eq_getElem hdl]
    simp only [Option.getD_some] at h3
    rw [h3]
    interval_cases d <;> simp [List.replicate]
  · rw [List.getElem?_eq_none (by omega), List.getElem?_eq_none (by simp; omega)]

theorem reads_dim (T : Alpha_shape_3) (o : Object) (σ : Slot) (h : some σ ∈ o.reads T) :
    σ.dim + 1 = o.dim := by
  cases o with
  | vertex v => simp [Object.reads] at h
  | edge e =>
    simp only [Object.reads, List.mem_cons, Option.some.injEq, List.mem_singleton,
      List.not_mem_nil, or_false] at h
    rcases h with rfl | rfl <;> rfl
  | facet f =>
    simp only [Object.reads, List.mem_cons, List.mem_singleton, List.not_mem_nil, or_false] at h
    rcases h with h | h | h <;>
    · obtain ⟨k, -, hk⟩ := Option.map_eq_some'.1 h.symm
      subst hk
      rfl
  | cell c =>
    simp only [Object.reads, List.mem_cons, Option.some.injEq, List.mem_singleton,
      List.not_mem_nil, or_false] at h
    rcases h with rfl | rfl | rfl | rfl <;> rfl

theorem writes_dim (T : Alpha_shape_3) (o : Object) (σ : Slot) (h : o.writes T σ = true) :
    σ.dim = o.dim := by
  cases o <;> cases σ <;> simp [Object.writes] at h <;> rfl

theorem build_graded (T : Alpha_shape_3) (s : Loop_state) (h : build T = some s) :
    s.boundary_matrix.upper_triangular ∧ s.boundary_matrix.graded := by
  obtain ⟨-, -, -, -, -, hd, -, hm⟩ := build_inv T s h
  constructor
  · intro j _ r hr
    obtain ⟨_, _, _, _, _, hrj, _, _⟩ := hm j r hr
    exact hrj
  · intro j _ r hr
    obtain ⟨tj, tr, σ, htj, htr, hrj, hσ, hw⟩ := hm j r hr
    have h1 := hd j (lt_of_getElem?_some htj)
    have h2 := hd r (lt_of_getElem?_some htr)
    rw [htj] at h1
    rw [htr] at h2
    simp only [Bdd_Type.get_dim, List.getD_eq_getElem?_getD, h1, h2, Option.map_some',
      Option.getD_some]
    rw [← reads_dim T _ σ hσ, ← writes_dim T _ σ hw]

theorem pdb2persistence_some (T : Alpha_shape_3) (diagrams : persistence_diagrams_t)
    (h : pdb2persistence T = some diagrams) :
    ∃ s pairs, build T = some s ∧ compute_persistence_pairs s.boundary_matrix = some pairs ∧
      extract_diagrams (filtration T) (sort_pairs pairs) = some diagrams := by
  unfold pdb2persistence at h
  cases h1 : build T with
  | none => simp [h1] at h
  | some s =>
    cases h2 : compute_persistence_pairs s.boundary_matrix with
    | none => simp [h1, h2] at h
    | some pairs =>
      refine ⟨s, pairs, rfl, h2, ?_⟩
      simpa [h1, h2] using h

theorem mem_diagram_of (circ : List Triple) (pairs : List (ℕ × ℕ)) (d : ℕ) (e : FT × FT) :
    e ∈ diagram_of circ pairs d ↔
      ∃ p ∈ pairs, dim_at circ p.1 = d ∧ weight_at circ p.1 ≠ weight_at circ p.2 ∧
        e = (weight_at circ p.1, weight_at circ p.2) := by
  simp only [diagram_of, List.mem_map, List.mem_filter, decide_eq_true_eq]
  constructor
  · rintro ⟨p, ⟨hp, h1, h2⟩, rfl⟩
    exact ⟨p, hp, h1, h2, rfl⟩
  · rintro ⟨p, hp, h1, h2, rfl⟩
    exact ⟨p, ⟨hp, h1, h2⟩, rfl⟩

theorem filtration_weight_mono (l : List Triple) (i j : ℕ) (hij : i < j)
    (hj : j < (std_sort Sort_triples l).length) :
    weight_at (std_sort Sort_triples l) i ≤ weight_at (std_sort Sort_triples l) j := by
  have hi : i < (std_sort Sort_triples l).length := by omega
  have hs := (List.pairwise_iff_getElem.1 (filtration_sorted l)) i j hi hj hij
  rw [Sort_triples_false_iff] at hs
  simp only [weight_at, List.getElem?_eq_getElem hi, List.getElem?_eq_getElem hj,
    Option.map_some', Option.getD_some]
  rcases hs with hs | ⟨hs, -⟩
  · exact le_of_lt hs
  · exact le_of_eq hs

/-- C4: every entry of each of the three returned diagrams has its birth weight
strictly below its death weight; no entry with equal weights is returned. -/
theorem strict_lifetimes (T : Alpha_shape_3) (diagrams : persistence_diagrams_t)
    (h : pdb2persistence T = some diagrams) :
    diagrams.length = 3 ∧ ∀ diagram ∈ diagrams, ∀ e ∈ diagram, e.1 < e.2 := by
  obtain ⟨s, pairs, hs, hp, he⟩ := pdb2persistence_some T diagrams h
  obtain ⟨hrange, hdiag⟩ := extract_diagrams_some _ _ diagrams he
  obtain ⟨hu, hg⟩ := build_graded T s hs
  obtain ⟨pairs', hp', hvalid⟩ := compute_pairs_valid s.boundary_matrix hu hg
  rw [hp] at hp'
  cases hp'
  subst hdiag
  refine ⟨rfl, ?_⟩
  intro diagram hd e hmem
  have hex : ∃ d, diagram = diagram_of (filtration T) (sort_pairs pairs) d := by
    simp only [List.mem_cons, List.mem_singleton, List.not_mem_nil, or_false] at hd
    rcases hd with rfl | rfl | rfl
    · exact ⟨0, rfl⟩
    · exact ⟨1, rfl⟩
    · exact ⟨2, rfl⟩
  obtain ⟨d, rfl⟩ := hex
  rw [mem_diagram_of] at hmem
  obtain ⟨p, hpm, -, hne, rfl⟩ := hmem
  have hlt := (hvalid p ((mem_std_sort _ _ _).1 hpm)).1
  have hle := filtration_weight_mono (circumradii T) p.1 p.2 hlt (hrange p hpm).2
  exact lt_of_le_of_ne hle hne

/-- C8: each returned diagram `d` is exactly the list of (weight of the birth
cell, weight of the death cell) over the sorted pairs of the reducer whose
birth cell has dimension `d` and whose two weights differ; every returned
entry comes from a pair of the reducer, so a cell in no pair contributes
nothing. -/
theorem diagram_extraction_is_definition (T : Alpha_shape_3)
    (diagrams : persistence_diagrams_t) (h : pdb2persistence T = some diagrams) :
    ∃ s pairs, build T = some s ∧
      compute_persistence_pairs s.boundary_matrix = some pairs ∧
      diagrams = [diagram_of (filtration T) (sort_pairs pairs) 0,
        diagram_of (filtration T) (sort_pairs pairs) 1,
        diagram_of (filtration T) (sort_pairs pairs) 2] ∧
      ∀ d e, e ∈ diagrams.getD d [] →
        ∃ p ∈ pairs, ∃ tb td, (filtration T)[p.1]? = some tb ∧ (filtration T)[p.2]? = some td ∧
          tb.second = d ∧ tb.first ≠ td.first ∧ e = (tb.first, td.first) := by
  obtain ⟨s, pairs, hs, hp, he⟩ := pdb2persistence_some T diagrams h
  obtain ⟨hrange, hdiag⟩ := extract_diagrams_some _ _ diagrams he
  refine ⟨s, pairs, hs, hp, hdiag, ?_⟩
  intro d e hmem
  have hmem' : e ∈ diagram_of (filtration T) (sort_pairs pairs) d := by
    subst hdiag
    rcases Nat.lt_or_ge d 3 with hlt | hge
    · interval_cases d <;> simpa using hmem
    · simp [List.getElem?_eq_none (show [diagram_of (filtration T) (sort_pairs pairs) 0,
        diagram_of (filtration T) (sort_pairs pairs) 1,
        diagram_of (filtration T) (sort_pairs pairs) 2].length ≤ d by simpa using hge)] at hmem
  rw [mem_diagram_of] at hmem'
  obtain ⟨p, hpm, hdim, hne, rfl⟩ := hmem'
  obtain ⟨h1, h2⟩ := hrange p hpm
  refine ⟨p, (mem_std_sort _ _ _).1 hpm, (filtration T)[p.1], (filtration T)[p.2],
    List.getElem?_eq_getElem h1, List.getElem?_eq_getElem h2, ?_, ?_, ?_⟩
  · simpa [dim_at, List.getElem?_eq_getElem h1] using hdim
  · simpa [weight_at, List.getElem?_eq_getElem h1, List.getElem?_eq_getElem h2] using hne
  · simp [weight_at, List.getElem?_eq_getElem h1, List.getElem?_eq_getElem h2]

theorem slots_ne_none (s : Loop_state) (L : List (Option Slot)) (is : List ℕ)
    (h : s.slots L = some is) (σ : Slot) (hσ : some σ ∈ L) : s.slot σ ≠ none := by
  have hf := slots_some s L is h
  induction hf with
  | nil => simp at hσ
  | cons hab _ ih =>
    rename_i a b l1 l2 htail
    simp only [List.mem_cons] at hσ
    rcases hσ with hσ | hσ
    · subst hσ
      intro hc
      simp [hc] at hab
    · cases hs2 : s.slots l1 with
      | none =>
        simp only [Loop_state.slots, hab, Option.some_bind, hs2, Option.map_none'] at h
        cases h
      | some js =>
        simp only [Loop_state.slots, hab, Option.some_bind, hs2, Option.map_some',
          Option.some.injEq, List.cons.injEq, true_and] at h
        subst h
        exact ih hs2 hσ

theorem loop_body_unassigned (T : Alpha_shape_3) (s : Loop_state) (t : Triple) (σ : Slot)
    (hσ : some σ ∈ t.third.reads T) (hnone : s.slot σ = none) : loop_body T s t = none := by
  cases h : loop_body T s t with
  | none => rfl
  | some s' =>
    obtain ⟨col, hcol, -⟩ := loop_body_some T s s' t h
    simp only [column_of, Option.map_eq_some'] at hcol
    obtain ⟨is, his, -⟩ := hcol
    exact absurd hnone (slots_ne_none s _ is his σ hσ)

theorem pdb2persistence_none_of_build (T : Alpha_shape_3) (h : build T = none) :
    pdb2persistence T = none := by
  simp [pdb2persistence, h]

/-- C7: if, when the loop reaches a cell, the slot of one of its declared
boundary faces is unassigned, the iteration fails and `pdb2persistence` returns
no diagrams; in particular this happens whenever every entry that can assign
the slot of a declared face has a weight above the weight of the cell. -/
theorem unresolved_faces_rejected (T : Alpha_shape_3) (k : ℕ) (t : Triple) (σ : Slot)
    (hk : (filtration T)[k]? = some t) (hσ : some σ ∈ t.third.reads T) :
    (∀ sk, run_loop T (Loop_state.init (filtration T).length) ((filtration T).take k) = some sk →
        sk.slot σ = none → loop_body T sk t = none ∧ pdb2persistence T = none) ∧
    ((∀ t', t' ∈ filtration T → t'.third.writes T σ = true → t.first < t'.first) →
        pdb2persistence T = none) := by
  have key : ∀ sk, run_loop T (Loop_state.init (filtration T).length)
      ((filtration T).take k) = some sk → sk.slot σ = none → build T = none := by
    intro sk hsk hnone
    cases hb : build T with
    | none => rfl
    | some s =>
      obtain ⟨sk', sk1, hsk', hbody, -⟩ := build_step T s hb k t hk
      rw [hsk] at hsk'
      cases hsk'
      rw [loop_body_unassigned T sk t σ hσ hnone] at hbody
      cases hbody
  constructor
  · intro sk hsk hnone
    exact ⟨loop_body_unassigned T sk t σ hσ hnone,
      pdb2persistence_none_of_build T (key sk hsk hnone)⟩
  · intro hw
    apply pdb2persistence_none_of_build
    cases hb : build T with
    | none => rfl
    | some s =>
      exfalso
      obtain ⟨sk, sk1, hsk, hbody, -, hinv, -, -⟩ := build_step T s hb k t hk
      cases hslot : sk.slot σ with
      | none =>
        rw [key sk hsk hslot] at hb
        cases hb
      | some I =>
        obtain ⟨-, -, -, -, -, -, hsl, -⟩ := hinv
        obtain ⟨t0, ht0, hw0⟩ := hsl σ I hslot
        have hIk : I < ((filtration T).take k).length := lt_of_getElem?_some ht0
        have hkl := lt_of_getElem?_some hk
        have hIk' : I < k := by
          rw [List.length_take] at hIk
          exact lt_of_lt_of_le hIk (min_le_left _ _)
        rw [List.getElem?_take_of_lt hIk'] at ht0
        have hlt := hw t0 (List.getElem?_mem ht0) hw0
        have hs' : Sort_triples t t0 = false :=
          pairwise_getElem? (filtration_sorted (circumradii T)) ht0 hk hIk'
        have : Sort_triples t t0 = true := (Sort_triples_iff t t0).2 (Or.inl hlt)
        rw [hs'] at this
        cases this


/-! ## Invariance under relabeling -/

theorem linearIndependent_of_heights {X : Type} (S : Finset ℕ) (u : ℕ → X → ZMod 2)
    (h : ℕ → ℕ) (p : ℕ → X)
    (hinj : ∀ c ∈ S, ∀ c' ∈ S, h c = h c' → c = c')
    (hone : ∀ c ∈ S, u c (p c) = 1)
    (hzero : ∀ c ∈ S, ∀ c' ∈ S, h c' < h c → u c' (p c) = 0) :
    LinearIndependent (ZMod 2) (fun c : S => u c.1) := by
  rw [linearIndependent_iff']
  intro s g hsum
  by_contra hcon
  push_neg at hcon
  obtain ⟨i0, hi0, hg0⟩ := hcon
  have hne : (s.filter fun i => g i ≠ 0).Nonempty := ⟨i0, by simp [hi0, hg0]⟩
  obtain ⟨m, hm, hmax⟩ := Finset.exists_max_image _ (fun i : S => h i.1) hne
  simp only [Finset.mem_filter] at hm
  have heval := congrFun hsum (p m.1)
  simp only [Finset.sum_apply, Pi.smul_apply, smul_eq_mul, Pi.zero_apply] at heval
  rw [Finset.sum_eq_single m] at heval
  · rw [hone m.1 m.2, mul_one] at heval
    exact hm.2 heval
  · intro b hb hbm
    by_cases hgb : g b = 0
    · simp [hgb]
    · have hle := hmax b (by simp [hb, hgb])
      have hlt : h b.1 < h m.1 := by
        refine lt_of_le_of_ne hle ?_
        intro heq
        exact hbm (Subtype.ext (hinj b.1 b.2 m.1 m.2 heq))
      rw [hzero m.1 m.2 b.1 b.2 hlt, mul_zero]
  · intro hms
    exact absurd hm.1 hms

theorem restrict_to_apply {X : Type} (U : X → Bool) (v : X → ZMod 2) (x : X) :
    restrict_to U v x = if U x then v x else 0 := rfl

theorem card_eq_finrank {X : Type} (uD uR : ℕ → X → ZMod 2) (j : ℕ)
    (hspan : Submodule.span (ZMod 2) (uR '' {c | c < j}) =
      Submodule.span (ZMod 2) (uD '' {c | c < j}))
    (low : ℕ → Option ℕ) (p : ℕ → X) (U : X → Bool)
    (hdist : ∀ c c' r, low c = some r → low c' = some r → c = c')
    (hone : ∀ c r, low c = some r → uR c (p r) = 1)
    (hzero : ∀ c c' r r', low c = some r → low c' = some r' → r' < r → uR c' (p r) = 0)
    (hvanish : ∀ c, (∀ r, low c = some r → U (p r) = false) → restrict_to U (uR c) = 0) :
    Module.finrank (ZMod 2)
        (Submodule.map (restrict_to U) (Submodule.span (ZMod 2) (uD '' {c | c < j}))) =
      ((Finset.range j).filter fun c => ∃ r, low c = some r ∧ U (p r) = true).card := by
  set S := (Finset.range j).filter fun c => ∃ r, low c = some r ∧ U (p r) = true with hS
  have hLI : LinearIndependent (ZMod 2) (fun c : S => restrict_to U (uR c.1)) := by
    refine linearIndependent_of_heights S (fun c => restrict_to U (uR c))
      (fun c => (low c).getD 0) (fun c => p ((low c).getD 0)) ?_ ?_ ?_
    · intro c hc c' hc' heq
      simp only [hS, Finset.mem_filter] at hc hc'
      obtain ⟨-, r, hr, -⟩ := hc
      obtain ⟨-, r', hr', -⟩ := hc'
      simp only [hr, hr', Option.getD_some] at heq
      subst heq
      exact hdist c c' r hr hr'
    · intro c hc
      simp only [hS, Finset.mem_filter] at hc
      obtain ⟨-, r, hr, hU⟩ := hc
      simp only [hr, Option.getD_some, restrict_to_apply, hU, if_true]
      exact hone c r hr
    · intro c hc c' hc' hlt
      simp only [hS, Finset.mem_filter] at hc hc'
      obtain ⟨-, r, hr, hU⟩ := hc
      obtain ⟨-, r', hr', -⟩ := hc'
      simp only [hr, hr', Option.getD_some] at hlt
      simp only [hr, Option.getD_some, restrict_to_apply, hU, if_true]
      exact hzero c c' r r' hr hr' hlt
  have hcard := finrank_span_eq_card hLI
  rw [Fintype.card_coe] at hcard
  have hEq : Submodule.span (ZMod 2) ((restrict_to U) '' (uR '' {c | c < j})) =
      Submodule.span (ZMod 2) (Set.range fun c : S => restrict_to U (uR c.1)) := by
    apply le_antisymm
    · rw [Submodule.span_le]
      rintro _ ⟨_, ⟨c, hc, rfl⟩, rfl⟩
      by_cases hcS : c ∈ S
      · exact Submodule.subset_span ⟨⟨c, hcS⟩, rfl⟩
      · have : restrict_to U (uR c) = 0 := by
          apply hvanish
          intro r hr
          by_contra hU
          apply hcS
          simp only [hS, Finset.mem_filter, Finset.mem_range]
          exact ⟨hc, r, hr, by simpa using hU⟩
        rw [this]
        exact Submodule.zero_mem _
    · rw [Submodule.span_le]
      rintro _ ⟨⟨c, hc⟩, rfl⟩
      simp only [hS, Finset.mem_filter, Finset.mem_range] at hc
      exact Submodule.subset_span ⟨uR c, ⟨c, hc.1, rfl⟩, rfl⟩
  rw [← hcard, ← hspan, Submodule.map_span, hEq]

theorem span_singleton_sup_congr {W : Type} [AddCommGroup W] [Module (ZMod 2) W]
    (A : Submodule (ZMod 2) W) (x y : W) (h : x - y ∈ A) :
    Submodule.span (ZMod 2) {x} ⊔ A = Submodule.span (ZMod 2) {y} ⊔ A := by
  apply le_antisymm
  · refine sup_le ?_ le_sup_right
    rw [Submodule.span_singleton_le_iff_mem, Submodule.mem_sup]
    exact ⟨y, Submodule.mem_span_singleton_self y, x - y, h, by abel⟩
  · refine sup_le ?_ le_sup_right
    rw [Submodule.span_singleton_le_iff_mem, Submodule.mem_sup]
    refine ⟨x, Submodule.mem_span_singleton_self x, y - x, ?_, by abel⟩
    have : y - x = -(x - y) := by abel
    rw [this]
    exact A.neg_mem h

theorem reduce_column_span {W : Type} [AddCommGroup W] [Module (ZMod 2) W]
    (v : Finset ℕ → W) (hv : ∀ a b, v (add_to a b) = v b + v a)
    (matrix : List (Finset ℕ)) (lookup : ℕ → Option ℕ) (A : Submodule (ZMod 2) W)
    (hA : ∀ r j, lookup r = some j → v (matrix.getD j ∅) ∈ A) :
    ∀ (fuel : ℕ) (col col' : Finset ℕ),
      reduce_column matrix lookup fuel col = some col' → v col' - v col ∈ A := by
  intro fuel
  induction fuel with
  | zero =>
    intro col col' h
    simp [reduce_column] at h
  | succ fuel ih =>
    intro col col' h
    unfold reduce_column at h
    cases hm : get_max_index col with
    | none =>
      simp only [hm, Option.some.injEq] at h
      subst h
      simp
    | some r =>
      cases hl : lookup r with
      | none =>
        simp only [hm, hl, Option.some.injEq] at h
        subst h
        simp
      | some j =>
        simp only [hm, hl] at h
        have h1 := ih _ col' h
        rw [hv] at h1
        have h2 := hA r j hl
        have : v col' - v col = (v col' - (v col + v (matrix.getD j ∅))) + v (matrix.getD j ∅) := by
          abel
        rw [this]
        exact A.add_mem h1 h2

theorem reduce_step_matrix (twist : Bool) (D : List (Finset ℕ)) (k : ℕ)
    (st st' : Reducer_state) (hinv : Reducer_inv D k st)
    (hq : ∀ j x, x ∈ st.matrix.getD j ∅ → x < j)
    (hstep : reduce_step twist st k = some st') :
    ∃ col', reduce_column st.matrix st.lowest_one_lookup (reduce_budget (D.getD k ∅))
        (D.getD k ∅) = some col' ∧ st'.matrix = st.matrix.set k col' := by
  obtain ⟨hlen, hb, hc, hd⟩ := hinv
  have hnone : st.lowest_one_lookup k = none := by
    cases hl : st.lowest_one_lookup k with
    | none => rfl
    | some j' =>
      obtain ⟨hj', hm⟩ := hc k j' hl
      have hmem := ((get_max_index_eq_some _ _).1 hm).1
      have := hq j' k hmem
      omega
  unfold reduce_step at hstep
  simp only [hnone, Option.isSome_none, Bool.and_false, Bool.false_eq_true, if_false] at hstep
  rw [hb k (le_refl _)] at hstep
  cases hcol : reduce_column st.matrix st.lowest_one_lookup (reduce_budget (D.getD k ∅))
      (D.getD k ∅) with
  | none =>
    rw [hcol] at hstep
    simp at hstep
  | some col' =>
    refine ⟨col', rfl, ?_⟩
    rw [hcol] at hstep
    simp only [Option.map_some', Option.some.injEq] at hstep
    subst hstep
    cases get_max_index col' <;> rfl

theorem reduce_step_span {W : Type} [AddCommGroup W] [Module (ZMod 2) W]
    (v : Finset ℕ → W) (hv : ∀ a b, v (add_to a b) = v b + v a)
    (twist : Bool) (D : List (Finset ℕ)) (k : ℕ) (hk : k < D.length)
    (st st' : Reducer_state) (hinv : Reducer_inv D k st)
    (hq : ∀ j x, x ∈ st.matrix.getD j ∅ → x < j)
    (hsp : ∀ j, j ≤ k →
      Submodule.span (ZMod 2) ((fun c => v (st.matrix.getD c ∅)) '' {c | c < j}) =
        Submodule.span (ZMod 2) ((fun c => v (D.getD c ∅)) '' {c | c < j}))
    (hstep : reduce_step twist st k = some st') :
    ∀ j, j ≤ k + 1 →
      Submodule.span (ZMod 2) ((fun c => v (st'.matrix.getD c ∅)) '' {c | c < j}) =
        Submodule.span (ZMod 2) ((fun c => v (D.getD c ∅)) '' {c | c < j}) := by
  obtain ⟨col', hcol, hmat⟩ := reduce_step_matrix twist D k st st' hinv hq hstep
  have hkl : k < st.matrix.length := by rw [hinv.1]; exact hk
  have hold : ∀ j, j ≤ k →
      (fun c => v (st'.matrix.getD c ∅)) '' {c | c < j} =
        (fun c => v (st.matrix.getD c ∅)) '' {c | c < j} := by
    intro j hj
    apply Set.image_congr
    intro c hc
    simp only [Set.mem_setOf_eq] at hc
    simp only [hmat]
    rw [getD_set_ne _ _ _ _ _ (by omega)]
  intro j hj
  rcases Nat.lt_or_ge j (k + 1) with hlt | hge
  · rw [hold j (by omega)]
    exact hsp j (by omega)
  · have hjk : j = k + 1 := by omega
    subst hjk
    have hset : {c | c < k + 1} = insert k {c | c < k} := by
      ext c
      simp only [Set.mem_setOf_eq, Set.mem_insert_iff]
      omega
    rw [hset, Set.image_insert_eq, Set.image_insert_eq, Submodule.span_insert,
      Submodule.span_insert, hold k (le_refl _), hsp k (le_refl _)]
    simp only [hmat]
    rw [getD_set_self _ _ _ _ hkl]
    apply span_singleton_sup_congr
    rw [← hsp k (le_refl _)]
    refine reduce_column_span v hv st.matrix st.lowest_one_lookup _ ?_ _ _ _ hcol
    intro r j' hl
    obtain ⟨hj', -⟩ := hinv.2.2.1 r j' hl
    exact Submodule.subset_span ⟨j', hj', rfl⟩

theorem reduce_fold_span {W : Type} [AddCommGroup W] [Module (ZMod 2) W]
    (v : Finset ℕ → W) (hv : ∀ a b, v (add_to a b) = v b + v a)
    (twist : Bool) (D : List (Finset ℕ))
    (hD : ∀ j x, x ∈ D.getD j ∅ → x < j) :
    ∀ k, k ≤ D.length →
      ∃ st, (List.range k).foldlM (reduce_step twist)
          { matrix := D, lowest_one_lookup := fun _ => none } = some st ∧
        Reducer_inv D k st ∧ (∀ j x, x ∈ st.matrix.getD j ∅ → x < j) ∧
        ∀ j, j ≤ k →
          Submodule.span (ZMod 2) ((fun c => v (st.matrix.getD c ∅)) '' {c | c < j}) =
            Submodule.span (ZMod 2) ((fun c => v (D.getD c ∅)) '' {c | c < j}) := by
  intro k
  induction k with
  | zero =>
    intro _
    refine ⟨_, rfl, ⟨rfl, fun j _ => rfl, ?_, ?_⟩, hD, ?_⟩
    · intro r j h
      simp at h
    · intro j r hj
      omega
    · intro j hj
      have : j = 0 := by omega
      subst this
      simp
  | succ k ih =>
    intro hk
    obtain ⟨st, hst, hinv, hq, hsp⟩ := ih (by omega)
    obtain ⟨st', hst', hinv', hq'⟩ := reduce_step_inv twist D (fun j x => x < j)
      (fun j' j r x hj _ _ hx => lt_trans hx hj) k (by omega) st hinv hq
    refine ⟨st', ?_, hinv', hq', reduce_step_span v hv twist D k (by omega) st st' hinv hq hsp hst'⟩
    rw [List.range_succ, List.foldlM_append, hst]
    simpa using hst'

theorem vec_add_to (l : List Triple) (a b : Finset ℕ) :
    vec l (add_to a b) = vec l b + vec l a := by
  funext t
  simp only [vec, Pi.add_apply, mem_add_to]
  by_cases ht : t ∈ l <;> by_cases ha : l.indexOf t ∈ a <;> by_cases hb : l.indexOf t ∈ b <;>
    simp [ht, ha, hb]
  all_goals decide

theorem vec_entry_at (l : List Triple) (hl : l.Nodup) (s : Finset ℕ) (r : ℕ)
    (hr : r < l.length) : vec l s (entry_at l r) = if r ∈ s then 1 else 0 := by
  have he : entry_at l r = l[r] := by
    simp [entry_at, List.getElem?_eq_getElem hr]
  have hmem : l[r] ∈ l := List.getElem_mem hr
  simp only [vec, he, hmem, true_and, List.indexOf_getElem hl r hr]

theorem vec_eq_one (l : List Triple) (s : Finset ℕ) (t : Triple)
    (h : vec l s t ≠ 0) : ∃ r, r ∈ s ∧ r < l.length ∧ entry_at l r = t := by
  simp only [vec] at h
  by_cases hc : t ∈ l ∧ l.indexOf t ∈ s
  · have hlt : l.indexOf t < l.length := List.indexOf_lt_length.2 hc.1
    refine ⟨l.indexOf t, hc.2, hlt, ?_⟩
    simp [entry_at, List.getElem?_eq_getElem hlt]
  · simp [hc] at h

theorem reducer_count_eq_finrank (l : List Triple) (hl : l.Nodup) (twist : Bool)
    (D : List (Finset ℕ)) (hlen : D.length = l.length)
    (hD : ∀ j x, x ∈ D.getD j ∅ → x < j)
    (U : Triple → Bool)
    (hU : ∀ r r', r ≤ r' → r' < l.length → U (entry_at l r) = true → U (entry_at l r') = true)
    (j : ℕ) (hj : j ≤ l.length) :
    ∃ st, (List.range D.length).foldlM (reduce_step twist)
        { matrix := D, lowest_one_lookup := fun _ => none } = some st ∧
      ((Finset.range j).filter fun c =>
          ∃ r, get_max_index (st.matrix.getD c ∅) = some r ∧ U (entry_at l r) = true).card =
        Module.finrank (ZMod 2)
          (Submodule.map (restrict_to U)
            (Submodule.span (ZMod 2) ((fun c => vec l (D.getD c ∅)) '' {c | c < j}))) := by
  obtain ⟨st, hst, hinv, hq, hsp⟩ := reduce_fold_span (vec l) (vec_add_to l) twist D hD D.length
    (le_refl _)
  refine ⟨st, hst, ?_⟩
  obtain ⟨hlen', -, -, hd⟩ := hinv
  have hempty : ∀ c, D.length ≤ c → st.matrix.getD c ∅ = ∅ := by
    intro c hc
    simp [List.getElem?_eq_none (show st.matrix.length ≤ c by omega)]
  have hlow : ∀ c r, get_max_index (st.matrix.getD c ∅) = some r →
      c < D.length ∧ r ∈ st.matrix.getD c ∅ ∧ r < c ∧ ∀ x ∈ st.matrix.getD c ∅, x ≤ r := by
    intro c r h
    have hc : c < D.length := by
      by_contra hcon
      rw [hempty c (by omega)] at h
      simp [get_max_index] at h
    obtain ⟨h1, h2⟩ := (get_max_index_eq_some _ _).1 h
    exact ⟨hc, h1, hq c r h1, h2⟩
  symm
  refine card_eq_finrank (fun c => vec l (D.getD c ∅)) (fun c => vec l (st.matrix.getD c ∅)) j
    (hsp j (by omega)) (fun c => get_max_index (st.matrix.getD c ∅)) (entry_at l) U ?_ ?_ ?_ ?_
  · intro c c' r h1 h2
    have e1 := hd c r (hlow c r h1).1 h1
    have e2 := hd c' r (hlow c' r h2).1 h2
    rw [e1] at e2
    exact Option.some.inj e2
  · intro c r h
    obtain ⟨hc, hmem, hrc, -⟩ := hlow c r h
    show vec l (st.matrix.getD c ∅) (entry_at l r) = 1
    rw [vec_entry_at l hl _ r (by omega), if_pos hmem]
  · intro c c' r r' h h' hlt
    obtain ⟨hc, hmem, hrc, -⟩ := hlow c r h
    obtain ⟨-, -, -, hmax⟩ := hlow c' r' h'
    show vec l (st.matrix.getD c' ∅) (entry_at l r) = 0
    rw [vec_entry_at l hl _ r (by omega)]
    have : r ∉ st.matrix.getD c' ∅ := by
      intro hm
      have := hmax r hm
      omega
    rw [if_neg this]
  · intro c hc
    funext t
    show restrict_to U (vec l (st.matrix.getD c ∅)) t = 0
    simp only [restrict_to_apply]
    by_cases hUt : U t = true
    · simp only [hUt, if_true]
      by_contra hne
      obtain ⟨r', hr', hr'l, rfl⟩ := vec_eq_one l _ t hne
      cases hm : get_max_index (st.matrix.getD c ∅) with
      | none =>
        rw [get_max_index_eq_none] at hm
        rw [hm] at hr'
        simp at hr'
      | some r =>
        obtain ⟨hcl, hmem, hrc, hmax⟩ := hlow c r hm
        have := hU r' r (hmax r' hr') (by omega) hUt
        rw [hc r hm] at this
        cases this
    · simp [hUt]

theorem mem_written (T : Alpha_shape_3) (o : Object) (σ : Slot) :
    σ ∈ o.written T ↔ o.writes T σ = true := by
  cases o with
  | vertex v =>
    cases σ <;> simp [Object.written, Object.writes]
  | edge e =>
    cases σ with
    | v v' => simp [Object.written, Object.writes]
    | e c k =>
      simp only [Object.written, Object.writes, List.mem_filterMap, Option.map_eq_some',
        Bool.and_eq_true, decide_eq_true_eq]
      constructor
      · rintro ⟨c', hc', k', hk', heq⟩
        cases heq
        exact ⟨hc', hk'⟩
      · rintro ⟨hc, hk⟩
        exact ⟨c, hc, k, hk, rfl⟩
    | f c i => simp [Object.written, Object.writes]
  | facet f =>
    cases σ with
    | v v' => simp [Object.written, Object.writes]
    | e c k => simp [Object.written, Object.writes]
    | f c i => simp [Object.written, Object.writes]
  | cell c =>
    cases σ <;> simp [Object.written, Object.writes]

theorem is_face_iff (T : Alpha_shape_3) (a b : Triple) :
    is_face T a b = true ↔ ∃ σ, some σ ∈ b.third.reads T ∧ a.third.writes T σ = true := by
  simp only [is_face, List.any_eq_true]
  constructor
  · rintro ⟨oσ, hmem, h⟩
    cases oσ with
    | none => simp at h
    | some σ => exact ⟨σ, hmem, h⟩
  · rintro ⟨σ, hmem, h⟩
    exact ⟨some σ, hmem, h⟩

theorem valid_unique_writer (T : Alpha_shape_3) (hv : Valid_complex T) (a b : Triple)
    (ha : a ∈ circumradii T) (hb : b ∈ circumradii T) (σ : Slot)
    (hwa : a.third.writes T σ = true) (hwb : b.third.writes T σ = true) : a = b :=
  hv.2 a ha b hb ⟨σ, (mem_written T _ σ).2 hwa, (mem_written T _ σ).2 hwb⟩

theorem slots_read (s : Loop_state) (L : List (Option Slot)) (is : List ℕ)
    (h : s.slots L = some is) (σ : Slot) (hσ : some σ ∈ L) :
    ∃ i, i ∈ is ∧ s.slot σ = some i := by
  have hf := slots_some s L is h
  clear h
  induction hf with
  | nil => simp at hσ
  | @cons a b l1 l2 hab _ ih =>
    simp only [List.mem_cons] at hσ
    rcases hσ with hσ | hσ
    · subst hσ
      exact ⟨b, by simp, by simpa using hab⟩
    · obtain ⟨i, hi, hs⟩ := ih hσ
      exact ⟨i, List.mem_cons_of_mem _ hi, hs⟩

theorem mem_filtration (T : Alpha_shape_3) (t : Triple) :
    t ∈ filtration T ↔ t ∈ circumradii T :=
  mem_std_sort _ _ _

theorem filtration_nodup (T : Alpha_shape_3) (hv : Valid_complex T) : (filtration T).Nodup :=
  (std_sort_perm _ _).nodup_iff.2 hv.1

theorem indexOf_of_getElem? {l : List Triple} (hl : l.Nodup) {i : ℕ} {t : Triple}
    (h : l[i]? = some t) : l.indexOf t = i := by
  have hi := lt_of_getElem?_some h
  rw [List.getElem?_eq_getElem hi] at h
  simp only [Option.some.injEq] at h
  rw [← h]
  exact List.indexOf_getElem hl i hi

theorem getElem?_indexOf {l : List Triple} {t : Triple} (h : t ∈ l) :
    l[l.indexOf t]? = some t := by
  have hlt : l.indexOf t < l.length := List.indexOf_lt_length.2 h
  rw [List.getElem?_eq_getElem hlt, List.getElem_indexOf hlt]

theorem vec_column_eq_face_vec (T : Alpha_shape_3) (hv : Valid_complex T) (s : Loop_state)
    (h : build T = some s) (c : ℕ) (t : Triple) (hc : (filtration T)[c]? = some t) :
    vec (filtration T) ((s.boundary_matrix.matrix.map List.toFinset).getD c ∅) = face_vec T t := by
  have hnd := filtration_nodup T hv
  have hcl := lt_of_getElem?_some hc
  obtain ⟨-, hml, -, -, -, -, -, hm⟩ := build_inv T s h
  have hD : (s.boundary_matrix.matrix.map List.toFinset).getD c ∅ =
      (s.boundary_matrix.get_col c).toFinset := by
    have hlt : c < s.boundary_matrix.matrix.length := by rw [hml]; exact hcl
    simp [Bdd_Type.get_col, List.getElem?_eq_getElem hlt]
  rw [hD]
  funext a
  simp only [vec, face_vec, List.mem_toFinset, mem_filtration]
  by_cases ha : a ∈ circumradii T
  · have hal : a ∈ filtration T := (mem_filtration T a).2 ha
    simp only [ha, true_and]
    by_cases hidx : (filtration T).indexOf a ∈ s.boundary_matrix.get_col c
    · rw [if_pos hidx]
      obtain ⟨tj, tr, σ, htj, htr, -, hσ, hw⟩ := hm c _ hidx
      rw [hc] at htj
      cases htj
      rw [getElem?_indexOf hal] at htr
      cases htr
      rw [if_pos ((is_face_iff T a t).2 ⟨σ, hσ, hw⟩)]
    · rw [if_neg hidx]
      by_cases hf : is_face T a t = true
      · exfalso
        apply hidx
        obtain ⟨σ, hσ, hw⟩ := (is_face_iff T a t).1 hf
        obtain ⟨sk, is, hsk, his, hmem, -, -⟩ := built_column T s h c t hc
        obtain ⟨i, hi, hsi⟩ := slots_read sk _ is his σ hσ
        have hinv := run_loop_inv T (filtration T).length _ sk hsk
          (by rw [List.length_take]; exact min_le_right _ _)
        obtain ⟨t0, ht0, hw0⟩ := hinv.2.2.2.2.2.2.1 σ i hsi
        have hic : i < c := by
          have := lt_of_getElem?_some ht0
          rw [List.length_take] at this
          exact lt_of_lt_of_le this (min_le_left _ _)
        rw [List.getElem?_take_of_lt hic] at ht0
        have ht0m : t0 ∈ circumradii T := (mem_filtration T t0).1 (List.getElem?_mem ht0)
        have heq : a = t0 := valid_unique_writer T hv a t0 ha ht0m σ hw hw0
        subst heq
        rw [indexOf_of_getElem? hnd ht0]
        exact (hmem i).2 hi
      · rw [if_neg hf]
  · simp [ha]

theorem lt_countP_iff {α : Type} (P : α → Bool) :
    ∀ (l : List α), l.Pairwise (fun a b => P b = true → P a = true) →
      ∀ (i : ℕ) (t : α), l[i]? = some t → (P t = true ↔ i < l.countP P) := by
  intro l
  induction l with
  | nil =>
    intro _ i t h
    simp at h
  | cons a l ih =>
    intro hp i t h
    rw [List.pairwise_cons] at hp
    obtain ⟨hhead, htail⟩ := hp
    by_cases ha : P a = true
    · rw [List.countP_cons_of_pos _ _ ha]
      cases i with
      | zero =>
        simp only [List.getElem?_cons_zero, Option.some.injEq] at h
        subst h
        simp [ha]
      | succ i =>
        simp only [List.getElem?_cons_succ] at h
        rw [ih htail i t h]
        omega
    · have hall : ∀ b ∈ l, ¬ P b = true := fun b hb hPb => ha (hhead b hb hPb)
      have hzero : l.countP P = 0 := List.countP_eq_zero.2 hall
      rw [List.countP_cons_of_neg _ _ ha, hzero]
      cases i with
      | zero =>
        simp only [List.getElem?_cons_zero, Option.some.injEq] at h
        subst h
        simp [ha]
      | succ i =>
        simp only [List.getElem?_cons_succ] at h
        have := hall t (List.getElem?_mem h)
        simp [this]

theorem Sort_triples_trans (a b c : Triple) (h1 : Sort_triples b a = false)
    (h2 : Sort_triples c b = false) : Sort_triples c a = false := by
  rw [Sort_triples_false_iff] at h1 h2 ⊢
  rcases h1 with h | ⟨h1, h2'⟩ <;> rcases h2 with h' | ⟨h1', h2''⟩
  · exact Or.inl (lt_trans h h')
  · exact Or.inl (h1' ▸ h)
  · exact Or.inl (h1 ▸ h')
  · exact Or.inr ⟨h1.trans h1', le_trans h2' h2''⟩

theorem twist_reduction_eq (bm : Bdd_Type) :
    twist_reduction bm = (List.range (bm.matrix.map List.toFinset).length).foldlM
      (reduce_step true)
      { matrix := bm.matrix.map List.toFinset, lowest_one_lookup := fun _ => none } := by
  simp [twist_reduction, reduce_matrix, Bdd_Type.get_num_cols]

theorem entry_at_of_getElem? {l : List Triple} {r : ℕ} {t : Triple} (h : l[r]? = some t) :
    entry_at l r = t := by
  simp [entry_at, h]

theorem getElem?_entry_at {l : List Triple} {r : ℕ} (hr : r < l.length) :
    l[r]? = some (entry_at l r) := by
  rw [entry_at, List.getD_eq_getElem?_getD, List.getElem?_eq_getElem hr]
  rfl

theorem pairs_count_eq_finrank (T : Alpha_shape_3) (hv : Valid_complex T) (s : Loop_state)
    (h : build T = some s) (st : Reducer_state)
    (hst : twist_reduction s.boundary_matrix = some st)
    (U P : Triple → Bool)
    (hU : ∀ a b, Sort_triples b a = false → U a = true → U b = true)
    (hP : ∀ a b, Sort_triples b a = false → P b = true → P a = true) :
    ((Finset.range ((filtration T).countP P)).filter fun c =>
        ∃ r, get_max_index (st.matrix.getD c ∅) = some r ∧
          U (entry_at (filtration T) r) = true).card =
      Module.finrank (ZMod 2)
        (Submodule.map (restrict_to U)
          (Submodule.span (ZMod 2) (face_vec T '' {t | t ∈ circumradii T ∧ P t = true}))) := by
  have hnd := filtration_nodup T hv
  have hsorted := filtration_sorted (circumradii T)
  obtain ⟨-, hml, -, -, -, -, -, -⟩ := build_inv T s h
  have hut := (build_graded T s h).1
  have hDlen : (s.boundary_matrix.matrix.map List.toFinset).length = (filtration T).length := by
    rw [List.length_map, hml]
  obtain ⟨st', hst', hcount⟩ := reducer_count_eq_finrank (filtration T) hnd true
    (s.boundary_matrix.matrix.map List.toFinset) hDlen
    (by
      intro j x hx
      obtain ⟨hj, hx'⟩ := mem_map_toFinset_getD s.boundary_matrix j x hx
      exact hut j hj x hx')
    U
    (by
      intro r r' hrr hr' hUr
      rcases Nat.lt_or_ge r r' with hlt | hge
      · have hr : r < (filtration T).length := by omega
        have e1 := getElem?_entry_at hr
        have e2 := getElem?_entry_at hr'
        exact hU _ _ (pairwise_getElem? hsorted e1 e2 hlt) hUr
      · have : r = r' := by omega
        subst this
        exact hUr)
    ((filtration T).countP P) (List.countP_le_length _)
  rw [twist_reduction_eq, hst'] at hst
  cases hst
  rw [hcount]
  have hpw : (filtration T).Pairwise (fun a b => P b = true → P a = true) :=
    hsorted.imp (fun {a b} hab => hP a b hab)
  have hset : (fun c => vec (filtration T)
        ((s.boundary_matrix.matrix.map List.toFinset).getD c ∅)) ''
        {c | c < (filtration T).countP P} =
      face_vec T '' {t | t ∈ circumradii T ∧ P t = true} := by
    ext w
    constructor
    · rintro ⟨c, hc, rfl⟩
      simp only [Set.mem_setOf_eq] at hc
      have hcl : c < (filtration T).length := lt_of_lt_of_le hc (List.countP_le_length _)
      have hget : (filtration T)[c]? = some ((filtration T)[c]) := List.getElem?_eq_getElem hcl
      refine ⟨(filtration T)[c], ⟨(mem_filtration T _).1 (List.getElem_mem hcl), ?_⟩, ?_⟩
      · exact (lt_countP_iff P _ hpw c _ hget).2 hc
      · exact (vec_column_eq_face_vec T hv s h c _ hget).symm
    · rintro ⟨t, ⟨ht, hPt⟩, rfl⟩
      have htl : t ∈ filtration T := (mem_filtration T t).2 ht
      have hget := getElem?_indexOf htl
      refine ⟨(filtration T).indexOf t, ?_, vec_column_eq_face_vec T hv s h _ t hget⟩
      exact (lt_countP_iff P _ hpw _ t hget).1 hPt
  rw [hset]

theorem card_filter_range (n : ℕ) (φ : ℕ → Bool) :
    ((Finset.range n).filter fun c => φ c = true).card = (List.range n).countP φ := by
  rw [Finset.card_def, Finset.filter_val, Finset.range_val, Multiset.range,
    Multiset.filter_coe, Multiset.coe_card, List.countP_eq_length_filter]
  congr 1
  apply List.filter_congr
  intro x _
  simp

theorem low_count_eq (l : List Triple) (st : Reducer_state) (U P : Triple → Bool) :
    low_count l st U P =
      ((Finset.range (l.countP P)).filter fun c =>
        ∃ r, get_max_index (st.matrix.getD c ∅) = some r ∧ U (entry_at l r) = true).card := by
  unfold low_count
  congr 1
  apply Finset.filter_congr
  intro c _
  cases get_max_index (st.matrix.getD c ∅) <;> simp

theorem weight_at_eq (l : List Triple) (r : ℕ) : weight_at l r = (entry_at l r).first := by
  simp only [weight_at, entry_at, List.getD_eq_getElem?_getD]
  cases l[r]? <;> rfl

theorem dim_at_eq (l : List Triple) (r : ℕ) : dim_at l r = (entry_at l r).second := by
  simp only [dim_at, entry_at, List.getD_eq_getElem?_getD]
  cases l[r]? <;> rfl

theorem key_eq_iff (x : FT) (d : ℕ) (t : Triple) :
    (key_ge x d t = true ∧ ¬ key_gt x d t = true) ↔ (t.first = x ∧ t.second = d) := by
  simp only [key_ge, key_gt, Bool.not_eq_true', Bool.not_eq_true, Sort_triples_false_iff]
  constructor
  · rintro ⟨h1, h2⟩
    rcases h1 with h1 | ⟨h1, h1'⟩ <;> rcases h2 with h2 | ⟨h2, h2'⟩
    · exact absurd h1 (lt_asymm h2)
    · exact absurd h1 (by simp [h2])
    · exact absurd h2 (by simp [h1])
    · exact ⟨h2, le_antisymm h2' h1'⟩
  · rintro ⟨rfl, rfl⟩
    exact ⟨Or.inr ⟨rfl, le_refl _⟩, Or.inr ⟨rfl, le_refl _⟩⟩

theorem key_ge_mono (x : FT) (d : ℕ) (a b : Triple) (h : Sort_triples b a = false)
    (ha : key_ge x d a = true) : key_ge x d b = true := by
  simp only [key_ge, Bool.not_eq_true'] at ha ⊢
  exact Sort_triples_trans _ a b ha h

theorem key_gt_mono (x : FT) (d : ℕ) (a b : Triple) (h : Sort_triples b a = false)
    (ha : key_gt x d a = true) : key_gt x d b = true := by
  simp only [key_gt] at ha ⊢
  rw [Sort_triples_iff] at ha ⊢
  rw [Sort_triples_false_iff] at h
  rcases ha with ha | ⟨ha, ha'⟩ <;> rcases h with h | ⟨h, h'⟩
  · exact Or.inl (lt_trans ha h)
  · exact Or.inl (h ▸ ha)
  · exact Or.inl (ha ▸ h)
  · exact Or.inr ⟨ha.trans h, lt_of_lt_of_le ha' h'⟩

theorem key_gt_ge (x : FT) (d : ℕ) (t : Triple) (h : key_gt x d t = true) :
    key_ge x d t = true := by
  simp only [key_ge, key_gt, Bool.not_eq_true'] at h ⊢
  rw [Sort_triples_iff] at h
  rw [Sort_triples_false_iff]
  rcases h with h | ⟨h, h'⟩
  · exact Or.inl h
  · exact Or.inr ⟨h, le_of_lt h'⟩

theorem weight_lt_mono (y : FT) (a b : Triple) (h : Sort_triples b a = false)
    (hb : weight_lt y b = true) : weight_lt y a = true := by
  simp only [weight_lt, decide_eq_true_eq] at hb ⊢
  rw [Sort_triples_false_iff] at h
  rcases h with h | ⟨h, -⟩
  · exact lt_trans h hb
  · exact h ▸ hb

theorem weight_le_mono (y : FT) (a b : Triple) (h : Sort_triples b a = false)
    (hb : weight_le y b = true) : weight_le y a = true := by
  simp only [weight_le, decide_eq_true_eq] at hb ⊢
  rw [Sort_triples_false_iff] at h
  rcases h with h | ⟨h, -⟩
  · exact le_trans (le_of_lt h) hb
  · exact h ▸ hb

theorem count_diagram_of (l : List Triple)
    (st : Reducer_state) (x y : FT) (hxy : x ≠ y) (d : ℕ) :
    (diagram_of l (sort_pairs (emit_pairs st)) d).countP (fun e => decide (e = (x, y))) =
      ((Finset.range st.matrix.length).filter fun c =>
        ∃ r, get_max_index (st.matrix.getD c ∅) = some r ∧
          (weight_at l c = y ∧ weight_at l r = x ∧ dim_at l r = d)).card := by
  have hperm : (sort_pairs (emit_pairs st)).Perm (emit_pairs st) := std_sort_perm _ _
  rw [diagram_of, List.countP_map, List.countP_filter,
    hperm.countP_eq, emit_pairs, List.countP_filterMap, ← card_filter_range]
  congr 1
  apply Finset.filter_congr
  intro c _
  cases hm : get_max_index (st.matrix.getD c ∅) with
  | none => simp
  | some r =>
    simp only [Option.map_some', Option.getD_some, Function.comp_apply, Bool.and_eq_true,
      beq_iff_eq, Prod.mk.injEq, decide_eq_true_eq, Option.some.injEq, exists_eq_left']
    constructor
    · rintro ⟨⟨h1, h2⟩, h3, -⟩
      exact ⟨h2, h1, h3⟩
    · rintro ⟨h2, h1, h3⟩
      exact ⟨⟨h1, h2⟩, h3, by rw [h1, h2]; exact hxy⟩

theorem count_diagram_of_diag (l : List Triple)
    (pairs : List (ℕ × ℕ)) (x : FT) (d : ℕ) :
    (diagram_of l pairs d).countP (fun e => decide (e = (x, x))) = 0 := by
  rw [List.countP_eq_zero]
  intro e hmem
  rw [mem_diagram_of] at hmem
  obtain ⟨p, -, -, hne, heq⟩ := hmem
  simp only [decide_eq_true_eq]
  intro hc
  rw [hc] at heq
  simp only [Prod.mk.injEq] at heq
  exact hne (heq.1.symm.trans heq.2)

theorem filter_range_le (j n : ℕ) (hjn : j ≤ n) (p : ℕ → Prop) [DecidablePred p] :
    ((Finset.range j).filter p).card =
      ∑ c in Finset.range n, if c < j ∧ p c then 1 else 0 := by
  rw [← Finset.card_filter]
  congr 1
  ext c
  simp only [Finset.mem_filter, Finset.mem_range]
  constructor
  · rintro ⟨h1, h2⟩
    exact ⟨by omega, h1, h2⟩
  · rintro ⟨-, h1, h2⟩
    exact ⟨h1, h2⟩

theorem ite_count_split (A B E G H K : Prop) [Decidable A] [Decidable B] [Decidable E]
    [Decidable G] [Decidable H] [Decidable K]
    (h1 : E ↔ (B ∧ ¬A)) (h2 : A → B) (h3 : H → G) (h4 : (G ∧ ¬H) ↔ K) :
    ((if E ∧ K then 1 else 0) + (if A ∧ G then 1 else 0) + (if B ∧ H then 1 else 0) : ℕ) =
      (if B ∧ G then 1 else 0) + (if A ∧ H then 1 else 0) := by
  by_cases hA : A <;> by_cases hB : B <;> by_cases hG : G <;> by_cases hH : H <;>
    by_cases hE : E <;> by_cases hK : K <;> simp [hA, hB, hG, hH, hE, hK] <;> tauto

theorem diagram_count_split (l : List Triple)
    (hsorted : l.Pairwise (fun a b => Sort_triples b a = false))
    (st : Reducer_state) (hn : st.matrix.length = l.length) (x y : FT) (hxy : x ≠ y) (d : ℕ) :
    (diagram_of l (sort_pairs (emit_pairs st)) d).countP (fun e => decide (e = (x, y))) +
        low_count l st (key_ge x d) (weight_lt y) +
        low_count l st (key_gt x d) (weight_le y) =
      low_count l st (key_ge x d) (weight_le y) +
        low_count l st (key_gt x d) (weight_lt y) := by
  have h1n : l.countP (weight_lt y) ≤ st.matrix.length := by
    rw [hn]; exact List.countP_le_length _
  have h2n : l.countP (weight_le y) ≤ st.matrix.length := by
    rw [hn]; exact List.countP_le_length _
  have hpw1 : l.Pairwise (fun a b => weight_lt y b = true → weight_lt y a = true) :=
    hsorted.imp (fun {a b} hab => weight_lt_mono y a b hab)
  have hpw2 : l.Pairwise (fun a b => weight_le y b = true → weight_le y a = true) :=
    hsorted.imp (fun {a b} hab => weight_le_mono y a b hab)
  rw [count_diagram_of l st x y hxy d, low_count_eq, low_count_eq, low_count_eq, low_count_eq,
    filter_range_le _ _ h1n, filter_range_le _ _ h2n, filter_range_le _ _ h2n,
    filter_range_le _ _ h1n, Finset.card_filter, ← Finset.sum_add_distrib,
    ← Finset.sum_add_distrib, ← Finset.sum_add_distrib]
  apply Finset.sum_congr rfl
  intro c hc
  simp only [Finset.mem_range] at hc
  have hcl : c < l.length := by omega
  have hget := getElem?_entry_at hcl
  have e1 : c < l.countP (weight_lt y) ↔ weight_at l c < y := by
    rw [← lt_countP_iff (weight_lt y) l hpw1 c _ hget, weight_at_eq]
    simp [weight_lt]
  have e2 : c < l.countP (weight_le y) ↔ weight_at l c ≤ y := by
    rw [← lt_countP_iff (weight_le y) l hpw2 c _ hget, weight_at_eq]
    simp [weight_le]
  simp only [e1, e2]
  cases hm : get_max_index (st.matrix.getD c ∅) with
  | none => simp
  | some r =>
    simp only [Option.some.injEq, exists_eq_left']
    simp only [weight_at_eq l r, dim_at_eq l r]
    apply ite_count_split
    · constructor
      · intro h
        rw [h]
        exact ⟨le_refl _, lt_irrefl _⟩
      · rintro ⟨h1, h2⟩
        exact le_antisymm h1 (not_lt.mp h2)
    · exact le_of_lt
    · exact key_gt_ge x d (entry_at l r)
    · exact key_eq_iff x d (entry_at l r)

theorem set_edge_fold_some_iff (T : Alpha_shape_3) (v1 v2 : Vertex_handle) (I : ℕ)
    (L : List Cell_handle) :
    ∀ (ci : Map Cell_handle Cell_info_3),
      (L.foldlM (fun (ci : Map Cell_handle Cell_info_3) ch =>
        ((ci.get Cell_info_3.new ch).set_edge_index (T.index ch v1) (T.index ch v2) I).map
          fun info => ci.set ch info) ci).isSome = true ↔
      ∀ c ∈ L, edge_conv (T.index c v1) (T.index c v2) ≠ none := by
  induction L with
  | nil =>
    intro ci
    simp
  | cons ch L ih =>
    intro ci
    rw [List.foldlM_cons]
    cases hc : edge_conv (T.index ch v1) (T.index ch v2) with
    | none => simp [Cell_info_3.set_edge_index, hc]
    | some k =>
      simp only [Cell_info_3.set_edge_index, hc, Option.map_some', Option.some_bind,
        Option.bind_eq_bind, List.mem_cons, forall_eq_or_imp, ne_eq, not_false_eq_true,
        true_and, reduceCtorEq]
      exact ih _

theorem set_index_of_edge_isSome (T : Alpha_shape_3) (e : Edge)
    (ci : Map Cell_handle Cell_info_3) (I : ℕ) :
    (set_index_of_edge T e ci I).isSome = true ↔
      ∀ c ∈ T.incident_cells e, edge_conv (T.index c (e.v1 T)) (T.index c (e.v2 T)) ≠ none :=
  set_edge_fold_some_iff T _ _ I _ ci

theorem slots_isSome (s : Loop_state) (L : List (Option Slot))
    (h : ∀ σ ∈ L, σ.bind s.slot ≠ none) : ∃ is, s.slots L = some is := by
  induction L with
  | nil => exact ⟨[], rfl⟩
  | cons σ L ih =>
    obtain ⟨is, his⟩ := ih (fun τ hτ => h τ (List.mem_cons_of_mem _ hτ))
    cases h1 : σ.bind s.slot with
    | none => exact absurd h1 (h σ (List.mem_cons_self _ _))
    | some i => exact ⟨i :: is, by simp [Loop_state.slots, h1, his]⟩

theorem slots_reads_some (s : Loop_state) (L : List (Option Slot)) (is : List ℕ)
    (h : s.slots L = some is) : ∀ σ ∈ L, σ ≠ none := by
  have hf := slots_some s L is h
  clear h
  induction hf with
  | nil => simp
  | @cons a b l1 l2 hab _ ih =>
    intro σ hσ
    simp only [List.mem_cons] at hσ
    rcases hσ with rfl | hσ
    · intro hc
      subst hc
      simp at hab
    · exact ih σ hσ

theorem loop_body_well_formed (T : Alpha_shape_3) (s s' : Loop_state) (t : Triple)
    (h : loop_body T s t = some s') : t.third.well_formed T := by
  obtain ⟨col, hcol, -⟩ := loop_body_some T s s' t h
  simp only [column_of, Option.map_eq_some'] at hcol
  obtain ⟨is, his, -⟩ := hcol
  refine ⟨slots_reads_some s _ is his, ?_⟩
  intro e he
  rw [← set_index_of_edge_isSome T e s.c_info s.curr_index]
  unfold loop_body at h
  simp only [he] at h
  cases h1 : edge_column T s e with
  | none => simp [h1] at h
  | some c1 =>
    cases h2 : set_index_of_edge T e s.c_info s.curr_index with
    | none => simp [h1, h2] at h
    | some c2 => rfl

theorem loop_body_succeeds (T : Alpha_shape_3) (s : Loop_state) (t : Triple)
    (hwf : t.third.well_formed T)
    (hslots : ∀ σ, some σ ∈ t.third.reads T → s.slot σ ≠ none) :
    ∃ s', loop_body T s t = some s' := by
  have hcol : ∃ col, column_of T s t.third = some col := by
    obtain ⟨is, his⟩ := slots_isSome s (t.third.reads T) (by
      intro σ hσ
      cases σ with
      | none => exact absurd rfl (hwf.1 none hσ)
      | some σ => simpa using hslots σ hσ)
    exact ⟨std_sort (fun a b : ℕ => decide (a < b)) is, by simp [column_of, his]⟩
  obtain ⟨col, hcol⟩ := hcol
  unfold loop_body
  cases ht : t.third with
  | vertex v => exact ⟨_, rfl⟩
  | edge e =>
    rw [ht] at hcol
    have := (set_index_of_edge_isSome T e s.c_info s.curr_index).2 (hwf.2 e ht)
    obtain ⟨ci, hci⟩ := Option.isSome_iff_exists.1 this
    simp only [edge_column_eq, hcol, hci, Option.some_bind]
    exact ⟨_, rfl⟩
  | facet f =>
    rw [ht] at hcol
    simp only [facet_column_eq T, hcol, Option.some_bind]
    exact ⟨_, rfl⟩
  | cell c =>
    rw [ht] at hcol
    simp only [cell_column_eq T, hcol, Option.some_bind]
    exact ⟨_, rfl⟩

theorem run_loop_succeeds (T : Alpha_shape_3) (n : ℕ) (p : List Triple) :
    (∀ t ∈ p, t.third.well_formed T) →
    (∀ (k : ℕ) (t : Triple) (σ : Slot), p[k]? = some t → some σ ∈ t.third.reads T →
      ∃ (i : ℕ) (a : Triple), i < k ∧ p[i]? = some a ∧ a.third.writes T σ = true) →
    ∃ s, run_loop T (Loop_state.init n) p = some s ∧
      ∀ (i : ℕ) (a : Triple) (σ : Slot), p[i]? = some a → a.third.writes T σ = true →
        s.slot σ ≠ none := by
  induction p using List.reverseRecOn with
  | nil =>
    intro _ _
    refine ⟨_, rfl, ?_⟩
    intro i a σ h
    simp at h
  | append_singleton p t ih =>
    intro hwf hface
    obtain ⟨s, hs, hslot⟩ := ih (fun a ha => hwf a (List.mem_append_left _ ha))
      (by
        intro k a σ hk hσ
        have hkl := lt_of_getElem?_some hk
        obtain ⟨i, b, hik, hb, hw⟩ := hface k a σ
          (by rw [List.getElem?_append_left hkl]; exact hk) hσ
        refine ⟨i, b, hik, ?_, hw⟩
        rw [List.getElem?_append_left (show i < p.length by omega)] at hb
        exact hb)
    have hlast : (p ++ [t])[p.length]? = some t := by simp
    obtain ⟨s', hs'⟩ := loop_body_succeeds T s t (hwf t (by simp)) (by
      intro σ hσ
      obtain ⟨i, b, hik, hb, hw⟩ := hface p.length t σ hlast hσ
      rw [List.getElem?_append_left hik] at hb
      exact hslot i b σ hb hw)
    refine ⟨s', ?_, ?_⟩
    · rw [run_loop_append, hs]
      simpa [run_loop] using hs'
    · obtain ⟨-, -, -, -, -, -, hsl⟩ := loop_body_some T s s' t hs'
      intro i a σ hia hw
      rw [hsl σ]
      by_cases hwt : t.third.writes T σ = true
      · simp [hwt]
      · simp only [hwt, Bool.false_eq_true, if_false]
        have hil := lt_of_getElem?_some hia
        simp only [List.length_append, List.length_singleton] at hil
        rcases Nat.lt_or_ge i p.length with hlt | hge
        · rw [List.getElem?_append_left hlt] at hia
          exact hslot i a σ hia hw
        · have : i = p.length := by omega
          subst this
          rw [hlast] at hia
          cases hia
          exact absurd hw hwt

theorem loop_body_reorder (T : Alpha_shape_3) (vs : List Vertex_handle) (es : List Edge)
    (fs : List Facet) (cs : List Cell_handle) :
    loop_body (reorder T vs es fs cs) = loop_body T := rfl

theorem run_loop_reorder (T : Alpha_shape_3) (vs : List Vertex_handle) (es : List Edge)
    (fs : List Facet) (cs : List Cell_handle) (s : Loop_state) (l : List Triple) :
    run_loop (reorder T vs es fs cs) s l = run_loop T s l := rfl

theorem is_face_reorder (T : Alpha_shape_3) (vs : List Vertex_handle) (es : List Edge)
    (fs : List Facet) (cs : List Cell_handle) :
    is_face (reorder T vs es fs cs) = is_face T := rfl

theorem written_reorder (T : Alpha_shape_3) (vs : List Vertex_handle) (es : List Edge)
    (fs : List Facet) (cs : List Cell_handle) (o : Object) :
    o.written (reorder T vs es fs cs) = o.written T := by
  cases o <;> rfl

theorem circumradii_reorder (T : Alpha_shape_3) (vs : List Vertex_handle) (es : List Edge)
    (fs : List Facet) (cs : List Cell_handle)
    (hvs : vs.Perm T.finite_vertices) (hes : es.Perm T.finite_edges)
    (hfs : fs.Perm T.finite_facets) (hcs : cs.Perm T.finite_cells) :
    (circumradii (reorder T vs es fs cs)).Perm (circumradii T) := by
  unfold circumradii
  exact ((((hvs.map _).append (hes.map _)).append (hfs.map _)).append (hcs.map _))

theorem filtration_reorder (T : Alpha_shape_3) (vs : List Vertex_handle) (es : List Edge)
    (fs : List Facet) (cs : List Cell_handle)
    (hvs : vs.Perm T.finite_vertices) (hes : es.Perm T.finite_edges)
    (hfs : fs.Perm T.finite_facets) (hcs : cs.Perm T.finite_cells) :
    (filtration (reorder T vs es fs cs)).Perm (filtration T) :=
  ((std_sort_perm _ _).trans (circumradii_reorder T vs es fs cs hvs hes hfs hcs)).trans
    (std_sort_perm _ _).symm

theorem valid_reorder (T : Alpha_shape_3) (hv : Valid_complex T) (vs : List Vertex_handle)
    (es : List Edge) (fs : List Facet) (cs : List Cell_handle)
    (hvs : vs.Perm T.finite_vertices) (hes : es.Perm T.finite_edges)
    (hfs : fs.Perm T.finite_facets) (hcs : cs.Perm T.finite_cells) :
    Valid_complex (reorder T vs es fs cs) := by
  have hp := circumradii_reorder T vs es fs cs hvs hes hfs hcs
  refine ⟨hp.nodup_iff.2 hv.1, ?_⟩
  intro a ha b hb hσ
  simp only [written_reorder] at hσ
  exact hv.2 a (hp.mem_iff.1 ha) b (hp.mem_iff.1 hb) hσ

theorem Sort_triples_irrefl (a : Triple) : Sort_triples a a = false := by
  rw [Sort_triples_false_iff]
  exact Or.inr ⟨rfl, le_refl _⟩

theorem sorted_position_lt {l : List Triple}
    (hsorted : l.Pairwise (fun a b => Sort_triples b a = false)) {i k : ℕ} {a t : Triple}
    (hi : l[i]? = some a) (hk : l[k]? = some t) (hlt : Sort_triples a t = true) : i < k := by
  rcases lt_trichotomy i k with h | h | h
  · exact h
  · subst h
    rw [hi] at hk
    cases hk
    rw [Sort_triples_irrefl] at hlt
    cases hlt
  · have := pairwise_getElem? hsorted hk hi h
    rw [this] at hlt
    cases hlt

theorem face_sorts_before (T : Alpha_shape_3) (a t : Triple) (σ : Slot)
    (ha : a ∈ circumradii T) (ht : t ∈ circumradii T)
    (hσ : some σ ∈ t.third.reads T) (hw : a.third.writes T σ = true)
    (hle : Sort_triples t a = false) : Sort_triples a t = true := by
  have h1 := circumradii_dim T a ha
  have h2 := circumradii_dim T t ht
  have h3 := reads_dim T _ σ hσ
  have h4 := writes_dim T _ σ hw
  have hd : a.second < t.second := by
    rw [h1, h2, ← h3, ← h4]
    exact Nat.lt_succ_self _
  rw [Sort_triples_false_iff] at hle
  rw [Sort_triples_iff]
  rcases hle with h | ⟨h, -⟩
  · exact Or.inl h
  · exact Or.inr ⟨h, hd⟩

theorem run_loop_other_order (T : Alpha_shape_3) (s : Loop_state) (h : build T = some s)
    (l' : List Triple) (hperm : l'.Perm (filtration T))
    (hsorted' : l'.Pairwise (fun a b => Sort_triples b a = false)) :
    ∃ s', run_loop T (Loop_state.init l'.length) l' = some s' := by
  have hsorted := filtration_sorted (circumradii T)
  have hstep : ∀ t, t ∈ l' → ∃ c sk sk1, (filtration T)[c]? = some t ∧
      Build_inv T (filtration T).length ((filtration T).take c) sk ∧
      loop_body T sk t = some sk1 := by
    intro t ht
    obtain ⟨c, hc⟩ := List.getElem?_of_mem (hperm.mem_iff.1 ht)
    obtain ⟨sk, sk1, -, hb, -, hinv, -, -⟩ := build_step T s h c t hc
    exact ⟨c, sk, sk1, hc, hinv, hb⟩
  have hwf : ∀ t ∈ l', t.third.well_formed T := by
    intro t ht
    obtain ⟨c, sk, sk1, -, -, hb⟩ := hstep t ht
    exact loop_body_well_formed T sk sk1 t hb
  have hface : ∀ (k : ℕ) (t : Triple) (σ : Slot), l'[k]? = some t → some σ ∈ t.third.reads T →
      ∃ (i : ℕ) (a : Triple), i < k ∧ l'[i]? = some a ∧ a.third.writes T σ = true := by
    intro k t σ hk hσ
    obtain ⟨c, sk, sk1, hc, hinv, hb⟩ := hstep t (List.getElem?_mem hk)
    obtain ⟨col, hcol, -⟩ := loop_body_some T sk sk1 t hb
    simp only [column_of, Option.map_eq_some'] at hcol
    obtain ⟨is, his, -⟩ := hcol
    obtain ⟨i, -, hsi⟩ := slots_read sk _ is his σ hσ
    obtain ⟨a, ha, hw⟩ := hinv.2.2.2.2.2.2.1 σ i hsi
    have hic : i < c := by
      have := lt_of_getElem?_some ha
      rw [List.length_take] at this
      exact lt_of_lt_of_le this (min_le_left _ _)
    rw [List.getElem?_take_of_lt hic] at ha
    have hal : a ∈ filtration T := List.getElem?_mem ha
    obtain ⟨i', hi'⟩ := List.getElem?_of_mem (hperm.mem_iff.2 hal)
    have hle : Sort_triples t a = false := pairwise_getElem? hsorted ha hc hic
    have hlt := face_sorts_before T a t σ ((mem_filtration T a).1 hal)
      ((mem_filtration T t).1 (List.getElem?_mem hc)) hσ hw hle
    exact ⟨i', a, sorted_position_lt hsorted' hi' hk hlt, hi', hw⟩
  obtain ⟨s', hs', -⟩ := run_loop_succeeds T l'.length l' hwf hface
  exact ⟨s', hs'⟩

theorem twist_reduction_length (bm : Bdd_Type) (st : Reducer_state)
    (h : twist_reduction bm = some st) : st.matrix.length = bm.matrix.length := by
  obtain ⟨st', hst', ⟨hlen, -, -, -⟩, -⟩ := reduce_matrix_inv true bm (fun _ _ => True)
    (fun _ _ _ _ _ _ _ _ => trivial) (fun _ _ _ => trivial)
  rw [twist_reduction, hst'] at h
  cases h
  simpa using hlen

theorem compute_pairs_some (bm : Bdd_Type) (pairs : List (ℕ × ℕ))
    (h : compute_persistence_pairs bm = some pairs) :
    ∃ st, twist_reduction bm = some st ∧ pairs = emit_pairs st := by
  simp only [compute_persistence_pairs, Option.map_eq_some'] at h
  obtain ⟨st, hst, hp⟩ := h
  exact ⟨st, hst, hp.symm⟩

theorem extract_fold_succeeds (circ : List Triple) (pairs : List (ℕ × ℕ)) :
    (∀ p ∈ pairs, p.1 < circ.length ∧ p.2 < circ.length ∧ dim_at circ p.1 < 3) →
    ∀ pd : persistence_diagrams_t, pd.length = 3 →
      ∃ pd', pairs.foldlM (extract_pair circ) pd = some pd' := by
  induction pairs with
  | nil =>
    intro _ pd _
    exact ⟨pd, rfl⟩
  | cons p pairs ih =>
    intro hp pd hpd
    obtain ⟨h1, h2, h3⟩ := hp p (List.mem_cons_self _ _)
    have hstep : ∃ pd1, extract_pair circ pd p = some pd1 := by
      unfold extract_pair
      rw [List.getElem?_eq_getElem h1, List.getElem?_eq_getElem h2]
      simp only [Option.some_bind]
      by_cases hne : circ[p.1].first ≠ circ[p.2].first
      · rw [if_pos hne]
        have hlt : circ[p.1].second < pd.length := by
          rw [hpd]
          simpa [dim_at, List.getElem?_eq_getElem h1] using h3
        rw [List.getElem?_eq_getElem hlt]
        exact ⟨_, rfl⟩
      · rw [if_neg hne]
        exact ⟨_, rfl⟩
    obtain ⟨pd1, hpd1⟩ := hstep
    have hl1 := (extract_pair_some circ pd pd1 p hpd1).2.2.1
    obtain ⟨pd', hpd'⟩ := ih (fun q hq => hp q (List.mem_cons_of_mem _ hq)) pd1 (by rw [hl1, hpd])
    refine ⟨pd', ?_⟩
    rw [List.foldlM_cons, hpd1]
    exact hpd'

theorem object_dim_le (o : Object) : o.dim ≤ 3 := by
  cases o <;> simp [Object.dim]

theorem pdb2persistence_of_build (T : Alpha_shape_3) (s : Loop_state) (h : build T = some s) :
    ∃ ds, pdb2persistence T = some ds := by
  obtain ⟨hu, hg⟩ := build_graded T s h
  obtain ⟨pairs, hp, hvalid⟩ := compute_pairs_valid s.boundary_matrix hu hg
  obtain ⟨st, hst, hpe⟩ := compute_pairs_some _ pairs hp
  obtain ⟨-, hml, -, -, -, hd, -, -⟩ := build_inv T s h
  have hlen := twist_reduction_length _ st hst
  have hdim : ∀ j, j < (filtration T).length →
      s.boundary_matrix.get_dim j = dim_at (filtration T) j ∧ dim_at (filtration T) j ≤ 3 := by
    intro j hj
    have h1 := hd j hj
    have hget : (filtration T)[j]? = some ((filtration T)[j]) := List.getElem?_eq_getElem hj
    have h2 := filtration_dim T _ (List.getElem_mem hj)
    rw [hget, Option.map_some'] at h1
    simp only [Bdd_Type.get_dim, List.getD_eq_getElem?_getD, h1, Option.getD_some, dim_at, hget,
      Option.map_some', h2]
    exact ⟨trivial, object_dim_le _⟩
  have hext : ∃ ds, extract_diagrams (filtration T) (sort_pairs pairs) = some ds := by
    apply extract_fold_succeeds
    · intro p hpm
      have hpm' : p ∈ pairs := (mem_std_sort _ _ _).1 hpm
      obtain ⟨hlt, hgd⟩ := hvalid p hpm'
      have h2 : p.2 < (filtration T).length := by
        rw [hpe, mem_emit_pairs] at hpm'
        rw [← hml, ← hlen]
        exact hpm'.1
      have h1 : p.1 < (filtration T).length := by omega
      refine ⟨h1, h2, ?_⟩
      have e1 := hdim p.1 h1
      have e2 := hdim p.2 h2
      rw [← e1.1]
      have := e2.2
      rw [← e2.1, hgd] at this
      omega
    · simp
  obtain ⟨ds, hds⟩ := hext
  exact ⟨ds, by simp [pdb2persistence, h, hp, hds]⟩

theorem face_vec_reorder (T : Alpha_shape_3) (vs : List Vertex_handle) (es : List Edge)
    (fs : List Facet) (cs : List Cell_handle)
    (hp : (circumradii (reorder T vs es fs cs)).Perm (circumradii T)) :
    face_vec (reorder T vs es fs cs) = face_vec T := by
  funext b t
  simp only [face_vec, is_face_reorder, hp.mem_iff]

theorem low_count_order_independent (T : Alpha_shape_3) (hv : Valid_complex T)
    (vs : List Vertex_handle) (es : List Edge) (fs : List Facet) (cs : List Cell_handle)
    (hvs : vs.Perm T.finite_vertices) (hes : es.Perm T.finite_edges)
    (hfs : fs.Perm T.finite_facets) (hcs : cs.Perm T.finite_cells)
    (s s' : Loop_state) (h : build T = some s) (h' : build (reorder T vs es fs cs) = some s')
    (st st' : Reducer_state) (hst : twist_reduction s.boundary_matrix = some st)
    (hst' : twist_reduction s'.boundary_matrix = some st')
    (U P : Triple → Bool)
    (hU : ∀ a b, Sort_triples b a = false → U a = true → U b = true)
    (hP : ∀ a b, Sort_triples b a = false → P b = true → P a = true) :
    low_count (filtration (reorder T vs es fs cs)) st' U P = low_count (filtration T) st U P := by
  have hp := circumradii_reorder T vs es fs cs hvs hes hfs hcs
  have hv' := valid_reorder T hv vs es fs cs hvs hes hfs hcs
  rw [low_count_eq, low_count_eq,
    pairs_count_eq_finrank T hv s h st hst U P hU hP,
    pairs_count_eq_finrank _ hv' s' h' st' hst' U P hU hP,
    face_vec_reorder T vs es fs cs hp]
  have hset : {t | t ∈ circumradii (reorder T vs es fs cs) ∧ P t = true} =
      {t | t ∈ circumradii T ∧ P t = true} := by
    ext t
    simp only [Set.mem_setOf_eq, hp.mem_iff]
  rw [hset]

theorem diagram_perm (T : Alpha_shape_3) (hv : Valid_complex T)
    (vs : List Vertex_handle) (es : List Edge) (fs : List Facet) (cs : List Cell_handle)
    (hvs : vs.Perm T.finite_vertices) (hes : es.Perm T.finite_edges)
    (hfs : fs.Perm T.finite_facets) (hcs : cs.Perm T.finite_cells)
    (s s' : Loop_state) (h : build T = some s) (h' : build (reorder T vs es fs cs) = some s')
    (pairs pairs' : List (ℕ × ℕ))
    (hp : compute_persistence_pairs s.boundary_matrix = some pairs)
    (hp' : compute_persistence_pairs s'.boundary_matrix = some pairs') (d : ℕ) :
    (diagram_of (filtration (reorder T vs es fs cs)) (sort_pairs pairs') d).Perm
      (diagram_of (filtration T) (sort_pairs pairs) d) := by
  obtain ⟨st, hst, rfl⟩ := compute_pairs_some _ pairs hp
  obtain ⟨st', hst', rfl⟩ := compute_pairs_some _ pairs' hp'
  have key : ∀ (e : FT × FT),
      (diagram_of (filtration (reorder T vs es fs cs)) (sort_pairs (emit_pairs st')) d).countP
          (fun p => decide (p = e)) =
        (diagram_of (filtration T) (sort_pairs (emit_pairs st)) d).countP
          (fun p => decide (p = e)) := by
    rintro ⟨x, y⟩
    by_cases hxy : x = y
    · subst hxy
      rw [count_diagram_of_diag, count_diagram_of_diag]
    · have hn : st.matrix.length = (filtration T).length := by
        rw [twist_reduction_length _ st hst]
        exact (build_inv T s h).2.1
      have hn' : st'.matrix.length = (filtration (reorder T vs es fs cs)).length := by
        rw [twist_reduction_length _ st' hst']
        exact (build_inv _ s' h').2.1
      have e := diagram_count_split (filtration T) (filtration_sorted _) st hn x y hxy d
      have e' := diagram_count_split (filtration (reorder T vs es fs cs))
        (filtration_sorted _) st' hn' x y hxy d
      have c1 := low_count_order_independent T hv vs es fs cs hvs hes hfs hcs s s' h h' st st'
        hst hst' (key_ge x d) (weight_lt y) (key_ge_mono x d) (weight_lt_mono y)
      have c2 := low_count_order_independent T hv vs es fs cs hvs hes hfs hcs s s' h h' st st'
        hst hst' (key_gt x d) (weight_le y) (key_gt_mono x d) (weight_le_mono y)
      have c3 := low_count_order_independent T hv vs es fs cs hvs hes hfs hcs s s' h h' st st'
        hst hst' (key_ge x d) (weight_le y) (key_ge_mono x d) (weight_le_mono y)
      have c4 := low_count_order_independent T hv vs es fs cs hvs hes hfs hcs s s' h h' st st'
        hst hst' (key_gt x d) (weight_lt y) (key_gt_mono x d) (weight_lt_mono y)
      omega
  rw [List.perm_iff_count]
  intro e
  exact key e

theorem build_reorder (T : Alpha_shape_3) (vs : List Vertex_handle) (es : List Edge)
    (fs : List Facet) (cs : List Cell_handle)
    (hvs : vs.Perm T.finite_vertices) (hes : es.Perm T.finite_edges)
    (hfs : fs.Perm T.finite_facets) (hcs : cs.Perm T.finite_cells)
    (s : Loop_state) (h : build T = some s) :
    ∃ s', build (reorder T vs es fs cs) = some s' := by
  unfold build
  rw [run_loop_reorder]
  exact run_loop_other_order T s h _ (filtration_reorder T vs es fs cs hvs hes hfs hcs)
    (filtration_sorted _)

theorem relabeling_some (T : Alpha_shape_3) (hv : Valid_complex T)
    (vs : List Vertex_handle) (es : List Edge) (fs : List Facet) (cs : List Cell_handle)
    (hvs : vs.Perm T.finite_vertices) (hes : es.Perm T.finite_edges)
    (hfs : fs.Perm T.finite_facets) (hcs : cs.Perm T.finite_cells)
    (diagrams : persistence_diagrams_t) (h : pdb2persistence T = some diagrams) :
    ∃ diagrams', pdb2persistence (reorder T vs es fs cs) = some diagrams' ∧
      diagrams'.length = diagrams.length ∧
      ∀ d, (diagrams'.getD d []).Perm (diagrams.getD d []) := by
  obtain ⟨s, pairs, hs, hp, he⟩ := pdb2persistence_some T diagrams h
  obtain ⟨-, hdiag⟩ := extract_diagrams_some _ _ diagrams he
  obtain ⟨s', hs'⟩ := build_reorder T vs es fs cs hvs hes hfs hcs s hs
  obtain ⟨diagrams', h'⟩ := pdb2persistence_of_build _ s' hs'
  obtain ⟨s'', pairs', hs'', hp', he'⟩ := pdb2persistence_some _ diagrams' h'
  rw [hs'] at hs''
  cases hs''
  obtain ⟨-, hdiag'⟩ := extract_diagrams_some _ _ diagrams' he'
  refine ⟨diagrams', h', by rw [hdiag, hdiag']; rfl, ?_⟩
  intro d
  have hperm := diagram_perm T hv vs es fs cs hvs hes hfs hcs s s' hs hs' pairs pairs' hp hp'
  subst hdiag hdiag'
  rcases Nat.lt_or_ge d 3 with hlt | hge
  · interval_cases d
    · simpa using hperm 0
    · simpa using hperm 1
    · simpa using hperm 2
  · have e1 : ∀ (a b c : persistence_diagram_t), [a, b, c].getD d [] = [] := by
      intro a b c
      simp [List.getElem?_eq_none (show [a, b, c].length ≤ d by simpa using hge)]
    rw [e1, e1]

theorem reorder_back (T : Alpha_shape_3) (vs : List Vertex_handle) (es : List Edge)
    (fs : List Facet) (cs : List Cell_handle) :
    reorder (reorder T vs es fs cs) T.finite_vertices T.finite_edges T.finite_facets
      T.finite_cells = T := rfl

/-- C6: for a valid complex (no cell listed twice, no index slot written by two
cells) and every permutation of the order in which its vertices, edges, facets
and cells are supplied, `pdb2persistence` on the permuted input returns
diagrams exactly when it does on the original input, and for each dimension the
returned diagram is a permutation of the original one: the same multiset of
(birth weight, death weight) entries. -/
theorem invariance_under_relabeling (T : Alpha_shape_3) (hv : Valid_complex T)
    (vs : List Vertex_handle) (es : List Edge) (fs : List Facet) (cs : List Cell_handle)
    (hvs : vs.Perm T.finite_vertices) (hes : es.Perm T.finite_edges)
    (hfs : fs.Perm T.finite_facets) (hcs : cs.Perm T.finite_cells) :
    (∀ diagrams, pdb2persistence T = some diagrams →
      ∃ diagrams', pdb2persistence (reorder T vs es fs cs) = some diagrams' ∧
        diagrams'.length = diagrams.length ∧
        ∀ d, (diagrams'.getD d []).Perm (diagrams.getD d [])) ∧
    (pdb2persistence T = none → pdb2persistence (reorder T vs es fs cs) = none) := by
  refine ⟨relabeling_some T hv vs es fs cs hvs hes hfs hcs, ?_⟩
  intro hnone
  cases h' : pdb2persistence (reorder T vs es fs cs) with
  | none => rfl
  | some diagrams' =>
    exfalso
    have hv' := valid_reorder T hv vs es fs cs hvs hes hfs hcs
    obtain ⟨diagrams, hd, -⟩ := relabeling_some (reorder T vs es fs cs) hv'
      T.finite_vertices T.finite_edges T.finite_facets T.finite_cells
      hvs.symm hes.symm hfs.symm hcs.symm diagrams' h'
    rw [reorder_back, hnone] at hd
    cases hd

/-! ## The sort key -/

/-- C14: `Sort_triples` is the strict lexicographic order on (weight,
dimension): it is irreflexive, asymmetric and transitive, incomparability is
transitive, and the cell handle plays no part; the sorted filtration is a
permutation of the input cells in which, at positions `i < j`, the weight at `i`
is below the weight at `j`, or the weights are equal and the dimension at `i`
is at most the dimension at `j`. -/
theorem sort_key_is_weight_then_dimension :
    (∀ a b : Triple, Sort_triples a b = true ↔
      a.first < b.first ∨ (a.first = b.first ∧ a.second < b.second)) ∧
    (∀ a : Triple, Sort_triples a a = false) ∧
    (∀ a b : Triple, Sort_triples a b = true → Sort_triples b a = false) ∧
    (∀ a b c : Triple, Sort_triples a b = true → Sort_triples b c = true →
      Sort_triples a c = true) ∧
    (∀ a b c : Triple, Sort_triples a b = false → Sort_triples b a = false →
      Sort_triples b c = false → Sort_triples c b = false →
      Sort_triples a c = false ∧ Sort_triples c a = false) ∧
    (∀ (x : FT) (d : ℕ) (o o' : Object) (c : Triple),
      Sort_triples ⟨x, d, o⟩ c = Sort_triples ⟨x, d, o'⟩ c ∧
      Sort_triples c ⟨x, d, o⟩ = Sort_triples c ⟨x, d, o'⟩) ∧
    (∀ l : List Triple, (std_sort Sort_triples l).Perm l ∧
      ∀ (i j : ℕ) (ti tj : Triple), i < j →
        (std_sort Sort_triples l)[i]? = some ti → (std_sort Sort_triples l)[j]? = some tj →
        ti.first < tj.first ∨ (ti.first = tj.first ∧ ti.second ≤ tj.second)) ∧
    (∀ T : Alpha_shape_3, (filtration T).Perm (circumradii T) ∧
      ∀ (i j : ℕ) (ti tj : Triple), i < j →
        (filtration T)[i]? = some ti → (filtration T)[j]? = some tj →
        ti.first < tj.first ∨ (ti.first = tj.first ∧ ti.second ≤ tj.second)) := by
  have hlist : ∀ l : List Triple, (std_sort Sort_triples l).Perm l ∧
      ∀ (i j : ℕ) (ti tj : Triple), i < j →
        (std_sort Sort_triples l)[i]? = some ti → (std_sort Sort_triples l)[j]? = some tj →
        ti.first < tj.first ∨ (ti.first = tj.first ∧ ti.second ≤ tj.second) := by
    intro l
    refine ⟨std_sort_perm Sort_triples l, ?_⟩
    intro i j ti tj hij hi hj
    have := pairwise_getElem? (filtration_sorted l) hi hj hij
    exact (Sort_triples_false_iff ti tj).1 this
  refine ⟨Sort_triples_iff, Sort_triples_irrefl, ?_, ?_, ?_, ?_, hlist, fun T => hlist _⟩
  · intro a b h
    rw [Sort_triples_iff] at h
    rw [Sort_triples_false_iff]
    rcases h with h | ⟨h1, h2⟩
    · exact Or.inl h
    · exact Or.inr ⟨h1, le_of_lt h2⟩
  · intro a b c h1 h2
    rw [Sort_triples_iff] at h1 h2 ⊢
    rcases h1 with h1 | ⟨h1, h1'⟩ <;> rcases h2 with h2 | ⟨h2, h2'⟩
    · exact Or.inl (lt_trans h1 h2)
    · exact Or.inl (h2 ▸ h1)
    · exact Or.inl (h1 ▸ h2)
    · exact Or.inr ⟨h1.trans h2, lt_trans h1' h2'⟩
  · intro a b c h1 h2 h3 h4
    exact ⟨Sort_triples_trans c b a h3 h1, Sort_triples_trans a b c h2 h4⟩
  · intro x d o o' c
    exact ⟨rfl, rfl⟩

/-! ## Termination of the reduction and the short-circuit -/

theorem reduce_step_false (st : Reducer_state) (j : ℕ) :
    reduce_step false st j = plain_reduce_step st j := by
  simp only [reduce_step, plain_reduce_step, Bool.false_and, Bool.false_eq_true, if_false]

theorem reduce_step_twist (D : List (Finset ℕ)) (k : ℕ) (st : Reducer_state)
    (hinv : Reducer_inv D k st) (hq : ∀ j x, x ∈ st.matrix.getD j ∅ → x < j) :
    reduce_step true st k = plain_reduce_step st k := by
  have hnone : st.lowest_one_lookup k = none := by
    cases hl : st.lowest_one_lookup k with
    | none => rfl
    | some j' =>
      obtain ⟨hj', hm⟩ := hinv.2.2.1 k j' hl
      have hmem := ((get_max_index_eq_some _ _).1 hm).1
      have := hq j' k hmem
      omega
  simp only [reduce_step, plain_reduce_step, hnone, Option.isSome_none, Bool.and_false,
    Bool.false_eq_true, if_false]

theorem reduce_fold_twist (D : List (Finset ℕ)) (hD : ∀ j x, x ∈ D.getD j ∅ → x < j) :
    ∀ k, k ≤ D.length →
      (List.range k).foldlM (reduce_step true)
          { matrix := D, lowest_one_lookup := fun _ => none } =
        (List.range k).foldlM plain_reduce_step
          { matrix := D, lowest_one_lookup := fun _ => none } := by
  intro k
  induction k with
  | zero => intro _; rfl
  | succ k ih =>
    intro hk
    obtain ⟨st, hst, hinv, hq⟩ := reduce_fold_inv true D (fun j x => x < j)
      (fun j' j r x hj _ _ hx => lt_trans hx hj) hD k (by omega)
    rw [List.range_succ, List.foldlM_append, List.foldlM_append, ← ih (by omega), hst]
    simp only [Option.some_bind, List.foldlM_cons, List.foldlM_nil, Option.bind_eq_bind]
    rw [reduce_step_twist D k st hinv hq]

theorem upper_triangular_toFinset (bm : Bdd_Type) (hu : bm.upper_triangular) :
    ∀ j x, x ∈ (bm.matrix.map List.toFinset).getD j ∅ → x < j := by
  intro j x hx
  by_cases hj : j < bm.get_num_cols
  · exact hu j hj x (mem_map_toFinset_getD bm j x hx).2
  · exact absurd (mem_map_toFinset_getD bm j x hx).1 hj

theorem add_to_lowers (source target : Finset ℕ) (r : ℕ)
    (hs : get_max_index source = some r) (ht : get_max_index target = some r) :
    r ∉ add_to source target ∧
      (get_max_index (add_to source target) = none ∨
        ∃ r', r' < r ∧ get_max_index (add_to source target) = some r') := by
  have hs' := (get_max_index_eq_some _ _).1 hs
  have ht' := (get_max_index_eq_some _ _).1 ht
  have hnot : r ∉ add_to source target := by
    rw [mem_add_to]
    rintro (⟨-, h⟩ | ⟨-, h⟩)
    · exact h hs'.1
    · exact h ht'.1
  refine ⟨hnot, ?_⟩
  cases h : get_max_index (add_to source target) with
  | none => exact Or.inl rfl
  | some r2 =>
    refine Or.inr ⟨r2, ?_, rfl⟩
    obtain ⟨hmem, -⟩ := (get_max_index_eq_some _ _).1 h
    have hne : r2 ≠ r := fun he => hnot (he ▸ hmem)
    have hle : r2 ≤ r := by
      rw [mem_add_to] at hmem
      rcases hmem with ⟨h1, -⟩ | ⟨h1, -⟩
      · exact ht'.2 r2 h1
      · exact hs'.2 r2 h1
    omega

/-- C16: the reduction of any boundary matrix (so in particular of any
upper-triangular one) returns, with and without the short-circuit.  At every
column `k` the inner loop returns within its budget, and whenever the lowest row
`r` of a column has an owner `j'`, that owner is an earlier column with the same
lowest row, and adding it cancels row `r` and leaves the column empty or with a
lowest row strictly below `r`. -/
theorem reduction_terminates (bm : Bdd_Type) :
    (∃ st, twist_reduction bm = some st) ∧
    (∃ pairs, compute_persistence_pairs bm = some pairs) ∧
    (∃ st, reduce_matrix false bm = some st) ∧
    ∀ twist k, k < bm.get_num_cols →
      ∃ st, (List.range k).foldlM (reduce_step twist)
          { matrix := bm.matrix.map List.toFinset, lowest_one_lookup := fun _ => none } =
            some st ∧
        (∃ st', reduce_step twist st k = some st') ∧
        (∀ col, ∃ col', reduce_column st.matrix st.lowest_one_lookup (reduce_budget col) col =
          some col') ∧
        ∀ (col : Finset ℕ) (r j' : ℕ), get_max_index col = some r →
          st.lowest_one_lookup r = some j' →
          j' < k ∧ get_max_index (st.matrix.getD j' ∅) = some r ∧
            r ∉ add_to (st.matrix.getD j' ∅) col ∧
            (get_max_index (add_to (st.matrix.getD j' ∅) col) = none ∨
              ∃ r', r' < r ∧ get_max_index (add_to (st.matrix.getD j' ∅) col) = some r') := by
  have hred : ∀ twist, ∃ st, reduce_matrix twist bm = some st := by
    intro twist
    obtain ⟨st, hst, -⟩ := reduce_matrix_inv twist bm (fun _ _ => True)
      (fun _ _ _ _ _ _ _ _ => trivial) (fun _ _ _ => trivial)
    exact ⟨st, hst⟩
  refine ⟨hred true, ?_, hred false, ?_⟩
  · obtain ⟨st, hst⟩ := hred true
    exact ⟨emit_pairs st, by simp [compute_persistence_pairs, twist_reduction, hst]⟩
  · intro twist k hk
    have hlen : (bm.matrix.map List.toFinset).length = bm.get_num_cols := by
      simp [Bdd_Type.get_num_cols]
    obtain ⟨st, hst, hinv, hq⟩ := reduce_fold_inv twist (bm.matrix.map List.toFinset)
      (fun _ _ => True) (fun _ _ _ _ _ _ _ _ => trivial) (fun _ _ _ => trivial) k (by omega)
    refine ⟨st, hst, ?_, ?_, ?_⟩
    · obtain ⟨st', hst', -⟩ := reduce_step_inv twist (bm.matrix.map List.toFinset)
        (fun _ _ => True) (fun _ _ _ _ _ _ _ _ => trivial) k (by omega) st hinv hq
      exact ⟨st', hst'⟩
    · intro col
      obtain ⟨col', hcol', -⟩ := reduce_column_total st.matrix st.lowest_one_lookup
        (fun r j h => (hinv.2.2.1 r j h).2) (reduce_budget col) col (le_refl _)
      exact ⟨col', hcol'⟩
    · intro col r j' hr hl
      obtain ⟨hj', hm⟩ := hinv.2.2.1 r j' hl
      exact ⟨hj', hm, add_to_lowers _ _ r hm hr⟩

/-! ## Births and deaths -/

theorem ind_add_to (a b : Finset ℕ) : ind (add_to a b) = ind b + ind a := by
  funext i
  simp only [ind, Pi.add_apply, mem_add_to]
  by_cases ha : i ∈ a <;> by_cases hb : i ∈ b <;> simp [ha, hb]
  decide

theorem restrict_to_true {X : Type} :
    restrict_to (fun _ : X => true) = LinearMap.id := by
  apply LinearMap.ext
  intro v
  funext x
  simp [restrict_to_apply]

theorem reduction_rank (twist : Bool) (D : List (Finset ℕ))
    (hD : ∀ j x, x ∈ D.getD j ∅ → x < j) :
    ∃ st, (List.range D.length).foldlM (reduce_step twist)
        { matrix := D, lowest_one_lookup := fun _ => none } = some st ∧
      Reducer_inv D D.length st ∧ (∀ j x, x ∈ st.matrix.getD j ∅ → x < j) ∧
      (∀ j, j ≤ D.length →
        Submodule.span (ZMod 2) ((fun c => ind (st.matrix.getD c ∅)) '' {c | c < j}) =
          Submodule.span (ZMod 2) ((fun c => ind (D.getD c ∅)) '' {c | c < j})) ∧
      ∀ j, j ≤ D.length →
        ((Finset.range j).filter fun c => st.matrix.getD c ∅ ≠ ∅).card =
          Module.finrank (ZMod 2)
            (Submodule.span (ZMod 2) ((fun c => ind (D.getD c ∅)) '' {c | c < j})) := by
  obtain ⟨st, hst, hinv, hq, hsp⟩ := reduce_fold_span ind ind_add_to twist D hD D.length
    (le_refl _)
  refine ⟨st, hst, hinv, hq, hsp, ?_⟩
  intro j hj
  obtain ⟨hlen', -, -, hd⟩ := hinv
  have hempty : ∀ c, D.length ≤ c → st.matrix.getD c ∅ = ∅ := by
    intro c hc
    simp [List.getElem?_eq_none (show st.matrix.length ≤ c by omega)]
  have hlow : ∀ c r, get_max_index (st.matrix.getD c ∅) = some r →
      c < D.length ∧ r ∈ st.matrix.getD c ∅ ∧ ∀ x ∈ st.matrix.getD c ∅, x ≤ r := by
    intro c r h
    have hc : c < D.length := by
      by_contra hcon
      rw [hempty c (by omega)] at h
      simp [get_max_index] at h
    obtain ⟨h1, h2⟩ := (get_max_index_eq_some _ _).1 h
    exact ⟨hc, h1, h2⟩
  have key := card_eq_finrank (fun c => ind (D.getD c ∅)) (fun c => ind (st.matrix.getD c ∅)) j
    (hsp j hj) (fun c => get_max_index (st.matrix.getD c ∅)) id (fun _ => true) ?_ ?_ ?_ ?_
  · rw [restrict_to_true, Submodule.map_id] at key
    rw [key]
    congr 1
    apply Finset.filter_congr
    intro c _
    constructor
    · intro hne
      cases hm : get_max_index (st.matrix.getD c ∅) with
      | none => exact absurd ((get_max_index_eq_none _).1 hm) hne
      | some r => exact ⟨r, rfl, rfl⟩
    · rintro ⟨r, hr, -⟩ he
      rw [he] at hr
      simp [get_max_index] at hr
  · intro c c' r h1 h2
    have e1 := hd c r (hlow c r h1).1 h1
    have e2 := hd c' r (hlow c' r h2).1 h2
    rw [e1] at e2
    exact Option.some.inj e2
  · intro c r h
    obtain ⟨-, hmem, -⟩ := hlow c r h
    show ind (st.matrix.getD c ∅) r = 1
    unfold ind
    rw [if_pos hmem]
  · intro c c' r r' h h' hlt
    obtain ⟨-, -, hmax⟩ := hlow c' r' h'
    have : r ∉ st.matrix.getD c' ∅ := by
      intro hm
      have := hmax r hm
      omega
    show ind (st.matrix.getD c' ∅) r = 0
    unfold ind
    rw [if_neg this]
  · intro c hc
    cases hm : get_max_index (st.matrix.getD c ∅) with
    | none =>
      rw [get_max_index_eq_none] at hm
      funext t
      show restrict_to (fun _ => true) (ind (st.matrix.getD c ∅)) t = 0
      rw [hm]
      simp [restrict_to_apply, ind]
    | some r =>
      have := hc r hm
      cases this

theorem span_lt_succ (u : ℕ → ℕ → ZMod 2) (j : ℕ) :
    Submodule.span (ZMod 2) (u '' {c | c < j + 1}) =
      Submodule.span (ZMod 2) {u j} ⊔ Submodule.span (ZMod 2) (u '' {c | c < j}) := by
  have : {c | c < j + 1} = insert j {c | c < j} := by
    ext c
    simp only [Set.mem_setOf_eq, Set.mem_insert_iff]
    omega
  rw [this, Set.image_insert_eq, Submodule.span_insert]

theorem reduced_empty_iff (twist : Bool) (D : List (Finset ℕ))
    (hD : ∀ j x, x ∈ D.getD j ∅ → x < j) (st : Reducer_state)
    (hst : (List.range D.length).foldlM (reduce_step twist)
        { matrix := D, lowest_one_lookup := fun _ => none } = some st)
    (j : ℕ) (hj : j < D.length) :
    st.matrix.getD j ∅ = ∅ ↔
      ind (D.getD j ∅) ∈
        Submodule.span (ZMod 2) ((fun c => ind (D.getD c ∅)) '' {c | c < j}) := by
  obtain ⟨st', hst', -, -, -, hcount⟩ := reduction_rank twist D hD
  rw [hst] at hst'
  cases hst'
  have h1 := hcount j (by omega)
  have h2 := hcount (j + 1) (by omega)
  rw [Finset.range_succ, Finset.filter_insert] at h2
  have hfin : (((fun c => ind (D.getD c ∅)) '' {c | c < j + 1})).Finite :=
    (Set.finite_lt_nat (j + 1)).image _
  haveI : FiniteDimensional (ZMod 2)
      (Submodule.span (ZMod 2) ((fun c => ind (D.getD c ∅)) '' {c | c < j + 1})) :=
    FiniteDimensional.span_of_finite _ hfin
  have hle : Submodule.span (ZMod 2) ((fun c => ind (D.getD c ∅)) '' {c | c < j}) ≤
      Submodule.span (ZMod 2) ((fun c => ind (D.getD c ∅)) '' {c | c < j + 1}) := by
    apply Submodule.span_mono
    apply Set.image_subset
    intro c hc
    simp only [Set.mem_setOf_eq] at hc ⊢
    omega
  constructor
  · intro he
    rw [if_neg (by simpa using he)] at h2
    have heq := Submodule.eq_of_le_of_finrank_eq hle (by rw [← h1, ← h2])
    rw [heq]
    exact Submodule.subset_span ⟨j, by simp, rfl⟩
  · intro hmem
    have heq : Submodule.span (ZMod 2) ((fun c => ind (D.getD c ∅)) '' {c | c < j + 1}) =
        Submodule.span (ZMod 2) ((fun c => ind (D.getD c ∅)) '' {c | c < j}) := by
      rw [span_lt_succ (fun c => ind (D.getD c ∅)) j]
      apply le_antisymm
      · rw [sup_le_iff]
        refine ⟨?_, le_refl _⟩
        rw [Submodule.span_le]
        intro x hx
        rw [Set.mem_singleton_iff] at hx
        subst hx
        exact hmem
      · exact le_sup_right
    rw [heq, ← h1] at h2
    by_contra hne
    rw [if_pos (by simpa using hne), Finset.card_insert_of_not_mem (by simp)] at h2
    omega

theorem getD_map_toFinset (bm : Bdd_Type) (i : ℕ) :
    (bm.matrix.map List.toFinset).getD i ∅ = (bm.get_col i).toFinset := by
  simp only [List.getD_eq_getElem?_getD, List.getElem?_map, Bdd_Type.get_col]
  cases bm.matrix[i]? <;> simp

theorem boundary_of_span (bm : Bdd_Type) (hu : bm.upper_triangular)
    (hz : bm.boundary_squared_zero) (w : ℕ → ZMod 2)
    (hw : w ∈ Submodule.span (ZMod 2)
      ((fun c => ind ((bm.matrix.map List.toFinset).getD c ∅)) '' {c | c < bm.get_num_cols})) :
    ∀ x, ∑ i in Finset.range bm.get_num_cols,
      w i * ind ((bm.matrix.map List.toFinset).getD i ∅) x = 0 := by
  induction hw using Submodule.span_induction with
  | mem w hw =>
    obtain ⟨c, hc, rfl⟩ := hw
    simp only [Set.mem_setOf_eq] at hc
    intro x
    simp only [getD_map_toFinset, ind, mul_ite, mul_one, mul_zero]
    rw [← Finset.sum_filter, ← Finset.sum_filter, Finset.sum_const, nsmul_eq_mul, mul_one]
    have hsub : ((Finset.range bm.get_num_cols).filter fun a => x ∈ (bm.get_col a).toFinset).filter
        (fun a => a ∈ (bm.get_col c).toFinset) =
        (bm.get_col c).toFinset.filter fun r => x ∈ bm.get_col r := by
      ext a
      simp only [Finset.mem_filter, Finset.mem_range, List.mem_toFinset]
      constructor
      · rintro ⟨⟨-, h1⟩, h2⟩
        exact ⟨h2, h1⟩
      · rintro ⟨h1, h2⟩
        have := hu c hc a h1
        exact ⟨⟨by omega, h2⟩, h1⟩
    rw [hsub]
    by_cases hx : x < bm.get_num_cols
    · have h2 := hz c hc x hx
      rw [← Nat.mod_add_div ((bm.get_col c).toFinset.filter fun r => x ∈ bm.get_col r).card 2, h2]
      push_cast
      have : (2 : ZMod 2) = 0 := by decide
      rw [this]
      simp
    · have : ((bm.get_col c).toFinset.filter fun r => x ∈ bm.get_col r) = ∅ := by
        apply Finset.filter_eq_empty_iff.2
        intro r hr hxr
        rw [List.mem_toFinset] at hr
        have h1 := hu c hc r hr
        have h2 := hu r (by omega) x hxr
        omega
      rw [this]
      simp
  | zero => intro x; simp
  | add a b _ _ ha hb =>
    intro x
    simp only [Pi.add_apply, add_mul, Finset.sum_add_distrib, ha x, hb x, add_zero]
  | smul t a _ ha =>
    intro x
    simp only [Pi.smul_apply, smul_eq_mul, mul_assoc, ← Finset.mul_sum, ha x, mul_zero]

/-- C17: on an upper-triangular boundary matrix with `D * D = 0` the reducer
returns pairs among which no index is the birth index of one pair and the death
index of another; with the uniqueness of births and of deaths, two different
pairs share no index. -/
theorem births_and_deaths_disjoint (bm : Bdd_Type) (hu : bm.upper_triangular)
    (hz : bm.boundary_squared_zero) :
    ∃ pairs, compute_persistence_pairs bm = some pairs ∧
      (∀ p ∈ pairs, ∀ q ∈ pairs, p.1 ≠ q.2) ∧
      ∀ p ∈ pairs, ∀ q ∈ pairs, p ≠ q →
        p.1 ≠ q.1 ∧ p.2 ≠ q.2 ∧ p.1 ≠ q.2 ∧ p.2 ≠ q.1 := by
  have hD := upper_triangular_toFinset bm hu
  obtain ⟨st, hst, hinv, hq, hsp, -⟩ := reduction_rank true (bm.matrix.map List.toFinset) hD
  have hn : (bm.matrix.map List.toFinset).length = bm.get_num_cols := by
    simp [Bdd_Type.get_num_cols]
  have htw : twist_reduction bm = some st := by
    rw [twist_reduction_eq]
    exact hst
  have hlen : st.matrix.length = bm.get_num_cols := by rw [hinv.1, hn]
  have hdisj : ∀ p ∈ emit_pairs st, ∀ q ∈ emit_pairs st, p.1 ≠ q.2 := by
    intro p hp q hq' hpq
    rw [mem_emit_pairs] at hp hq'
    obtain ⟨hp2, hplow⟩ := hp
    obtain ⟨hq2, hqlow⟩ := hq'
    rw [hpq] at hplow
    obtain ⟨hjmem, hjmax⟩ := (get_max_index_eq_some _ _).1 hplow
    have hmemspan : ind (st.matrix.getD p.2 ∅) ∈ Submodule.span (ZMod 2)
        ((fun c => ind ((bm.matrix.map List.toFinset).getD c ∅)) ''
          {c | c < bm.get_num_cols}) := by
      rw [← hn, ← hsp _ (le_refl _)]
      exact Submodule.subset_span ⟨p.2, by simpa [hn, hlen] using hp2, rfl⟩
    have hcyc := boundary_of_span bm hu hz _ hmemspan
    have hsum : ∀ x, ind ((bm.matrix.map List.toFinset).getD q.2 ∅) x =
        ∑ i in (st.matrix.getD p.2 ∅).erase q.2,
          ind ((bm.matrix.map List.toFinset).getD i ∅) x := by
      intro x
      have h1 := hcyc x
      have h2 : ∑ i in Finset.range bm.get_num_cols,
          ind (st.matrix.getD p.2 ∅) i * ind ((bm.matrix.map List.toFinset).getD i ∅) x =
          ∑ i in st.matrix.getD p.2 ∅, ind ((bm.matrix.map List.toFinset).getD i ∅) x := by
        simp only [ind, ite_mul, one_mul, zero_mul]
        rw [← Finset.sum_filter]
        apply Finset.sum_congr _ (fun _ _ => rfl)
        ext a
        simp only [Finset.mem_filter, Finset.mem_range]
        constructor
        · exact fun h => h.2
        · intro h
          have := hq p.2 a h
          exact ⟨by omega, h⟩
      rw [h2, ← Finset.add_sum_erase _ _ hjmem] at h1
      have h3 := eq_neg_of_add_eq_zero_left h1
      rw [CharTwo.neg_eq] at h3
      exact h3
    have hin : ind ((bm.matrix.map List.toFinset).getD q.2 ∅) ∈ Submodule.span (ZMod 2)
        ((fun c => ind ((bm.matrix.map List.toFinset).getD c ∅)) '' {c | c < q.2}) := by
      have : ind ((bm.matrix.map List.toFinset).getD q.2 ∅) =
          ∑ i in (st.matrix.getD p.2 ∅).erase q.2,
            ind ((bm.matrix.map List.toFinset).getD i ∅) := by
        funext x
        rw [hsum x, Finset.sum_apply]
      rw [this]
      apply Submodule.sum_mem
      intro i hi
      rw [Finset.mem_erase] at hi
      have := hjmax i hi.2
      exact Submodule.subset_span ⟨i, by simp only [Set.mem_setOf_eq]; omega, rfl⟩
    have hempty := (reduced_empty_iff true _ hD st hst q.2 (by omega)).2 hin
    rw [hempty] at hqlow
    simp [get_max_index] at hqlow
  refine ⟨emit_pairs st, by simp [compute_persistence_pairs, htw], hdisj, ?_⟩
  intro p hp q hq' hne
  refine ⟨?_, ?_, hdisj p hp q hq', fun h => hdisj q hq' p hp h.symm⟩
  · intro h1
    rw [mem_emit_pairs] at hp hq'
    have e1 := hinv.2.2.2 p.2 p.1 (by omega) hp.2
    have e2 := hinv.2.2.2 q.2 q.1 (by omega) hq'.2
    rw [h1, e2] at e1
    apply hne
    exact Prod.ext h1 (Option.some.inj e1).symm
  · intro h2
    rw [mem_emit_pairs] at hp hq'
    have e1 := hp.2
    rw [h2, hq'.2] at e1
    apply hne
    exact Prod.ext (Option.some.inj e1).symm h2

/-! ## The short-circuit in any order of the columns -/

theorem fold_range_succ (twist : Bool) (st0 : Reducer_state) (k : ℕ) :
    (List.range (k + 1)).foldlM (reduce_step twist) st0 =
      ((List.range k).foldlM (reduce_step twist) st0).bind fun st => reduce_step twist st k := by
  rw [List.range_succ, List.foldlM_append]
  cases (List.range k).foldlM (reduce_step twist) st0 with
  | none => rfl
  | some st => simp

theorem reduce_fold_stable (twist : Bool) (D : List (Finset ℕ))
    (hD : ∀ j x, x ∈ D.getD j ∅ → x < j) (k : ℕ) (stk : Reducer_state)
    (hstk : (List.range k).foldlM (reduce_step twist)
      { matrix := D, lowest_one_lookup := fun _ => none } = some stk) :
    ∀ m, k + m ≤ D.length → ∀ stm,
      (List.range (k + m)).foldlM (reduce_step twist)
        { matrix := D, lowest_one_lookup := fun _ => none } = some stm →
      ∀ c, c < k → stm.matrix.getD c ∅ = stk.matrix.getD c ∅ := by
  intro m
  induction m with
  | zero =>
    intro _ stm hstm c _
    rw [Nat.add_zero, hstk] at hstm
    cases hstm
    rfl
  | succ m ih =>
    intro hle stm hstm c hc
    obtain ⟨st, hst, hinv, hq⟩ := reduce_fold_inv twist D (fun j x => x < j)
      (fun j' j r x hj _ _ hx => lt_trans hx hj) hD (k + m) (by omega)
    rw [← Nat.add_assoc, fold_range_succ, hst, Option.some_bind] at hstm
    obtain ⟨col', -, hmat⟩ := reduce_step_matrix twist D (k + m) st stm hinv hq hstm
    rw [hmat, getD_set_ne _ _ _ _ _ (by omega)]
    exact ih (by omega) st hst c hc

theorem reduce_fold_column (twist : Bool) (D : List (Finset ℕ))
    (hD : ∀ j x, x ∈ D.getD j ∅ → x < j) (j : ℕ) (hj : j < D.length)
    (stj stR : Reducer_state)
    (hstj : (List.range j).foldlM (reduce_step twist)
      { matrix := D, lowest_one_lookup := fun _ => none } = some stj)
    (hstR : (List.range D.length).foldlM (reduce_step twist)
      { matrix := D, lowest_one_lookup := fun _ => none } = some stR) :
    reduce_column stj.matrix stj.lowest_one_lookup (reduce_budget (D.getD j ∅)) (D.getD j ∅) =
      some (stR.matrix.getD j ∅) := by
  obtain ⟨st, hst, hinv, hq⟩ := reduce_fold_inv twist D (fun j x => x < j)
    (fun j' j r x hj _ _ hx => lt_trans hx hj) hD j (by omega)
  rw [hstj] at hst
  cases hst
  obtain ⟨st1, hst1, -, -⟩ := reduce_fold_inv twist D (fun j x => x < j)
    (fun j' j r x hj _ _ hx => lt_trans hx hj) hD (j + 1) (by omega)
  have hstep := hst1
  rw [fold_range_succ, hstj, Option.some_bind] at hstep
  obtain ⟨col', hcol, hmat⟩ := reduce_step_matrix twist D j stj st1 hinv hq hstep
  have hR : (List.range (j + 1 + (D.length - (j + 1)))).foldlM (reduce_step twist)
      { matrix := D, lowest_one_lookup := fun _ => none } = some stR := by
    have : j + 1 + (D.length - (j + 1)) = D.length := by omega
    rw [this]
    exact hstR
  have hs := reduce_fold_stable twist D hD (j + 1) st1 hst1 (D.length - (j + 1)) (by omega)
    stR hR j (by omega)
  rw [hcol, hs, hmat, getD_set_self _ _ _ _ (by rw [hinv.1]; exact hj)]

theorem reduce_column_congr (m m' : List (Finset ℕ)) (lk lk' : ℕ → Option ℕ) (P : ℕ → Prop)
    (h : ∀ r, P r → lk r = lk' r ∧
      ∀ a, lk r = some a → m.getD a ∅ = m'.getD a ∅ ∧ ∀ x ∈ m.getD a ∅, P x) :
    ∀ (fuel : ℕ) (col : Finset ℕ), (∀ x ∈ col, P x) →
      reduce_column m lk fuel col = reduce_column m' lk' fuel col := by
  intro fuel
  induction fuel with
  | zero =>
    intro col _
    rfl
  | succ fuel ih =>
    intro col hcol
    cases hm : get_max_index col with
    | none => simp only [reduce_column, hm]
    | some r =>
      have hr : P r := hcol r ((get_max_index_eq_some _ _).1 hm).1
      obtain ⟨hlk, hown⟩ := h r hr
      cases hl : lk r with
      | none =>
        have hl' : lk' r = none := by rw [← hlk, hl]
        simp only [reduce_column, hm, hl, hl']
      | some a =>
        have hl' : lk' r = some a := by rw [← hlk, hl]
        obtain ⟨hma, hPa⟩ := hown a hl
        simp only [reduce_column, hm, hl, hl']
        rw [← hma]
        apply ih
        intro x hx
        rw [mem_add_to] at hx
        rcases hx with ⟨hx, -⟩ | ⟨hx, -⟩
        · exact hcol x hx
        · exact hPa x hx

theorem birth_column_empty (bm : Bdd_Type) (hu : bm.upper_triangular)
    (hz : bm.boundary_squared_zero) (twist : Bool) (st : Reducer_state)
    (hst : (List.range (bm.matrix.map List.toFinset).length).foldlM (reduce_step twist)
      { matrix := bm.matrix.map List.toFinset, lowest_one_lookup := fun _ => none } = some st)
    (k j : ℕ) (hk : k < bm.get_num_cols)
    (hlow : get_max_index (st.matrix.getD k ∅) = some j) :
    st.matrix.getD j ∅ = ∅ := by
  have hD := upper_triangular_toFinset bm hu
  obtain ⟨st', hst', hinv, hq, hsp, -⟩ := reduction_rank twist (bm.matrix.map List.toFinset) hD
  rw [hst] at hst'
  cases hst'
  have hn : (bm.matrix.map List.toFinset).length = bm.get_num_cols := by
    simp [Bdd_Type.get_num_cols]
  obtain ⟨hjmem, hjmax⟩ := (get_max_index_eq_some _ _).1 hlow
  have hjk : j < k := hq k j hjmem
  have hmemspan : ind (st.matrix.getD k ∅) ∈ Submodule.span (ZMod 2)
      ((fun c => ind ((bm.matrix.map List.toFinset).getD c ∅)) ''
        {c | c < bm.get_num_cols}) := by
    rw [← hn, ← hsp _ (le_refl _)]
    exact Submodule.subset_span ⟨k, by simpa [hn] using hk, rfl⟩
  have hcyc := boundary_of_span bm hu hz _ hmemspan
  have hsum : ∀ x, ind ((bm.matrix.map List.toFinset).getD j ∅) x =
      ∑ i in (st.matrix.getD k ∅).erase j,
        ind ((bm.matrix.map List.toFinset).getD i ∅) x := by
    intro x
    have h1 := hcyc x
    have h2 : ∑ i in Finset.range bm.get_num_cols,
        ind (st.matrix.getD k ∅) i * ind ((bm.matrix.map List.toFinset).getD i ∅) x =
        ∑ i in st.matrix.getD k ∅, ind ((bm.matrix.map List.toFinset).getD i ∅) x := by
      simp only [ind, ite_mul, one_mul, zero_mul]
      rw [← Finset.sum_filter]
      apply Finset.sum_congr _ (fun _ _ => rfl)
      ext a
      simp only [Finset.mem_filter, Finset.mem_range]
      constructor
      · exact fun h => h.2
      · intro h
        have := hq k a h
        exact ⟨by omega, h⟩
    rw [h2, ← Finset.add_sum_erase _ _ hjmem] at h1
    have h3 := eq_neg_of_add_eq_zero_left h1
    rw [CharTwo.neg_eq] at h3
    exact h3
  have hin : ind ((bm.matrix.map List.toFinset).getD j ∅) ∈ Submodule.span (ZMod 2)
      ((fun c => ind ((bm.matrix.map List.toFinset).getD c ∅)) '' {c | c < j}) := by
    have : ind ((bm.matrix.map List.toFinset).getD j ∅) =
        ∑ i in (st.matrix.getD k ∅).erase j,
          ind ((bm.matrix.map List.toFinset).getD i ∅) := by
      funext x
      rw [hsum x, Finset.sum_apply]
    rw [this]
    apply Submodule.sum_mem
    intro i hi
    rw [Finset.mem_erase] at hi
    have := hjmax i hi.2
    exact Submodule.subset_span ⟨i, by simp only [Set.mem_setOf_eq]; omega, rfl⟩
  exact (reduced_empty_iff twist _ hD st hst j (by omega)).2 hin

theorem reduce_in_order_step (bm : Bdd_Type) (hu : bm.upper_triangular) (hg : bm.graded)
    (hz : bm.boundary_squared_zero) (R : Reducer_state)
    (hR : (List.range (bm.matrix.map List.toFinset).length).foldlM (reduce_step false)
      { matrix := bm.matrix.map List.toFinset, lowest_one_lookup := fun _ => none } = some R)
    (done rest : List ℕ) (j : ℕ) (st : Reducer_state)
    (hnd : (done ++ j :: rest).Nodup)
    (hall : ∀ i, i ∈ done ++ j :: rest ↔ i < bm.get_num_cols)
    (hord : (done ++ j :: rest).Pairwise (fun i i' => bm.get_dim i = bm.get_dim i' → i < i'))
    (hinv : Order_inv R (bm.matrix.map List.toFinset) done st) :
    ∃ st', reduce_step true st j = some st' ∧
      Order_inv R (bm.matrix.map List.toFinset) (done ++ [j]) st' := by
  have hD := upper_triangular_toFinset bm hu
  have hn : (bm.matrix.map List.toFinset).length = bm.get_num_cols := by
    simp [Bdd_Type.get_num_cols]
  obtain ⟨hlen, hdone, hrest, hlook⟩ := hinv
  obtain ⟨R', hR', hRinv, hRq⟩ := reduce_fold_inv false (bm.matrix.map List.toFinset)
    (fun j x => x < j ∧ bm.get_dim x + 1 = bm.get_dim j)
    (by
      rintro j' j r x hj ⟨-, h2⟩ ⟨-, h4⟩ ⟨h5, h6⟩
      exact ⟨by omega, by omega⟩)
    (by
      intro j x hx
      obtain ⟨hj, hx'⟩ := mem_map_toFinset_getD bm j x hx
      exact ⟨hu j hj x hx', hg j hj x hx'⟩)
    (bm.matrix.map List.toFinset).length (le_refl _)
  rw [hR] at hR'
  cases hR'
  have hjn : j < bm.get_num_cols := (hall j).1 (by simp)
  have hjd : j ∉ done := by
    intro h
    have := List.nodup_append.1 hnd
    exact this.2.2 h (List.mem_cons_self _ _)
  have hlt_len : ∀ c r, get_max_index (R.matrix.getD c ∅) = some r → c < bm.get_num_cols := by
    intro c r h
    by_contra hcon
    rw [List.getD_eq_default _ _ (by rw [hRinv.1, hn]; omega)] at h
    simp [get_max_index] at h
  have huniq : ∀ a b r, get_max_index (R.matrix.getD a ∅) = some r →
      get_max_index (R.matrix.getD b ∅) = some r → a = b := by
    intro a b r ha hb
    have e1 := hRinv.2.2.2 a r (by rw [hn]; exact hlt_len a r ha) ha
    have e2 := hRinv.2.2.2 b r (by rw [hn]; exact hlt_len b r hb) hb
    rw [e1] at e2
    exact Option.some.inj e2
  have hsched : ∀ a, a < bm.get_num_cols → bm.get_dim a = bm.get_dim j →
      (a ∈ done ↔ a < j) := by
    intro a ha hdim
    rw [List.pairwise_append] at hord
    obtain ⟨-, hjr, hcross⟩ := hord
    constructor
    · intro had
      exact hcross a had j (List.mem_cons_self _ _) hdim
    · intro haj
      have hmem := (hall a).2 ha
      rw [List.mem_append, List.mem_cons] at hmem
      rcases hmem with h | h | h
      · exact h
      · omega
      · have := (List.pairwise_cons.1 hjr).1 a h hdim.symm
        omega
  by_cases hg' : st.lowest_one_lookup j = none
  · obtain ⟨stj, hstj, hinvj, -⟩ := reduce_fold_inv false (bm.matrix.map List.toFinset)
      (fun j x => x < j) (fun j' j r x hj _ _ hx => lt_trans hx hj) hD j (by omega)
    have hstable : ∀ a, a < j → stj.matrix.getD a ∅ = R.matrix.getD a ∅ := by
      intro a ha
      have hR2 : (List.range (j + ((bm.matrix.map List.toFinset).length - j))).foldlM
          (reduce_step false)
          { matrix := bm.matrix.map List.toFinset, lowest_one_lookup := fun _ => none } =
            some R := by
        have : j + ((bm.matrix.map List.toFinset).length - j) =
            (bm.matrix.map List.toFinset).length := by omega
        rw [this]
        exact hR
      exact (reduce_fold_stable false _ hD j stj hstj _ (by omega) R hR2 a ha).symm
    have hcolR := reduce_fold_column false _ hD j (by omega) stj R hstj hR
    have hcongr : reduce_column st.matrix st.lowest_one_lookup
        (reduce_budget ((bm.matrix.map List.toFinset).getD j ∅))
        ((bm.matrix.map List.toFinset).getD j ∅) =
        reduce_column stj.matrix stj.lowest_one_lookup
          (reduce_budget ((bm.matrix.map List.toFinset).getD j ∅))
          ((bm.matrix.map List.toFinset).getD j ∅) := by
      apply reduce_column_congr _ _ _ _ (fun x => bm.get_dim x + 1 = bm.get_dim j)
      · intro r hr
        have hiff : ∀ a, st.lowest_one_lookup r = some a ↔ stj.lowest_one_lookup r = some a := by
          intro a
          rw [hlook]
          constructor
          · rintro ⟨had, hlow⟩
            have han := hlt_len a r hlow
            have hdim : bm.get_dim a = bm.get_dim j := by
              have := (hRq a r ((get_max_index_eq_some _ _).1 hlow).1).2
              omega
            have haj := (hsched a han hdim).1 had
            apply hinvj.2.2.2 a r haj
            rw [hstable a haj]
            exact hlow
          · intro hl
            obtain ⟨haj, hlow⟩ := hinvj.2.2.1 r a hl
            rw [hstable a haj] at hlow
            have hdim : bm.get_dim a = bm.get_dim j := by
              have := (hRq a r ((get_max_index_eq_some _ _).1 hlow).1).2
              omega
            exact ⟨(hsched a (by omega) hdim).2 haj, hlow⟩
        constructor
        · apply Option.ext
          intro a
          exact hiff a
        · intro a ha
          have ha' := (hiff a).1 ha
          obtain ⟨had, hlow⟩ := (hlook r a).1 ha
          obtain ⟨haj, -⟩ := hinvj.2.2.1 r a ha'
          refine ⟨by rw [hdone a had, hstable a haj], ?_⟩
          intro x hx
          rw [hdone a had] at hx
          have h1 := (hRq a x hx).2
          have h2 := (hRq a r ((get_max_index_eq_some _ _).1 hlow).1).2
          omega
      · intro x hx
        obtain ⟨hj', hx'⟩ := mem_map_toFinset_getD bm j x hx
        exact hg j hj' x hx'
    have hcol : reduce_column st.matrix st.lowest_one_lookup
        (reduce_budget (st.matrix.getD j ∅)) (st.matrix.getD j ∅) =
        some (R.matrix.getD j ∅) := by
      rw [hrest j hjd, hcongr, hcolR]
    have hjl : j < st.matrix.length := by rw [hlen, hn]; exact hjn
    unfold reduce_step
    rw [hg']
    simp only [Option.isSome_none, Bool.and_false, Bool.false_eq_true, if_false, hcol,
      Option.map_some']
    refine ⟨_, rfl, ?_⟩
    cases hm : get_max_index (R.matrix.getD j ∅) with
    | none =>
      refine ⟨by simp [hlen], ?_, ?_, ?_⟩
      · intro c hc
        rw [List.mem_append, List.mem_singleton] at hc
        by_cases hcj : c = j
        · subst hcj
          show (st.matrix.set c (R.matrix.getD c ∅)).getD c ∅ = _
          rw [getD_set_self _ _ _ _ hjl]
        · show (st.matrix.set j (R.matrix.getD j ∅)).getD c ∅ = _
          rw [getD_set_ne _ _ _ _ _ (Ne.symm hcj)]
          exact hdone c (hc.resolve_right hcj)
      · intro c hc
        rw [List.mem_append, List.mem_singleton, not_or] at hc
        show (st.matrix.set j (R.matrix.getD j ∅)).getD c ∅ = _
        rw [getD_set_ne _ _ _ _ _ (Ne.symm hc.2)]
        exact hrest c hc.1
      · intro r c
        show st.lowest_one_lookup r = some c ↔ _
        rw [hlook, List.mem_append, List.mem_singleton]
        constructor
        · rintro ⟨h1, h2⟩
          exact ⟨Or.inl h1, h2⟩
        · rintro ⟨h1 | h1, h2⟩
          · exact ⟨h1, h2⟩
          · rw [h1, hm] at h2
            cases h2
    | some r0 =>
      refine ⟨by simp [hlen], ?_, ?_, ?_⟩
      · intro c hc
        rw [List.mem_append, List.mem_singleton] at hc
        by_cases hcj : c = j
        · subst hcj
          show (st.matrix.set c (R.matrix.getD c ∅)).getD c ∅ = _
          rw [getD_set_self _ _ _ _ hjl]
        · show (st.matrix.set j (R.matrix.getD j ∅)).getD c ∅ = _
          rw [getD_set_ne _ _ _ _ _ (Ne.symm hcj)]
          exact hdone c (hc.resolve_right hcj)
      · intro c hc
        rw [List.mem_append, List.mem_singleton, not_or] at hc
        show (st.matrix.set j (R.matrix.getD j ∅)).getD c ∅ = _
        rw [getD_set_ne _ _ _ _ _ (Ne.symm hc.2)]
        exact hrest c hc.1
      · intro r c
        show (if r = r0 then some j else st.lowest_one_lookup r) = some c ↔ _
        rw [List.mem_append, List.mem_singleton]
        by_cases hr : r = r0
        · rw [if_pos hr]
          subst hr
          constructor
          · intro h
            cases h
            exact ⟨Or.inr rfl, hm⟩
          · rintro ⟨-, h2⟩
            rw [huniq c j r h2 hm]
        · rw [if_neg hr, hlook]
          constructor
          · rintro ⟨h1, h2⟩
            exact ⟨Or.inl h1, h2⟩
          · rintro ⟨h1 | h1, h2⟩
            · exact ⟨h1, h2⟩
            · rw [h1, hm] at h2
              exact absurd (Option.some.inj h2).symm hr
  · obtain ⟨k, hk⟩ := Option.ne_none_iff_exists'.1 hg'
    obtain ⟨hkd, hklow⟩ := (hlook j k).1 hk
    have hempty := birth_column_empty bm hu hz false R hR k j (hlt_len k j hklow) hklow
    have hjl : j < st.matrix.length := by rw [hlen, hn]; exact hjn
    unfold reduce_step
    rw [hk]
    simp only [Option.isSome_some, Bool.and_self, if_true]
    refine ⟨_, rfl, by simp [hlen], ?_, ?_, ?_⟩
    · intro c hc
      rw [List.mem_append, List.mem_singleton] at hc
      by_cases hcj : c = j
      · subst hcj
        show (st.matrix.set c ∅).getD c ∅ = _
        rw [getD_set_self _ _ _ _ hjl, hempty]
      · show (st.matrix.set j ∅).getD c ∅ = _
        rw [getD_set_ne _ _ _ _ _ (Ne.symm hcj)]
        exact hdone c (hc.resolve_right hcj)
    · intro c hc
      rw [List.mem_append, List.mem_singleton, not_or] at hc
      show (st.matrix.set j ∅).getD c ∅ = _
      rw [getD_set_ne _ _ _ _ _ (Ne.symm hc.2)]
      exact hrest c hc.1
    · intro r c
      show st.lowest_one_lookup r = some c ↔ _
      rw [hlook, List.mem_append, List.mem_singleton]
      constructor
      · rintro ⟨h1, h2⟩
        exact ⟨Or.inl h1, h2⟩
      · rintro ⟨h1 | h1, h2⟩
        · exact ⟨h1, h2⟩
        · rw [h1, hempty] at h2
          simp [get_max_index] at h2

theorem reduce_in_order_fold (bm : Bdd_Type) (hu : bm.upper_triangular) (hg : bm.graded)
    (hz : bm.boundary_squared_zero) (R : Reducer_state)
    (hR : (List.range (bm.matrix.map List.toFinset).length).foldlM (reduce_step false)
      { matrix := bm.matrix.map List.toFinset, lowest_one_lookup := fun _ => none } = some R) :
    ∀ (rest done : List ℕ) (st : Reducer_state),
      (done ++ rest).Nodup →
      (∀ i, i ∈ done ++ rest ↔ i < bm.get_num_cols) →
      (done ++ rest).Pairwise (fun i i' => bm.get_dim i = bm.get_dim i' → i < i') →
      Order_inv R (bm.matrix.map List.toFinset) done st →
      ∃ st', rest.foldlM (reduce_step true) st = some st' ∧
        Order_inv R (bm.matrix.map List.toFinset) (done ++ rest) st' := by
  intro rest
  induction rest with
  | nil =>
    intro done st _ _ _ hinv
    exact ⟨st, rfl, by rw [List.append_nil]; exact hinv⟩
  | cons j rest ih =>
    intro done st hnd hall hord hinv
    obtain ⟨st1, hst1, hinv1⟩ := reduce_in_order_step bm hu hg hz R hR done rest j st hnd hall
      hord hinv
    have happ : (done ++ [j]) ++ rest = done ++ j :: rest := by simp
    obtain ⟨st', hst', hinv'⟩ := ih (done ++ [j]) st1 (by rw [happ]; exact hnd)
      (by rw [happ]; exact hall) (by rw [happ]; exact hord) hinv1
    refine ⟨st', ?_, by rw [← happ]; exact hinv'⟩
    rw [List.foldlM_cons, hst1]
    exact hst'

theorem plain_reduction_eq (bm : Bdd_Type) :
    plain_reduction bm =
      (List.range (bm.matrix.map List.toFinset).length).foldlM (reduce_step false)
        { matrix := bm.matrix.map List.toFinset, lowest_one_lookup := fun _ => none } := by
  have hf : reduce_step false = plain_reduce_step :=
    funext fun st => funext fun j => reduce_step_false st j
  rw [hf]
  simp [plain_reduction, Bdd_Type.get_num_cols]

/-- C15: on an upper-triangular, dimension-graded boundary matrix with
`D * D = 0` the twist reduction returns the reduced matrix and the pairs of the
plain left-to-right reduction, which has no short-circuit.  This holds for the
specification's left-to-right order and for every order of the columns that
keeps the columns of one dimension left to right, such as the order by
decreasing dimension, in which the short-circuit clears every birth column. -/
theorem twist_does_not_change_result (bm : Bdd_Type) (hu : bm.upper_triangular)
    (hg : bm.graded) (hz : bm.boundary_squared_zero) :
    twist_reduction bm = reduce_in_order true (List.range bm.get_num_cols) bm ∧
    twist_reduction bm = plain_reduction bm ∧
    (∃ pairs, compute_persistence_pairs bm = some pairs ∧
      plain_persistence_pairs bm = some pairs) ∧
    ∀ order : List ℕ, order.Perm (List.range bm.get_num_cols) →
      order.Pairwise (fun i j => bm.get_dim i = bm.get_dim j → i < j) →
      ∃ st st', reduce_in_order true order bm = some st ∧ plain_reduction bm = some st' ∧
        st.matrix = st'.matrix ∧ emit_pairs st = emit_pairs st' ∧
        (reduce_in_order true order bm).map emit_pairs = plain_persistence_pairs bm := by
  have hn : (bm.matrix.map List.toFinset).length = bm.get_num_cols := by
    simp [Bdd_Type.get_num_cols]
  have hgen : ∀ order : List ℕ, order.Perm (List.range bm.get_num_cols) →
      order.Pairwise (fun i j => bm.get_dim i = bm.get_dim j → i < j) →
      ∃ st st', reduce_in_order true order bm = some st ∧ plain_reduction bm = some st' ∧
        st.matrix = st'.matrix ∧ emit_pairs st = emit_pairs st' ∧
        (reduce_in_order true order bm).map emit_pairs = plain_persistence_pairs bm := by
    intro order hperm hord
    obtain ⟨R, hR, hRinv, -⟩ := reduce_fold_inv false (bm.matrix.map List.toFinset)
      (fun _ _ => True) (fun _ _ _ _ _ _ _ _ => trivial) (fun _ _ _ => trivial)
      (bm.matrix.map List.toFinset).length (le_refl _)
    obtain ⟨st, hst, hinv⟩ := reduce_in_order_fold bm hu hg hz R hR order []
      { matrix := bm.matrix.map List.toFinset, lowest_one_lookup := fun _ => none }
      (by
        rw [List.nil_append]
        exact hperm.nodup_iff.2 (List.nodup_range _))
      (by
        intro i
        rw [List.nil_append, hperm.mem_iff, List.mem_range])
      (by rw [List.nil_append]; exact hord)
      ⟨rfl, by simp, fun _ _ => rfl, by simp⟩
    rw [List.nil_append] at hinv
    obtain ⟨hlen, hdone, -, -⟩ := hinv
    have hmat : st.matrix = R.matrix := by
      apply List.ext_getElem?
      intro c
      by_cases hc : c < bm.get_num_cols
      · have hc1 : c < st.matrix.length := by rw [hlen, hn]; exact hc
        have hc2 : c < R.matrix.length := by rw [hRinv.1, hn]; exact hc
        have := hdone c (hperm.mem_iff.2 (List.mem_range.2 hc))
        rw [List.getD_eq_getElem?_getD, List.getD_eq_getElem?_getD,
          List.getElem?_eq_getElem hc1, List.getElem?_eq_getElem hc2] at this
        rw [List.getElem?_eq_getElem hc1, List.getElem?_eq_getElem hc2]
        simpa using this
      · rw [List.getElem?_eq_none (by rw [hlen, hn]; omega),
          List.getElem?_eq_none (by rw [hRinv.1, hn]; omega)]
    have hpairs : emit_pairs st = emit_pairs R := by
      simp only [emit_pairs, hmat]
    have hplain : plain_reduction bm = some R := by
      rw [plain_reduction_eq]
      exact hR
    refine ⟨st, R, hst, hplain, hmat, hpairs, ?_⟩
    rw [plain_persistence_pairs, hplain]
    show Option.map emit_pairs (reduce_in_order true order bm) = _
    rw [show reduce_in_order true order bm = some st from hst]
    simp only [Option.map_some', hpairs]
  have heq : twist_reduction bm = plain_reduction bm := by
    have := reduce_fold_twist (bm.matrix.map List.toFinset)
      (upper_triangular_toFinset bm hu) bm.get_num_cols (by simp [Bdd_Type.get_num_cols])
    exact this
  refine ⟨rfl, heq, ?_, hgen⟩
  obtain ⟨st, hst, -⟩ := reduce_matrix_inv true bm (fun _ _ => True)
    (fun _ _ _ _ _ _ _ _ => trivial) (fun _ _ _ => trivial)
  refine ⟨emit_pairs st, ?_, ?_⟩
  · simp only [compute_persistence_pairs, twist_reduction, hst, Option.map_some']
  · rw [plain_persistence_pairs, ← heq]
    simp only [twist_reduction, hst, Option.map_some']

/-! ## Bounds and order of the extraction -/

theorem pairs_of_build (T : Alpha_shape_3) (s : Loop_state) (h : build T = some s) :
    ∃ pairs, compute_persistence_pairs s.boundary_matrix = some pairs ∧
      (∀ p ∈ pairs, p.1 < p.2 ∧ p.2 < (filtration T).length ∧
        dim_at (filtration T) p.2 = dim_at (filtration T) p.1 + 1 ∧
        dim_at (filtration T) p.2 ≤ 3) ∧
      pdb2persistence T = some [diagram_of (filtration T) (sort_pairs pairs) 0,
        diagram_of (filtration T) (sort_pairs pairs) 1,
        diagram_of (filtration T) (sort_pairs pairs) 2] := by
  obtain ⟨hu, hg⟩ := build_graded T s h
  obtain ⟨pairs, hp, hvalid⟩ := compute_pairs_valid s.boundary_matrix hu hg
  obtain ⟨st, hst, hpe⟩ := compute_pairs_some _ pairs hp
  obtain ⟨-, hml, -, -, -, hd, -, -⟩ := build_inv T s h
  have hlen := twist_reduction_length _ st hst
  have hdim : ∀ j, j < (filtration T).length →
      s.boundary_matrix.get_dim j = dim_at (filtration T) j ∧ dim_at (filtration T) j ≤ 3 := by
    intro j hj
    have h1 := hd j hj
    have hget : (filtration T)[j]? = some ((filtration T)[j]) := List.getElem?_eq_getElem hj
    have h2 := filtration_dim T _ (List.getElem_mem hj)
    rw [hget, Option.map_some'] at h1
    simp only [Bdd_Type.get_dim, List.getD_eq_getElem?_getD, h1, Option.getD_some, dim_at, hget,
      Option.map_some', h2]
    exact ⟨trivial, object_dim_le _⟩
  have hall : ∀ p ∈ pairs, p.1 < p.2 ∧ p.2 < (filtration T).length ∧
      dim_at (filtration T) p.2 = dim_at (filtration T) p.1 + 1 ∧
      dim_at (filtration T) p.2 ≤ 3 := by
    intro p hpm
    obtain ⟨hlt, hgd⟩ := hvalid p hpm
    have h2 : p.2 < (filtration T).length := by
      rw [hpe, mem_emit_pairs] at hpm
      rw [← hml, ← hlen]
      exact hpm.1
    have e1 := hdim p.1 (by omega)
    have e2 := hdim p.2 h2
    refine ⟨hlt, h2, ?_, e2.2⟩
    rw [← e1.1, ← e2.1, hgd]
  refine ⟨pairs, hp, hall, ?_⟩
  obtain ⟨ds, hds⟩ := pdb2persistence_of_build T s h
  obtain ⟨s', pairs', hs', hp', he⟩ := pdb2persistence_some T ds hds
  rw [h] at hs'
  cases hs'
  rw [hp] at hp'
  cases hp'
  rw [hds, (extract_diagrams_some _ _ ds he).2]

/-- C18: when the build succeeds the reducer returns its pairs, and for every
pair both indices are below the filtration size and the dimension stored with
the birth cell is 0, 1 or 2; so the iteration of the extraction loop for the
pair finds its bucket in any result of three diagrams, and the whole
extraction and the function return. -/
theorem bucket_indexing_in_bounds (T : Alpha_shape_3) (s : Loop_state)
    (h : build T = some s) :
    ∃ pairs, compute_persistence_pairs s.boundary_matrix = some pairs ∧
      (∀ p ∈ pairs, p.1 < (filtration T).length ∧ p.2 < (filtration T).length ∧
        ∃ tb, (filtration T)[p.1]? = some tb ∧ tb.second ≤ 2 ∧
          ∀ pd : persistence_diagrams_t, pd.length = 3 →
            ∃ pd', extract_pair (filtration T) pd p = some pd' ∧ pd'.length = 3) ∧
      ∃ diagrams, extract_diagrams (filtration T) (sort_pairs pairs) = some diagrams ∧
        pdb2persistence T = some diagrams ∧ diagrams.length = 3 := by
  obtain ⟨pairs, hp, hall, hres⟩ := pairs_of_build T s h
  refine ⟨pairs, hp, ?_, ?_⟩
  · intro p hpm
    obtain ⟨hlt, h2, hd, hd3⟩ := hall p hpm
    have h1 : p.1 < (filtration T).length := by omega
    refine ⟨h1, h2, (filtration T)[p.1], List.getElem?_eq_getElem h1, ?_, ?_⟩
    · have : dim_at (filtration T) p.1 = ((filtration T)[p.1]).second := by
        simp [dim_at, List.getElem?_eq_getElem h1]
      omega
    · intro pd hpd
      obtain ⟨pd', hpd'⟩ := extract_fold_succeeds (filtration T) [p]
        (by
          intro q hq
          rw [List.mem_singleton] at hq
          subst hq
          exact ⟨h1, h2, by omega⟩) pd hpd
      simp only [List.foldlM_cons, List.foldlM_nil, Option.bind_eq_bind] at hpd'
      cases hx : extract_pair (filtration T) pd p with
      | none => simp [hx] at hpd'
      | some pd1 =>
        exact ⟨pd1, rfl, by rw [(extract_pair_some _ _ _ _ hx).2.2.1, hpd]⟩
  · obtain ⟨s', pairs', hs', hp', he⟩ := pdb2persistence_some T _ hres
    rw [h] at hs'
    cases hs'
    rw [hp] at hp'
    cases hp'
    exact ⟨_, he, hres, rfl⟩

theorem sort_pairs_sorted (pairs : List (ℕ × ℕ)) :
    (sort_pairs pairs).Pairwise (fun a b => a.1 ≤ b.1) := by
  have h := std_sort_sorted (fun a b : ℕ × ℕ => decide (a.1 < b.1 ∨ (a.1 = b.1 ∧ a.2 < b.2)))
    (by intro a b; simp only [decide_eq_false_iff_not]; omega)
    (by intro a b c; simp only [decide_eq_false_iff_not]; omega) pairs
  refine h.imp ?_
  intro a b hab
  simp only [decide_eq_false_iff_not] at hab
  omega

/-- C19: within each returned diagram the entries appear in non-decreasing
order of birth weight. -/
theorem output_order (T : Alpha_shape_3) (diagrams : persistence_diagrams_t)
    (h : pdb2persistence T = some diagrams) :
    ∀ diagram ∈ diagrams, diagram.Pairwise (fun e e' => e.1 ≤ e'.1) := by
  obtain ⟨s, pairs, hs, hp, he⟩ := pdb2persistence_some T diagrams h
  obtain ⟨hrange, hdiag⟩ := extract_diagrams_some _ _ diagrams he
  subst hdiag
  intro diagram hd
  have hex : ∃ d, diagram = diagram_of (filtration T) (sort_pairs pairs) d := by
    simp only [List.mem_cons, List.mem_singleton, List.not_mem_nil, or_false] at hd
    rcases hd with rfl | rfl | rfl
    · exact ⟨0, rfl⟩
    · exact ⟨1, rfl⟩
    · exact ⟨2, rfl⟩
  obtain ⟨d, rfl⟩ := hex
  unfold diagram_of
  rw [List.pairwise_map]
  apply List.Pairwise.filter
  refine (List.Pairwise.and_mem.1 (sort_pairs_sorted pairs)).imp ?_
  rintro a b ⟨ha, hb, hab⟩
  rcases Nat.lt_or_ge a.1 b.1 with hlt | hge
  · exact filtration_weight_mono (circumradii T) a.1 b.1 hlt (hrange b hb).1
  · have : a.1 = b.1 := by omega
    rw [this]

/-! ## The table `edge_conv` -/

theorem edge_conv_none (i j : ℤ) (h : i = j ∨ i < 0 ∨ 3 < i ∨ j < 0 ∨ 3 < j) :
    edge_conv i j = none := by
  unfold edge_conv
  by_cases hij : i > j
  · simp only [hij, if_true]
    split_ifs <;> first | rfl | omega
  · simp only [hij, if_false]
    split_ifs <;> first | rfl | omega

theorem edge_conv_fin :
    ∀ a b : Fin 4, a ≠ b →
      (∃ k, k < 6 ∧ edge_conv (a.val : ℤ) (b.val : ℤ) = some k ∧
        edge_conv (b.val : ℤ) (a.val : ℤ) = some k) ∧
      ∀ c d : Fin 4, edge_conv (a.val : ℤ) (b.val : ℤ) = edge_conv (c.val : ℤ) (d.val : ℤ) →
        (a = c ∧ b = d) ∨ (a = d ∧ b = c) := by
  decide

theorem int_of_fin4 (i : ℤ) (h0 : 0 ≤ i) (h4 : i < 4) : ∃ a : Fin 4, i = (a.val : ℤ) :=
  ⟨⟨i.toNat, by omega⟩, by simp [Int.toNat_of_nonneg h0]⟩

theorem edge_conv_args (i j : ℤ) (k : ℕ) (h : edge_conv i j = some k) :
    ∃ a b : Fin 4, a ≠ b ∧ i = (a.val : ℤ) ∧ j = (b.val : ℤ) := by
  have hr : ¬ (i = j ∨ i < 0 ∨ 3 < i ∨ j < 0 ∨ 3 < j) := by
    intro hn
    rw [edge_conv_none i j hn] at h
    exact absurd h (by simp)
  obtain ⟨a, ha⟩ := int_of_fin4 i (by omega) (by omega)
  obtain ⟨b, hb⟩ := int_of_fin4 j (by omega) (by omega)
  refine ⟨a, b, ?_, ha, hb⟩
  intro hab
  apply hr
  left
  rw [ha, hb, hab]

/-- C20: `edge_conv` is a constant symmetric table. -/
theorem edge_conv_is_symmetric_table :
    (∀ i j : ℤ, 0 ≤ i → i < 4 → 0 ≤ j → j < 4 → i ≠ j →
      ∃ k, k < 6 ∧ edge_conv i j = some k ∧ edge_conv j i = some k) ∧
    (∀ (i j i' j' : ℤ) (k : ℕ), edge_conv i j = some k → edge_conv i' j' = some k →
      (i = i' ∧ j = j') ∨ (i = j' ∧ j = i')) ∧
    (∀ k, k < 6 → ∃ i j : ℤ, edge_conv i j = some k) ∧
    (∀ i j : ℤ, (i = j ∨ i < 0 ∨ 3 < i ∨ j < 0 ∨ 3 < j) → edge_conv i j = none) ∧
    (∀ (s : Cell_info_3) (i j : ℤ) (I : ℕ), 0 ≤ i → i < 4 → 0 ≤ j → j < 4 → i ≠ j →
      ∃ s' k, s.set_edge_index i j I = some s' ∧ edge_conv i j = some k ∧
        s'.edge_index j i = some I ∧ s'.edge_index i j = some I ∧
        (∀ k', k' ≠ k → s'.edge_index_ k' = s.edge_index_ k') ∧
        (∀ i', s'.facet_index_ i' = s.facet_index_ i') ∧
        (∀ i' j' : ℤ, edge_conv i' j' ≠ none → edge_conv i' j' ≠ some k →
          s'.edge_index i' j' = s.edge_index i' j') ∧
        (∀ i' : ℤ, s'.facet_index i' = s.facet_index i')) ∧
    (∀ (s : Cell_info_3) (i j : ℤ) (I : ℕ), (i = j ∨ i < 0 ∨ 3 < i ∨ j < 0 ∨ 3 < j) →
      s.set_edge_index i j I = none ∧ s.edge_index i j = none ∧ s.has_edge_index i j = none) := by
  have hsome : ∀ i j : ℤ, 0 ≤ i → i < 4 → 0 ≤ j → j < 4 → i ≠ j →
      ∃ k, k < 6 ∧ edge_conv i j = some k ∧ edge_conv j i = some k := by
    intro i j h0 h1 h2 h3 h4
    obtain ⟨a, rfl⟩ := int_of_fin4 i h0 h1
    obtain ⟨b, rfl⟩ := int_of_fin4 j h2 h3
    exact (edge_conv_fin a b (fun h => h4 (by rw [h]))).1
  refine ⟨hsome, ?_, ?_, edge_conv_none, ?_, ?_⟩
  · intro i j i' j' k h1 h2
    obtain ⟨a, b, hab, rfl, rfl⟩ := edge_conv_args i j k h1
    obtain ⟨c, d, _, rfl, rfl⟩ := edge_conv_args i' j' k h2
    rcases (edge_conv_fin a b hab).2 c d (by rw [h1, h2]) with ⟨h, h'⟩ | ⟨h, h'⟩
    · exact Or.inl ⟨by rw [h], by rw [h']⟩
    · exact Or.inr ⟨by rw [h], by rw [h']⟩
  · intro k hk
    have : k = 0 ∨ k = 1 ∨ k = 2 ∨ k = 3 ∨ k = 4 ∨ k = 5 := by omega
    rcases this with rfl | rfl | rfl | rfl | rfl | rfl
    · exact ⟨0, 1, by decide⟩
    · exact ⟨0, 2, by decide⟩
    · exact ⟨0, 3, by decide⟩
    · exact ⟨1, 2, by decide⟩
    · exact ⟨1, 3, by decide⟩
    · exact ⟨2, 3, by decide⟩
  · intro s i j I h0 h1 h2 h3 h4
    obtain ⟨k, _, hk, hk'⟩ := hsome i j h0 h1 h2 h3 h4
    refine ⟨{ s with edge_index_ := fun k' => if k' = k then some I else s.edge_index_ k' }, k,
      by simp [Cell_info_3.set_edge_index, hk], hk, ?_, ?_, ?_, ?_, ?_, ?_⟩
    · simp [Cell_info_3.edge_index, Cell_info_3.has_edge_index, hk', CGAL_assertion]
    · simp [Cell_info_3.edge_index, Cell_info_3.has_edge_index, hk, CGAL_assertion]
    · intro k' hne
      simp [hne]
    · intro i'
      rfl
    · intro i' j' hn hne
      cases hk2 : edge_conv i' j' with
      | none => exact absurd hk2 hn
      | some k2 =>
        have : k2 ≠ k := fun h => hne (by rw [hk2, h])
        simp [Cell_info_3.edge_index, Cell_info_3.has_edge_index, hk2, this]
    · intro i'
      rfl
  · intro s i j I h
    simp [Cell_info_3.set_edge_index, Cell_info_3.edge_index, Cell_info_3.has_edge_index,
      edge_conv_none i j h]

/-! ## Scenarios -/

theorem build_succeeds (T : Alpha_shape_3)
    (hwf : ∀ t ∈ circumradii T, t.third.well_formed T)
    (hfaces : ∀ t ∈ circumradii T, ∀ σ, some σ ∈ t.third.reads T →
      ∃ a ∈ circumradii T, a.third.writes T σ = true ∧ Sort_triples a t = true) :
    ∃ s, build T = some s := by
  obtain ⟨s, hs, -⟩ := run_loop_succeeds T (filtration T).length (filtration T)
    (fun t ht => hwf t ((mem_filtration T t).1 ht))
    (by
      intro k t σ hk hσ
      obtain ⟨a, ha, hw, hlt⟩ := hfaces t ((mem_filtration T t).1 (List.getElem?_mem hk)) σ hσ
      obtain ⟨i, hi⟩ := List.getElem?_of_mem ((mem_filtration T a).2 ha)
      exact ⟨i, a, sorted_position_lt (filtration_sorted _) hi hk hlt, hi, hw⟩)
  exact ⟨s, hs⟩

theorem filtration_of_sorted (T : Alpha_shape_3)
    (h : (circumradii T).Pairwise (fun a b => Sort_triples b a = false)) :
    filtration T = circumradii T :=
  List.Sorted.insertionSort_eq h

theorem length_diagram_of (l : List Triple) (st : Reducer_state) (d : ℕ) :
    (diagram_of l (sort_pairs (emit_pairs st)) d).length =
      ((Finset.range st.matrix.length).filter fun c =>
        ∃ r, get_max_index (st.matrix.getD c ∅) = some r ∧
          (dim_at l r = d ∧ weight_at l r ≠ weight_at l c)).card := by
  have hperm : (sort_pairs (emit_pairs st)).Perm (emit_pairs st) := std_sort_perm _ _
  rw [diagram_of, List.length_map, ← List.countP_eq_length_filter,
    hperm.countP_eq, emit_pairs, List.countP_filterMap, ← card_filter_range]
  congr 1
  apply Finset.filter_congr
  intro c _
  cases hm : get_max_index (st.matrix.getD c ∅) with
  | none => simp
  | some r => simp

theorem column_nonempty (T : Alpha_shape_3) (s : Loop_state) (h : build T = some s)
    (c : ℕ) (t : Triple) (hc : (filtration T)[c]? = some t) (hd : 1 ≤ t.third.dim) :
    s.boundary_matrix.get_col c ≠ [] := by
  obtain ⟨sk, is, -, his, hmem, -, -⟩ := built_column T s h c t hc
  have hlen := slots_length sk _ is his
  rw [reads_length T _ hd] at hlen
  cases is with
  | nil => simp at hlen
  | cons i is =>
    intro he
    have := (hmem i).2 (List.mem_cons_self _ _)
    rw [he] at this
    simp at this

theorem reduced_of_build (T : Alpha_shape_3) (s : Loop_state) (h : build T = some s) :
    ∃ st, twist_reduction s.boundary_matrix = some st ∧
      st.matrix.length = (filtration T).length ∧
      (∀ c r, get_max_index (st.matrix.getD c ∅) = some r →
        r < c ∧ c < (filtration T).length ∧
          dim_at (filtration T) c = dim_at (filtration T) r + 1) ∧
      pdb2persistence T = some [diagram_of (filtration T) (sort_pairs (emit_pairs st)) 0,
        diagram_of (filtration T) (sort_pairs (emit_pairs st)) 1,
        diagram_of (filtration T) (sort_pairs (emit_pairs st)) 2] ∧
      ∀ c, c < (filtration T).length →
        (st.matrix.getD c ∅ = ∅ ↔
          ind ((s.boundary_matrix.get_col c).toFinset) ∈ Submodule.span (ZMod 2)
            ((fun j => ind ((s.boundary_matrix.get_col j).toFinset)) '' {j | j < c})) := by
  obtain ⟨pairs, hp, hall, hres⟩ := pairs_of_build T s h
  obtain ⟨st, hst, hpe⟩ := compute_pairs_some _ pairs hp
  subst hpe
  obtain ⟨-, hml, -, -, -, -, -, -⟩ := build_inv T s h
  have hlen : st.matrix.length = (filtration T).length := by
    rw [twist_reduction_length _ st hst, hml]
  refine ⟨st, hst, hlen, ?_, hres, ?_⟩
  · intro c r hlow
    have hc : c < st.matrix.length := by
      by_contra hcon
      rw [List.getD_eq_default _ _ (by omega)] at hlow
      simp [get_max_index] at hlow
    obtain ⟨h1, h2, h3, -⟩ := hall (r, c) ((mem_emit_pairs st (r, c)).2 ⟨hc, hlow⟩)
    exact ⟨h1, h2, h3⟩
  · intro c hc
    have hD := upper_triangular_toFinset s.boundary_matrix (build_graded T s h).1
    have hst' := hst
    rw [twist_reduction_eq] at hst'
    have key := reduced_empty_iff true _ hD st hst' c (by rw [List.length_map, hml]; exact hc)
    simp only [getD_map_toFinset] at key
    exact key

theorem get_dim_of_build (T : Alpha_shape_3) (s : Loop_state) (h : build T = some s)
    (j : ℕ) (hj : j < (filtration T).length) :
    s.boundary_matrix.get_dim j = dim_at (filtration T) j := by
  obtain ⟨-, -, -, -, -, hd, -, -⟩ := build_inv T s h
  have h1 := hd j hj
  have hget : (filtration T)[j]? = some ((filtration T)[j]) := List.getElem?_eq_getElem hj
  have h2 := filtration_dim T _ (List.getElem_mem hj)
  rw [hget, Option.map_some'] at h1
  simp only [Bdd_Type.get_dim, List.getD_eq_getElem?_getD, h1, Option.getD_some, dim_at, hget,
    Option.map_some', h2]

theorem lone_column_survives (T : Alpha_shape_3) (s : Loop_state) (h : build T = some s)
    (c : ℕ) (hc : c < (filtration T).length) (hd : 1 ≤ dim_at (filtration T) c)
    (hlone : ∀ j, j < c → dim_at (filtration T) j ≠ dim_at (filtration T) c) :
    ¬ ind ((s.boundary_matrix.get_col c).toFinset) ∈ Submodule.span (ZMod 2)
      ((fun j => ind ((s.boundary_matrix.get_col j).toFinset)) '' {j | j < c}) := by
  obtain ⟨hu, hg⟩ := build_graded T s h
  obtain ⟨-, hml, -, -, -, -, -, -⟩ := build_inv T s h
  have hget : (filtration T)[c]? = some ((filtration T)[c]) := List.getElem?_eq_getElem hc
  have hdim : 1 ≤ ((filtration T)[c]).third.dim := by
    rw [← filtration_dim T _ (List.getElem_mem hc)]
    simpa [dim_at, hget] using hd
  have hne := column_nonempty T s h c _ hget hdim
  obtain ⟨x, hx⟩ := List.exists_mem_of_ne_nil _ hne
  have hcn : c < s.boundary_matrix.get_num_cols := by
    rw [Bdd_Type.get_num_cols, hml]; exact hc
  have hxc := hu c hcn x hx
  have hgx := hg c hcn x hx
  intro hmem
  have hker : Submodule.span (ZMod 2)
      ((fun j => ind ((s.boundary_matrix.get_col j).toFinset)) '' {j | j < c}) ≤
      LinearMap.ker (LinearMap.proj x : (ℕ → ZMod 2) →ₗ[ZMod 2] ZMod 2) := by
    rw [Submodule.span_le]
    rintro _ ⟨j, hj, rfl⟩
    simp only [Set.mem_setOf_eq] at hj
    simp only [SetLike.mem_coe, LinearMap.mem_ker, LinearMap.proj_apply, ind, List.mem_toFinset]
    rw [if_neg]
    intro hxj
    have hgj := hg j (by omega) x hxj
    apply hlone j hj
    rw [← get_dim_of_build T s h j (by omega), ← get_dim_of_build T s h c hc, ← hgj, ← hgx]
  have := hker hmem
  simp only [LinearMap.mem_ker, LinearMap.proj_apply, ind, List.mem_toFinset, hx, if_true] at this
  exact one_ne_zero this

theorem diagram_none (l : List Triple) (st : Reducer_state)
    (hlow : ∀ c r, get_max_index (st.matrix.getD c ∅) = some r →
      r < c ∧ c < l.length ∧
        dim_at l c = dim_at l r + 1)
    (d : ℕ) (hnone : ∀ j, j < l.length → dim_at l j ≠ d + 1) :
    diagram_of l (sort_pairs (emit_pairs st)) d = [] := by
  rw [List.eq_nil_iff_forall_not_mem]
  intro e he
  rw [mem_diagram_of] at he
  obtain ⟨p, hp, hd, -, -⟩ := he
  have hp' := (mem_emit_pairs st p).1 ((mem_std_sort _ _ _).1 hp)
  obtain ⟨-, h2, h3⟩ := hlow p.2 p.1 hp'.2
  exact hnone p.2 h2 (by rw [h3, hd])

theorem diagram_lone (l : List Triple) (st : Reducer_state)
    (hlow : ∀ c r, get_max_index (st.matrix.getD c ∅) = some r →
      r < c ∧ c < l.length ∧
        dim_at l c = dim_at l r + 1)
    (hlen : st.matrix.length = l.length)
    (d c : ℕ) (hc : c < l.length) (hdc : dim_at l c = d + 1)
    (hlone : ∀ j, j < l.length → dim_at l j = d + 1 → j = c)
    (hne : st.matrix.getD c ∅ ≠ ∅) :
    ∃ r, r < c ∧ dim_at l r = d ∧
      diagram_of l (sort_pairs (emit_pairs st)) d =
        if weight_at l r ≠ weight_at l c then
          [(weight_at l r, weight_at l c)]
        else [] := by
  cases hm : get_max_index (st.matrix.getD c ∅) with
  | none => exact absurd ((get_max_index_eq_none _).1 hm) hne
  | some r =>
    obtain ⟨hrc, -, hdim⟩ := hlow c r hm
    refine ⟨r, hrc, by omega, ?_⟩
    have hall : ∀ e ∈ diagram_of l (sort_pairs (emit_pairs st)) d,
        weight_at l r ≠ weight_at l c ∧
          e = (weight_at l r, weight_at l c) := by
      intro e he
      rw [mem_diagram_of] at he
      obtain ⟨p, hp, hd, hw, rfl⟩ := he
      have hp' := (mem_emit_pairs st p).1 ((mem_std_sort _ _ _).1 hp)
      obtain ⟨-, h2, h3⟩ := hlow p.2 p.1 hp'.2
      have hpc : p.2 = c := hlone p.2 h2 (by rw [h3, hd])
      have hpr : p.1 = r := by
        have := hp'.2
        rw [hpc, hm] at this
        exact (Option.some.inj this).symm
      rw [hpc, hpr] at hw
      rw [hpc, hpr]
      exact ⟨hw, rfl⟩
    by_cases hw : weight_at l r ≠ weight_at l c
    · rw [if_pos hw]
      have hlen1 : (diagram_of l (sort_pairs (emit_pairs st)) d).length = 1 := by
        rw [length_diagram_of]
        have : ((Finset.range st.matrix.length).filter fun c' =>
            ∃ r', get_max_index (st.matrix.getD c' ∅) = some r' ∧
              (dim_at l r' = d ∧
                weight_at l r' ≠ weight_at l c')) = {c} := by
          ext c'
          simp only [Finset.mem_filter, Finset.mem_range, Finset.mem_singleton]
          constructor
          · rintro ⟨-, r', hr', hd', -⟩
            obtain ⟨-, h2, h3⟩ := hlow c' r' hr'
            exact hlone c' h2 (by rw [h3, hd'])
          · rintro rfl
            exact ⟨by rw [hlen]; exact hc, r, hm, by omega, hw⟩
        rw [this, Finset.card_singleton]
      obtain ⟨e, he⟩ := List.length_eq_one.1 hlen1
      rw [he]
      have := (hall e (by rw [he]; exact List.mem_singleton_self e)).2
      rw [this]
    · rw [if_neg hw, List.eq_nil_iff_forall_not_mem]
      intro e he
      exact hw (hall e he).1

theorem well_formed_bool_iff (T : Alpha_shape_3) (o : Object) :
    o.well_formed_bool T = true ↔ o.well_formed T := by
  cases o <;>
    simp [Object.well_formed_bool, Object.well_formed, Option.isSome_iff_ne_none]

theorem build_succeeds_of_resolved (T : Alpha_shape_3)
    (hwf : ∀ t ∈ circumradii T, t.third.well_formed_bool T = true)
    (hres : ∀ t ∈ circumradii T, t.third.resolved T)
    (hweights : ∀ t ∈ circumradii T, ∀ u ∈ circumradii T,
      t.second + 1 = u.second → t.first < u.first) :
    ∃ s, build T = some s := by
  apply build_succeeds T (fun t ht => (well_formed_bool_iff T _).1 (hwf t ht))
  intro t ht σ hσ
  obtain ⟨u, hu, hw⟩ := hres t ht (some σ) hσ
  simp only [Option.map_some', Option.some.injEq] at hw
  refine ⟨u, hu, hw, ?_⟩
  rw [Sort_triples_iff]
  left
  apply hweights u hu t ht
  rw [circumradii_dim T u hu, circumradii_dim T t ht, ← writes_dim T _ σ hw,
    ← reads_dim T _ σ hσ]

theorem dim_at_mem (T : Alpha_shape_3) (j : ℕ) (hj : j < (filtration T).length) :
    ∃ t ∈ circumradii T, (filtration T)[j]? = some t ∧ dim_at (filtration T) j = t.second :=
  ⟨(filtration T)[j], (mem_filtration T _).1 (List.getElem_mem hj),
    List.getElem?_eq_getElem hj, by simp [dim_at, List.getElem?_eq_getElem hj]⟩

theorem dim_at_ne_two (T : Alpha_shape_3) (hF : T.finite_facets = []) (j : ℕ)
    (hj : j < (filtration T).length) : dim_at (filtration T) j ≠ 2 := by
  obtain ⟨t, ht, -, hd⟩ := dim_at_mem T j hj
  rw [hd]
  simp only [circumradii, hF, List.map_nil, List.append_nil, List.mem_append, List.mem_map] at ht
  rcases ht with (⟨v, -, rfl⟩ | ⟨e, -, rfl⟩) | ⟨c, -, rfl⟩ <;> simp

theorem dim_at_ne_three (T : Alpha_shape_3) (hC : T.finite_cells = []) (j : ℕ)
    (hj : j < (filtration T).length) : dim_at (filtration T) j ≠ 3 := by
  obtain ⟨t, ht, -, hd⟩ := dim_at_mem T j hj
  rw [hd]
  simp only [circumradii, hC, List.map_nil, List.append_nil, List.mem_append, List.mem_map] at ht
  rcases ht with (⟨v, -, rfl⟩ | ⟨e, -, rfl⟩) | ⟨c, -, rfl⟩ <;> simp

/-- C11: for every complex of two points of weight `p` and one edge joining
them of weight `w > p`, the function returns the dimension-0 diagram `[(p, w)]`
and empty diagrams of dimension 1 and 2. -/
theorem two_points_one_edge (T : Alpha_shape_3) (a b : Vertex_handle) (e : Edge) (p w : FT)
    (hV : T.finite_vertices = [a, b]) (hE : T.finite_edges = [e])
    (hF : T.finite_facets = []) (hC : T.finite_cells = [])
    (hends : ({e.v1 T, e.v2 T} : Finset Vertex_handle) = {a, b})
    (hwf : (Object.edge e).well_formed_bool T = true)
    (hpa : vertex_alpha T a = p) (hpb : vertex_alpha T b = p) (hw : edge_alpha T e = w)
    (hpw : p < w) :
    pdb2persistence T = some [[(p, w)], [], []] := by
  have hcirc : circumradii T =
      [⟨p, 0, Object.vertex a⟩, ⟨p, 0, Object.vertex b⟩, ⟨w, 1, Object.edge e⟩] := by
    simp [circumradii, hV, hE, hF, hC, hpa, hpb, hw]
  have hl : filtration T =
      [⟨p, 0, Object.vertex a⟩, ⟨p, 0, Object.vertex b⟩, ⟨w, 1, Object.edge e⟩] := by
    rw [filtration_of_sorted T, hcirc]
    rw [hcirc]
    simp [Sort_triples_false_iff, hpw]
  have hv1 : e.v1 T = a ∨ e.v1 T = b := by
    have : e.v1 T ∈ ({a, b} : Finset Vertex_handle) := hends ▸ Finset.mem_insert_self _ _
    simpa using this
  have hv2 : e.v2 T = a ∨ e.v2 T = b := by
    have : e.v2 T ∈ ({a, b} : Finset Vertex_handle) :=
      hends ▸ Finset.mem_insert_of_mem (Finset.mem_singleton_self _)
    simpa using this
  obtain ⟨s, hs⟩ := build_succeeds T
    (by
      intro t ht
      rw [hcirc] at ht
      simp only [List.mem_cons, List.mem_singleton, List.not_mem_nil, or_false] at ht
      rcases ht with rfl | rfl | rfl
      · exact ⟨by simp [Object.reads], by intro e' he'; cases he'⟩
      · exact ⟨by simp [Object.reads], by intro e' he'; cases he'⟩
      · exact (well_formed_bool_iff T _).1 hwf)
    (by
      intro t ht σ hσ
      rw [hcirc] at ht ⊢
      simp only [List.mem_cons, List.mem_singleton, List.not_mem_nil, or_false] at ht
      rcases ht with rfl | rfl | rfl
      · simp [Object.reads] at hσ
      · simp [Object.reads] at hσ
      · simp only [Object.reads, List.mem_cons, Option.some.injEq, List.mem_singleton,
          List.not_mem_nil, or_false] at hσ
        have hx : ∃ x, (x = a ∨ x = b) ∧ σ = Slot.v x := by
          rcases hσ with rfl | rfl
          · exact ⟨_, hv1, rfl⟩
          · exact ⟨_, hv2, rfl⟩
        obtain ⟨x, hx, rfl⟩ := hx
        refine ⟨⟨p, 0, Object.vertex x⟩, ?_, by simp [Object.writes], ?_⟩
        · rcases hx with rfl | rfl <;> simp
        · rw [Sort_triples_iff]
          exact Or.inl hpw)
  obtain ⟨st, -, hlen, hlow, hres, hempty⟩ := reduced_of_build T s hs
  have hdim0 : dim_at (filtration T) 0 = 0 := by rw [hl]; rfl
  have hdim1 : dim_at (filtration T) 1 = 0 := by rw [hl]; rfl
  have hdim2 : dim_at (filtration T) 2 = 1 := by rw [hl]; rfl
  have hn : (filtration T).length = 3 := by rw [hl]; rfl
  have hcases : ∀ j, j < (filtration T).length → j = 0 ∨ j = 1 ∨ j = 2 := by
    intro j hj
    omega
  have hne : st.matrix.getD 2 ∅ ≠ ∅ := by
    intro he
    refine lone_column_survives T s hs 2 (by omega) (by omega) ?_ ((hempty 2 (by omega)).1 he)
    intro j hj
    have : j = 0 ∨ j = 1 := by omega
    rcases this with rfl | rfl <;> omega
  obtain ⟨r, hr, -, hd0⟩ := diagram_lone (filtration T) st hlow hlen 0 2 (by omega) hdim2
    (by
      intro j hj hd
      rcases hcases j hj with rfl | rfl | rfl <;> omega)
    hne
  have hd1 := diagram_none (filtration T) st hlow 1
    (by
      intro j hj
      rcases hcases j hj with rfl | rfl | rfl <;> omega)
  have hd2 := diagram_none (filtration T) st hlow 2
    (by
      intro j hj
      rcases hcases j hj with rfl | rfl | rfl <;> omega)
  have hwr : weight_at (filtration T) r = p := by
    have : r = 0 ∨ r = 1 := by omega
    rcases this with rfl | rfl <;> rw [hl] <;> rfl
  have hw2 : weight_at (filtration T) 2 = w := by rw [hl]; rfl
  rw [hres, hd0, hd1, hd2, hwr, hw2, if_pos (ne_of_lt hpw)]

/-- C12: for every complex of three points of weight `p`, three edges between
them of weight `w > p` and one facet bounded by those edges of weight `w2 > w`,
the function returns the dimension-1 diagram `[(w, w2)]`; for the same complex
without the facet it returns an empty dimension-1 diagram. -/
theorem triangle_loop (T : Alpha_shape_3) (a b c : Vertex_handle) (e1 e2 e3 : Edge)
    (f : Facet) (p w w2 : FT)
    (hV : T.finite_vertices = [a, b, c]) (hE : T.finite_edges = [e1, e2, e3])
    (hF : T.finite_facets = [f]) (hC : T.finite_cells = [])
    (hwf : ∀ t ∈ circumradii T, t.third.well_formed_bool T = true)
    (hres : ∀ t ∈ circumradii T, t.third.resolved T)
    (hp : ∀ v ∈ T.finite_vertices, vertex_alpha T v = p)
    (hw : ∀ e ∈ T.finite_edges, edge_alpha T e = w)
    (hw2 : facet_alpha T f = w2) (hpw : p < w) (hww2 : w < w2) :
    (∃ d0, pdb2persistence T = some [d0, [(w, w2)], []]) ∧
    ∃ d0, pdb2persistence { T with finite_facets := [] } = some [d0, [], []] := by
  have hcirc : circumradii T =
      [⟨p, 0, Object.vertex a⟩, ⟨p, 0, Object.vertex b⟩, ⟨p, 0, Object.vertex c⟩,
        ⟨w, 1, Object.edge e1⟩, ⟨w, 1, Object.edge e2⟩, ⟨w, 1, Object.edge e3⟩,
        ⟨w2, 2, Object.facet f⟩] := by
    have ha := hp a (by simp [hV])
    have hb := hp b (by simp [hV])
    have hc := hp c (by simp [hV])
    have h1 := hw e1 (by simp [hE])
    have h2 := hw e2 (by simp [hE])
    have h3 := hw e3 (by simp [hE])
    simp [circumradii, hV, hE, hF, hC, ha, hb, hc, h1, h2, h3, hw2]
  have hpw2 : p < w2 := lt_trans hpw hww2
  constructor
  · have hl : filtration T =
        [⟨p, 0, Object.vertex a⟩, ⟨p, 0, Object.vertex b⟩, ⟨p, 0, Object.vertex c⟩,
          ⟨w, 1, Object.edge e1⟩, ⟨w, 1, Object.edge e2⟩, ⟨w, 1, Object.edge e3⟩,
          ⟨w2, 2, Object.facet f⟩] := by
      rw [filtration_of_sorted T, hcirc]
      rw [hcirc]
      simp [Sort_triples_false_iff, hpw, hww2, hpw2]
    obtain ⟨s, hs⟩ := build_succeeds_of_resolved T hwf hres
      (by
        intro t ht u hu hd
        rw [hcirc] at ht hu
        simp only [List.mem_cons, List.mem_singleton, List.not_mem_nil, or_false] at ht hu
        rcases ht with rfl | rfl | rfl | rfl | rfl | rfl | rfl <;>
          rcases hu with rfl | rfl | rfl | rfl | rfl | rfl | rfl <;>
          first
          | exact hpw
          | exact hww2
          | (simp at hd))
    obtain ⟨st, -, hlen, hlow, hres', hempty⟩ := reduced_of_build T s hs
    have hn : (filtration T).length = 7 := by rw [hl]; rfl
    have hdim : ∀ j, j < (filtration T).length →
        (j < 3 ∧ dim_at (filtration T) j = 0 ∧ weight_at (filtration T) j = p) ∨
        (3 ≤ j ∧ j < 6 ∧ dim_at (filtration T) j = 1 ∧ weight_at (filtration T) j = w) ∨
        (j = 6 ∧ dim_at (filtration T) j = 2 ∧ weight_at (filtration T) j = w2) := by
      intro j hj
      have : j = 0 ∨ j = 1 ∨ j = 2 ∨ j = 3 ∨ j = 4 ∨ j = 5 ∨ j = 6 := by omega
      rw [hl]
      rcases this with rfl | rfl | rfl | rfl | rfl | rfl | rfl
      · exact Or.inl ⟨by omega, rfl, rfl⟩
      · exact Or.inl ⟨by omega, rfl, rfl⟩
      · exact Or.inl ⟨by omega, rfl, rfl⟩
      · exact Or.inr (Or.inl ⟨by omega, by omega, rfl, rfl⟩)
      · exact Or.inr (Or.inl ⟨by omega, by omega, rfl, rfl⟩)
      · exact Or.inr (Or.inl ⟨by omega, by omega, rfl, rfl⟩)
      · exact Or.inr (Or.inr ⟨rfl, rfl, rfl⟩)
    have hd6 : dim_at (filtration T) 6 = 2 ∧ weight_at (filtration T) 6 = w2 := by
      rcases hdim 6 (by omega) with h | h | h
      · omega
      · omega
      · exact h.2
    have hne : st.matrix.getD 6 ∅ ≠ ∅ := by
      intro he
      refine lone_column_survives T s hs 6 (by omega) (by omega) ?_
        ((hempty 6 (by omega)).1 he)
      intro j hj
      rcases hdim j (by omega) with h | h | h <;> omega
    obtain ⟨r, hr, hdr, hd1⟩ := diagram_lone (filtration T) st hlow hlen 1 6 (by omega) hd6.1
      (by
        intro j hj hd
        rcases hdim j hj with h | h | h <;> omega)
      hne
    have hd2 := diagram_none (filtration T) st hlow 2
      (fun j hj => dim_at_ne_three T hC j hj)
    have hwr : weight_at (filtration T) r = w := by
      rcases hdim r (by omega) with h | h | h
      · omega
      · exact h.2.2.2
      · omega
    refine ⟨diagram_of (filtration T) (sort_pairs (emit_pairs st)) 0, ?_⟩
    rw [hres', hd1, hd2, hwr, hd6.2, if_pos (ne_of_lt hww2)]
  · have hcirc' : circumradii { T with finite_facets := [] } =
        [⟨p, 0, Object.vertex a⟩, ⟨p, 0, Object.vertex b⟩, ⟨p, 0, Object.vertex c⟩,
          ⟨w, 1, Object.edge e1⟩, ⟨w, 1, Object.edge e2⟩, ⟨w, 1, Object.edge e3⟩] := by
      have ha := hp a (by simp [hV])
      have hb := hp b (by simp [hV])
      have hc := hp c (by simp [hV])
      have h1 := hw e1 (by simp [hE])
      have h2 := hw e2 (by simp [hE])
      have h3 := hw e3 (by simp [hE])
      simp only [vertex_alpha, edge_alpha] at ha hb hc h1 h2 h3
      simp [circumradii, vertex_alpha, edge_alpha, hV, hE, hC, ha, hb, hc, h1, h2, h3]
    have hsub : ∀ t ∈ circumradii { T with finite_facets := [] }, t ∈ circumradii T := by
      intro t ht
      rw [hcirc'] at ht
      rw [hcirc]
      simp only [List.mem_cons, List.mem_singleton, List.not_mem_nil, or_false] at ht ⊢
      tauto
    obtain ⟨s, hs⟩ := build_succeeds_of_resolved { T with finite_facets := [] }
      (fun t ht => hwf t (hsub t ht))
      (by
        intro t ht σ hσ
        obtain ⟨u, hu, hwr⟩ := hres t (hsub t ht) σ hσ
        refine ⟨u, ?_, hwr⟩
        cases σ with
        | none => simp at hwr
        | some τ =>
          simp only [Option.map_some', Option.some.injEq] at hwr
          have hτ : τ.dim + 1 = t.third.dim := reads_dim _ _ τ hσ
          have hu2 : τ.dim = u.third.dim := writes_dim T _ τ hwr
          have ht2 := circumradii_dim _ t ht
          have hu3 := circumradii_dim T u hu
          rw [hcirc] at hu
          rw [hcirc'] at ht ⊢
          simp only [List.mem_cons, List.mem_singleton, List.not_mem_nil, or_false] at ht hu ⊢
          rcases ht with rfl | rfl | rfl | rfl | rfl | rfl <;>
            rcases hu with rfl | rfl | rfl | rfl | rfl | rfl | rfl <;>
            first
            | tauto
            | (simp only [Object.dim] at hτ hu2; omega))
      (by
        intro t ht u hu hd
        rw [hcirc'] at ht hu
        simp only [List.mem_cons, List.mem_singleton, List.not_mem_nil, or_false] at ht hu
        rcases ht with rfl | rfl | rfl | rfl | rfl | rfl <;>
          rcases hu with rfl | rfl | rfl | rfl | rfl | rfl <;>
          first
          | exact hpw
          | (simp at hd))
    obtain ⟨st, -, hlen, hlow, hres', -⟩ := reduced_of_build _ s hs
    have hd1 := diagram_none (filtration { T with finite_facets := [] }) st hlow 1
      (fun j hj => dim_at_ne_two { T with finite_facets := [] } rfl j hj)
    have hd2 := diagram_none (filtration { T with finite_facets := [] }) st hlow 2
      (fun j hj => dim_at_ne_three { T with finite_facets := [] } hC j hj)
    refine ⟨diagram_of (filtration { T with finite_facets := [] })
      (sort_pairs (emit_pairs st)) 0, ?_⟩
    rw [hres', hd1, hd2]

theorem nonzero_count_eq_finrank (T : Alpha_shape_3) (hv : Valid_complex T) (s : Loop_state)
    (h : build T = some s) (st : Reducer_state)
    (hst : twist_reduction s.boundary_matrix = some st) (P : Triple → Bool)
    (hpw : (filtration T).Pairwise (fun a b => P b = true → P a = true)) :
    ((Finset.range ((filtration T).countP P)).filter fun c => st.matrix.getD c ∅ ≠ ∅).card =
      Module.finrank (ZMod 2)
        (Submodule.span (ZMod 2) (face_vec T '' {t | t ∈ circumradii T ∧ P t = true})) := by
  have hnd := filtration_nodup T hv
  obtain ⟨-, hml, -, -, -, -, -, -⟩ := build_inv T s h
  have hut := (build_graded T s h).1
  have hDlen : (s.boundary_matrix.matrix.map List.toFinset).length = (filtration T).length := by
    rw [List.length_map, hml]
  obtain ⟨st', hst', hcount⟩ := reducer_count_eq_finrank (filtration T) hnd true
    (s.boundary_matrix.matrix.map List.toFinset) hDlen
    (upper_triangular_toFinset s.boundary_matrix hut) (fun _ => true) (fun _ _ _ _ _ => rfl)
    ((filtration T).countP P) (List.countP_le_length _)
  rw [twist_reduction_eq, hst'] at hst
  cases hst
  rw [restrict_to_true, Submodule.map_id] at hcount
  have hset : (fun c => vec (filtration T)
        ((s.boundary_matrix.matrix.map List.toFinset).getD c ∅)) ''
        {c | c < (filtration T).countP P} =
      face_vec T '' {t | t ∈ circumradii T ∧ P t = true} := by
    ext w
    constructor
    · rintro ⟨c, hc, rfl⟩
      simp only [Set.mem_setOf_eq] at hc
      have hcl : c < (filtration T).length := lt_of_lt_of_le hc (List.countP_le_length _)
      have hget : (filtration T)[c]? = some ((filtration T)[c]) := List.getElem?_eq_getElem hcl
      refine ⟨(filtration T)[c], ⟨(mem_filtration T _).1 (List.getElem_mem hcl), ?_⟩, ?_⟩
      · exact (lt_countP_iff P _ hpw c _ hget).2 hc
      · exact (vec_column_eq_face_vec T hv s h c _ hget).symm
    · rintro ⟨t, ⟨ht, hPt⟩, rfl⟩
      have htl : t ∈ filtration T := (mem_filtration T t).2 ht
      have hget := getElem?_indexOf htl
      refine ⟨(filtration T).indexOf t, ?_, vec_column_eq_face_vec T hv s h _ t hget⟩
      exact (lt_countP_iff P _ hpw _ t hget).1 hPt
  rw [← hset, ← hcount]
  congr 1
  apply Finset.filter_congr
  intro c _
  constructor
  · intro hne
    cases hm : get_max_index (st.matrix.getD c ∅) with
    | none => exact absurd ((get_max_index_eq_none _).1 hm) hne
    | some r => exact ⟨r, rfl, rfl⟩
  · rintro ⟨r, hr, -⟩ he
    rw [he] at hr
    simp [get_max_index] at hr

theorem weight_lt_of_dim_lt (T : Alpha_shape_3) (hE : T.finite_edges ≠ [])
    (hF : T.finite_facets ≠ [])
    (hweights : ∀ t ∈ circumradii T, ∀ u ∈ circumradii T,
      t.second + 1 = u.second → t.first < u.first)
    (t u : Triple) (ht : t ∈ circumradii T) (hu : u ∈ circumradii T)
    (hlt : t.second < u.second) : t.first < u.first := by
  obtain ⟨e, he⟩ := List.exists_mem_of_ne_nil _ hE
  obtain ⟨f, hf⟩ := List.exists_mem_of_ne_nil _ hF
  have hem : (⟨edge_alpha T e, 1, Object.edge e⟩ : Triple) ∈ circumradii T := by
    simp only [circumradii, List.mem_append, List.mem_map]
    exact Or.inl (Or.inl (Or.inr ⟨e, he, rfl⟩))
  have hfm : (⟨facet_alpha T f, 2, Object.facet f⟩ : Triple) ∈ circumradii T := by
    simp only [circumradii, List.mem_append, List.mem_map]
    exact Or.inl (Or.inr ⟨f, hf, rfl⟩)
  have hu3 : u.second ≤ 3 := by
    rw [circumradii_dim T u hu]
    exact object_dim_le _
  have hef := hweights _ hem _ hfm rfl
  by_cases h1 : t.second + 1 = u.second
  · exact hweights t ht u hu h1
  · by_cases h0 : t.second = 0
    · have hte := hweights t ht _ hem (by simp [h0])
      by_cases h2 : u.second = 2
      · exact lt_trans hte (hweights _ hem u hu (by simp [h2]))
      · have h3 : u.second = 3 := by omega
        exact lt_trans hte (lt_trans hef (hweights _ hfm u hu (by simp [h3])))
    · have ht1 : t.second = 1 := by omega
      have h3 : u.second = 3 := by omega
      exact lt_trans (hweights t ht _ hfm (by simp [ht1])) (hweights _ hfm u hu (by simp [h3]))

theorem dims_sorted (T : Alpha_shape_3)
    (hmono : ∀ t ∈ circumradii T, ∀ u ∈ circumradii T, t.second < u.second → t.first < u.first) :
    (filtration T).Pairwise (fun a b => a.second ≤ b.second) := by
  refine (List.Pairwise.and_mem.1 (filtration_sorted (circumradii T))).imp ?_
  rintro a b ⟨ha, hb, hab⟩
  by_contra hcon
  have hlt := hmono b ((mem_filtration T b).1 hb) a ((mem_filtration T a).1 ha) (not_le.mp hcon)
  rw [Sort_triples_false_iff] at hab
  rcases hab with h | ⟨h, -⟩
  · exact lt_asymm h hlt
  · rw [h] at hlt
    exact lt_irrefl _ hlt

theorem dim_le_downward (T : Alpha_shape_3)
    (hsorted : (filtration T).Pairwise (fun a b => a.second ≤ b.second)) (k : ℕ) :
    (filtration T).Pairwise (fun a b => dim_le k b = true → dim_le k a = true) := by
  refine hsorted.imp ?_
  intro a b hab hb
  simp only [dim_le, decide_eq_true_eq] at hb ⊢
  omega

theorem dim_at_lt_countP (T : Alpha_shape_3)
    (hsorted : (filtration T).Pairwise (fun a b => a.second ≤ b.second)) (k c : ℕ)
    (hc : c < (filtration T).length) :
    dim_at (filtration T) c ≤ k ↔ c < (filtration T).countP (dim_le k) := by
  have hget : (filtration T)[c]? = some ((filtration T)[c]) := List.getElem?_eq_getElem hc
  rw [← lt_countP_iff (dim_le k) _ (dim_le_downward T hsorted k) c _ hget]
  simp [dim_le, dim_at, hget]

theorem countP_dim_le (T : Alpha_shape_3) :
    (filtration T).countP (dim_le 0) = T.finite_vertices.length ∧
    (filtration T).countP (dim_le 1) = T.finite_vertices.length + T.finite_edges.length ∧
    (filtration T).countP (dim_le 2) =
      T.finite_vertices.length + T.finite_edges.length + T.finite_facets.length ∧
    (filtration T).length =
      T.finite_vertices.length + T.finite_edges.length + T.finite_facets.length +
        T.finite_cells.length := by
  have hperm : (filtration T).Perm (circumradii T) := std_sort_perm _ _
  refine ⟨?_, ?_, ?_, ?_⟩
  · rw [hperm.countP_eq]
    simp [circumradii, List.countP_append, List.countP_map, dim_le, Function.comp_def]
  · rw [hperm.countP_eq]
    simp [circumradii, List.countP_append, List.countP_map, dim_le, Function.comp_def]
  · rw [hperm.countP_eq]
    simp [circumradii, List.countP_append, List.countP_map, dim_le, Function.comp_def,
      Nat.add_assoc]
  · rw [hperm.length_eq]
    simp [circumradii, Nat.add_assoc]

theorem diagram_length_step (T : Alpha_shape_3) (st : Reducer_state)
    (hsorted : (filtration T).Pairwise (fun a b => a.second ≤ b.second))
    (hmono : ∀ t ∈ circumradii T, ∀ u ∈ circumradii T, t.second < u.second → t.first < u.first)
    (hlow : ∀ c r, get_max_index (st.matrix.getD c ∅) = some r →
      r < c ∧ c < (filtration T).length ∧
        dim_at (filtration T) c = dim_at (filtration T) r + 1)
    (hlen : st.matrix.length = (filtration T).length) (d : ℕ) :
    ((Finset.range ((filtration T).countP (dim_le d))).filter fun c =>
        st.matrix.getD c ∅ ≠ ∅).card +
      (diagram_of (filtration T) (sort_pairs (emit_pairs st)) d).length =
    ((Finset.range ((filtration T).countP (dim_le (d + 1)))).filter fun c =>
        st.matrix.getD c ∅ ≠ ∅).card := by
  rw [length_diagram_of, ← Finset.card_union_of_disjoint]
  · congr 1
    ext c
    simp only [Finset.mem_union, Finset.mem_filter, Finset.mem_range]
    constructor
    · rintro (⟨hc, hne⟩ | ⟨hc, r, hr, hd, -⟩)
      · have hcl : c < (filtration T).length := lt_of_lt_of_le hc (List.countP_le_length _)
        refine ⟨?_, hne⟩
        rw [← dim_at_lt_countP T hsorted _ c hcl]
        have := (dim_at_lt_countP T hsorted d c hcl).2 hc
        omega
      · obtain ⟨-, hcl, hdim⟩ := hlow c r hr
        refine ⟨?_, ?_⟩
        · rw [← dim_at_lt_countP T hsorted _ c hcl]
          omega
        · intro he
          rw [he] at hr
          simp [get_max_index] at hr
    · rintro ⟨hc, hne⟩
      have hcl : c < (filtration T).length := lt_of_lt_of_le hc (List.countP_le_length _)
      by_cases hcd : c < (filtration T).countP (dim_le d)
      · exact Or.inl ⟨hcd, hne⟩
      · right
        refine ⟨by rw [hlen]; exact hcl, ?_⟩
        cases hm : get_max_index (st.matrix.getD c ∅) with
        | none => exact absurd ((get_max_index_eq_none _).1 hm) hne
        | some r =>
          obtain ⟨hrc, -, hdim⟩ := hlow c r hm
          have h1 := (dim_at_lt_countP T hsorted (d + 1) c hcl).2 hc
          have h2 : ¬ dim_at (filtration T) c ≤ d :=
            fun h => hcd ((dim_at_lt_countP T hsorted d c hcl).1 h)
          refine ⟨r, rfl, by omega, ?_⟩
          obtain ⟨tr, htr, hgr, hdr⟩ := dim_at_mem T r (by omega)
          obtain ⟨tc, htc, hgc, hdc⟩ := dim_at_mem T c hcl
          have := hmono tr htr tc htc (by omega)
          simp only [weight_at, hgr, hgc, Option.map_some', Option.getD_some]
          exact ne_of_lt this
  · rw [Finset.disjoint_left]
    intro c hc1 hc2
    simp only [Finset.mem_filter, Finset.mem_range] at hc1 hc2
    obtain ⟨hc, -⟩ := hc1
    obtain ⟨-, r, hr, hd, -⟩ := hc2
    obtain ⟨-, hcl, hdim⟩ := hlow c r hr
    have := (dim_at_lt_countP T hsorted d c hcl).2 hc
    omega

theorem face_vec_vertex (T : Alpha_shape_3) (x : FT) (k : ℕ) (v : Vertex_handle) :
    face_vec T ⟨x, k, Object.vertex v⟩ = 0 := by
  funext t
  simp [face_vec, is_face, Object.reads]

theorem mem_circumradii_vertex (T : Alpha_shape_3) (t : Triple) (v : Vertex_handle)
    (ht : t ∈ circumradii T) (h : t.third = Object.vertex v) :
    t = vertex_entry T v ∧ v ∈ T.finite_vertices := by
  simp only [circumradii, List.mem_append, List.mem_map] at ht
  rcases ht with ((⟨v', hv', rfl⟩ | ⟨e, -, rfl⟩) | ⟨f, -, rfl⟩) | ⟨c, -, rfl⟩
  · simp only [Object.vertex.injEq] at h
    subst h
    exact ⟨rfl, hv'⟩
  · cases h
  · cases h
  · cases h

theorem vertex_entry_mem (T : Alpha_shape_3) (v : Vertex_handle) (hv : v ∈ T.finite_vertices) :
    vertex_entry T v ∈ circumradii T := by
  simp only [circumradii, List.mem_append, List.mem_map]
  exact Or.inl (Or.inl (Or.inl ⟨v, hv, rfl⟩))

theorem vertex_entry_inj (T : Alpha_shape_3) (v v' : Vertex_handle)
    (h : vertex_entry T v = vertex_entry T v') : v = v' := by
  simp only [vertex_entry, Triple.mk.injEq, Object.vertex.injEq] at h
  exact h.2.2

theorem pair_eq_pair {x y x1 x2 : ℕ}
    (h : ({x, y} : Finset ℕ) = {x1, x2}) :
    (x = x1 ∧ y = x2) ∨ (x = x2 ∧ y = x1) := by
  have hx : x ∈ ({x1, x2} : Finset ℕ) := h ▸ Finset.mem_insert_self _ _
  have hy : y ∈ ({x1, x2} : Finset ℕ) :=
    h ▸ Finset.mem_insert_of_mem (Finset.mem_singleton_self _)
  have h1 : x1 ∈ ({x, y} : Finset ℕ) := h.symm ▸ Finset.mem_insert_self _ _
  have h2 : x2 ∈ ({x, y} : Finset ℕ) :=
    h.symm ▸ Finset.mem_insert_of_mem (Finset.mem_singleton_self _)
  simp only [Finset.mem_insert, Finset.mem_singleton] at hx hy h1 h2
  omega

theorem face_vec_edge (T : Alpha_shape_3) (e : Edge) (x : FT) (k : ℕ)
    (x1 x2 : Vertex_handle) (hx1 : x1 ∈ T.finite_vertices) (hx2 : x2 ∈ T.finite_vertices)
    (hne : x1 ≠ x2)
    (h : ({e.v1 T, e.v2 T} : Finset Vertex_handle) = {x1, x2}) :
    face_vec T ⟨x, k, Object.edge e⟩ =
      Pi.single (vertex_entry T x1) 1 + Pi.single (vertex_entry T x2) 1 := by
  have hface : ∀ t, (t ∈ circumradii T ∧ is_face T t ⟨x, k, Object.edge e⟩ = true) ↔
      (t = vertex_entry T x1 ∨ t = vertex_entry T x2) := by
    intro t
    have hit : is_face T t ⟨x, k, Object.edge e⟩ = true ↔
        (t.third = Object.vertex x1 ∨ t.third = Object.vertex x2) := by
      rw [is_face_iff]
      simp only [Object.reads, List.mem_cons, Option.some.injEq, List.mem_singleton,
        List.not_mem_nil, or_false]
      constructor
      · rintro ⟨σ, hσ, hw⟩
        have hσ' : σ = Slot.v x1 ∨ σ = Slot.v x2 := by
          rcases pair_eq_pair h with ⟨h1, h2⟩ | ⟨h1, h2⟩
          · rcases hσ with rfl | rfl
            · exact Or.inl (by rw [h1])
            · exact Or.inr (by rw [h2])
          · rcases hσ with rfl | rfl
            · exact Or.inr (by rw [h1])
            · exact Or.inl (by rw [h2])
        rcases hσ' with rfl | rfl
        · left
          cases ht : t.third <;> simp [ht, Object.writes] at hw ⊢
          exact hw.symm
        · right
          cases ht : t.third <;> simp [ht, Object.writes] at hw ⊢
          exact hw.symm
      · rintro (ht | ht)
        · refine ⟨Slot.v x1, ?_, by simp [ht, Object.writes]⟩
          rcases pair_eq_pair h with ⟨h1, h2⟩ | ⟨h1, h2⟩
          · exact Or.inl (by rw [h1])
          · exact Or.inr (by rw [h2])
        · refine ⟨Slot.v x2, ?_, by simp [ht, Object.writes]⟩
          rcases pair_eq_pair h with ⟨h1, h2⟩ | ⟨h1, h2⟩
          · exact Or.inr (by rw [h2])
          · exact Or.inl (by rw [h1])
    rw [hit]
    constructor
    · rintro ⟨ht, h1 | h1⟩
      · exact Or.inl (mem_circumradii_vertex T t x1 ht h1).1
      · exact Or.inr (mem_circumradii_vertex T t x2 ht h1).1
    · rintro (rfl | rfl)
      · exact ⟨vertex_entry_mem T x1 hx1, Or.inl rfl⟩
      · exact ⟨vertex_entry_mem T x2 hx2, Or.inr rfl⟩
  funext t
  simp only [face_vec, hface, Pi.add_apply, Pi.single_apply]
  by_cases h1 : t = vertex_entry T x1
  · have h2 : t ≠ vertex_entry T x2 := by
      rintro h2
      exact hne (vertex_entry_inj T _ _ (h1.symm.trans h2))
    simp [h1, h2]
    intro h3
    exact absurd (vertex_entry_inj T _ _ h3) hne
  · by_cases h2 : t = vertex_entry T x2
    · simp [h1, h2]
      intro h3
      exact absurd (vertex_entry_inj T _ _ h3).symm hne
    · simp [h1, h2]

theorem edge_entry_mem (T : Alpha_shape_3) (e : Edge) (he : e ∈ T.finite_edges) :
    (⟨edge_alpha T e, 1, Object.edge e⟩ : Triple) ∈ circumradii T := by
  simp only [circumradii, List.mem_append, List.mem_map]
  exact Or.inl (Or.inl (Or.inr ⟨e, he, rfl⟩))

theorem zmod2_add_add (x y z : ZMod 2) : y + z = (x + y) + (x + z) := by
  revert x y z
  decide

theorem finrank_edges (T : Alpha_shape_3) (a b c d : Vertex_handle)
    (hnd : [a, b, c, d].Nodup) (hV : T.finite_vertices = [a, b, c, d])
    (hE : (T.finite_edges.map fun e => ({e.v1 T, e.v2 T} : Finset Vertex_handle)).Perm
      [{a, b}, {a, c}, {a, d}, {b, c}, {b, d}, {c, d}]) :
    Module.finrank (ZMod 2)
        (Submodule.span (ZMod 2)
          (face_vec T '' {t | t ∈ circumradii T ∧ dim_le 1 t = true})) = 3 := by
  simp only [List.nodup_cons, List.mem_cons, List.mem_singleton, List.not_mem_nil, or_false,
    not_or, List.nodup_nil, and_true] at hnd
  obtain ⟨⟨hab, hac, had⟩, ⟨hbc, hbd⟩, hcd, -⟩ := hnd
  have ha : a ∈ T.finite_vertices := by simp [hV]
  have hb : b ∈ T.finite_vertices := by simp [hV]
  have hc : c ∈ T.finite_vertices := by simp [hV]
  have hd : d ∈ T.finite_vertices := by simp [hV]
  set δ : Vertex_handle → Triple → ZMod 2 :=
    fun v => Pi.single (vertex_entry T v) (1 : ZMod 2) with hδ
  have hδself : ∀ v, δ v (vertex_entry T v) = 1 := by
    intro v
    simp [hδ]
  have hδne : ∀ v v', v ≠ v' → δ v (vertex_entry T v') = 0 := by
    intro v v' hne
    simp only [hδ, Pi.single_apply]
    rw [if_neg]
    intro h
    exact hne (vertex_entry_inj T _ _ h).symm
  set u : ℕ → Triple → ZMod 2 := fun i =>
    if i = 0 then δ a + δ b else if i = 1 then δ a + δ c else δ a + δ d with hu
  set p : ℕ → Triple := fun i =>
    if i = 0 then vertex_entry T b else if i = 1 then vertex_entry T c else vertex_entry T d
    with hp
  have hLI : LinearIndependent (ZMod 2) (fun i : ({0, 1, 2} : Finset ℕ) => u i.1) := by
    refine linearIndependent_of_heights {0, 1, 2} u id p ?_ ?_ ?_
    · intro i _ j _ h
      exact h
    · intro i hi
      simp only [Finset.mem_insert, Finset.mem_singleton] at hi
      rcases hi with rfl | rfl | rfl
      · simp [hu, hp, hδself, hδne a b hab]
      · simp [hu, hp, hδself, hδne a c hac]
      · simp [hu, hp, hδself, hδne a d had]
    · intro i hi j hj hlt
      simp only [Finset.mem_insert, Finset.mem_singleton] at hi hj
      simp only [id] at hlt
      rcases hi with rfl | rfl | rfl <;> rcases hj with rfl | rfl | rfl <;>
        first
        | omega
        | simp [hu, hp, hδne a c hac, hδne b c hbc, hδne a d had, hδne b d hbd, hδne c d hcd]
  have hcard := finrank_span_eq_card hLI
  rw [Fintype.card_coe] at hcard
  have hEq : Submodule.span (ZMod 2)
      (face_vec T '' {t | t ∈ circumradii T ∧ dim_le 1 t = true}) =
      Submodule.span (ZMod 2) (Set.range fun i : ({0, 1, 2} : Finset ℕ) => u i.1) := by
    have h0 : δ a + δ b ∈ Submodule.span (ZMod 2)
        (Set.range fun i : ({0, 1, 2} : Finset ℕ) => u i.1) :=
      Submodule.subset_span ⟨⟨0, by simp⟩, by simp [hu]⟩
    have h1 : δ a + δ c ∈ Submodule.span (ZMod 2)
        (Set.range fun i : ({0, 1, 2} : Finset ℕ) => u i.1) :=
      Submodule.subset_span ⟨⟨1, by simp⟩, by simp [hu]⟩
    have h2 : δ a + δ d ∈ Submodule.span (ZMod 2)
        (Set.range fun i : ({0, 1, 2} : Finset ℕ) => u i.1) :=
      Submodule.subset_span ⟨⟨2, by simp⟩, by simp [hu]⟩
    have hsum : ∀ x y z : Vertex_handle, δ y + δ z = (δ x + δ y) + (δ x + δ z) := by
      intro x y z
      funext t
      exact zmod2_add_add _ _ _
    apply le_antisymm
    · rw [Submodule.span_le]
      rintro _ ⟨t, ⟨ht, hdim⟩, rfl⟩
      simp only [dim_le, decide_eq_true_eq] at hdim
      simp only [circumradii, List.mem_append, List.mem_map] at ht
      rcases ht with ((⟨v, -, rfl⟩ | ⟨e, he, rfl⟩) | ⟨f, -, rfl⟩) | ⟨c', -, rfl⟩
      · rw [face_vec_vertex]
        exact Submodule.zero_mem _
      · have hmem : ({e.v1 T, e.v2 T} : Finset Vertex_handle) ∈
            [({a, b} : Finset Vertex_handle), {a, c}, {a, d}, {b, c}, {b, d}, {c, d}] :=
          hE.mem_iff.1 (List.mem_map.2 ⟨e, he, rfl⟩)
        simp only [List.mem_cons, List.mem_singleton, List.not_mem_nil, or_false] at hmem
        rcases hmem with h | h | h | h | h | h
        · rw [face_vec_edge T e _ _ a b ha hb hab h]
          exact h0
        · rw [face_vec_edge T e _ _ a c ha hc hac h]
          exact h1
        · rw [face_vec_edge T e _ _ a d ha hd had h]
          exact h2
        · rw [face_vec_edge T e _ _ b c hb hc hbc h]
          show δ b + δ c ∈ _
          rw [hsum a b c]
          exact Submodule.add_mem _ h0 h1
        · rw [face_vec_edge T e _ _ b d hb hd hbd h]
          show δ b + δ d ∈ _
          rw [hsum a b d]
          exact Submodule.add_mem _ h0 h2
        · rw [face_vec_edge T e _ _ c d hc hd hcd h]
          show δ c + δ d ∈ _
          rw [hsum a c d]
          exact Submodule.add_mem _ h1 h2
      · simp at hdim
      · simp at hdim
    · rw [Submodule.span_le]
      rintro _ ⟨⟨i, hi⟩, rfl⟩
      simp only [Finset.mem_insert, Finset.mem_singleton] at hi
      have hex : ∀ x y : Vertex_handle, x ∈ T.finite_vertices → y ∈ T.finite_vertices →
          x ≠ y → ({x, y} : Finset Vertex_handle) ∈
            [({a, b} : Finset Vertex_handle), {a, c}, {a, d}, {b, c}, {b, d}, {c, d}] →
          δ x + δ y ∈ Submodule.span (ZMod 2)
            (face_vec T '' {t | t ∈ circumradii T ∧ dim_le 1 t = true}) := by
        intro x y hx hy hxy hmem
        obtain ⟨e, he, hee⟩ := List.mem_map.1 (hE.mem_iff.2 hmem)
        refine Submodule.subset_span ⟨⟨edge_alpha T e, 1, Object.edge e⟩,
          ⟨edge_entry_mem T e he, by simp [dim_le]⟩, ?_⟩
        exact face_vec_edge T e _ _ x y hx hy hxy hee
      rcases hi with rfl | rfl | rfl
      · simpa [hu] using hex a b ha hb hab (by simp)
      · simpa [hu] using hex a c ha hc hac (by simp)
      · simpa [hu] using hex a d ha hd had (by simp)
  rw [hEq, hcard]
  rfl

theorem cell_entry_mem (T : Alpha_shape_3) (c : Cell_handle) (hc : c ∈ T.finite_cells) :
    (⟨T.get_alpha c, 3, Object.cell c⟩ : Triple) ∈ circumradii T := by
  simp only [circumradii, List.mem_append, List.mem_map]
  exact Or.inr ⟨c, hc, rfl⟩

theorem countP_dim_two (T : Alpha_shape_3) :
    (circumradii T).countP (fun t => decide (t.second = 2)) = T.finite_facets.length := by
  simp [circumradii, List.countP_append, List.countP_map, Function.comp_def]

theorem span_generators_finite (T : Alpha_shape_3) (k : ℕ) :
    (face_vec T '' {t | t ∈ circumradii T ∧ dim_le k t = true}).Finite := by
  apply Set.Finite.image
  apply Set.Finite.subset (List.finite_toSet (circumradii T))
  intro t ht
  exact ht.1

theorem finrank_facets (T : Alpha_shape_3) (hv : Valid_complex T)
    (hF : T.finite_facets.length = 4) (c0 : Cell_handle) (hC : c0 ∈ T.finite_cells)
    (hres : (Object.cell c0).resolved T) (hdd : Boundary_squared_zero T) :
    Module.finrank (ZMod 2)
        (Submodule.span (ZMod 2)
          (face_vec T '' {t | t ∈ circumradii T ∧ dim_le 2 t = true})) ≤
      Module.finrank (ZMod 2)
        (Submodule.span (ZMod 2)
          (face_vec T '' {t | t ∈ circumradii T ∧ dim_le 1 t = true})) + 3 := by
  classical
  have hnd : (circumradii T).Nodup := hv.1
  set tc : Triple := ⟨T.get_alpha c0, 3, Object.cell c0⟩ with htc
  have htcm : tc ∈ circumradii T := cell_entry_mem T c0 hC
  set Fc : Finset Triple := (circumradii T).toFinset.filter (fun m => is_face T m tc = true)
    with hFc
  have hsum0 : ∑ m in Fc, face_vec T m = 0 := by
    funext u
    rw [Finset.sum_apply]
    simp only [face_vec, Pi.zero_apply]
    by_cases hu : u ∈ circumradii T
    · simp only [hu, true_and]
      rw [Finset.sum_boole]
      have hset : Fc.filter (fun m => is_face T u m = true) =
          ((circumradii T).filter fun m => is_face T u m && is_face T m tc).toFinset := by
        ext m
        simp only [hFc, Finset.mem_filter, List.mem_toFinset, List.mem_filter,
          Bool.and_eq_true]
        tauto
      rw [hset, List.toFinset_card_of_nodup (hnd.filter _)]
      have h2 := hdd tc htcm u hu
      rw [← Nat.mod_add_div ((circumradii T).filter
        fun m => is_face T u m && is_face T m tc).length 2, h2]
      push_cast
      have : (2 : ZMod 2) = 0 := by decide
      rw [this]
      simp
    · simp [hu]
  have hdim2 : ∀ m ∈ Fc, m ∈ circumradii T ∧ m.second = 2 := by
    intro m hm
    simp only [hFc, Finset.mem_filter, List.mem_toFinset] at hm
    obtain ⟨hmc, hf⟩ := hm
    refine ⟨hmc, ?_⟩
    obtain ⟨σ, hσ, hw⟩ := (is_face_iff T m tc).1 hf
    have h1 := reads_dim T _ σ hσ
    have h2 := writes_dim T _ σ hw
    rw [circumradii_dim T m hmc, ← h2]
    simp only [htc, Object.dim] at h1
    omega
  have hne : Fc.Nonempty := by
    obtain ⟨u, hu, hw⟩ := hres (some (Slot.f c0 0)) (by simp [Object.reads])
    simp only [Option.map_some', Option.some.injEq] at hw
    refine ⟨u, ?_⟩
    simp only [hFc, Finset.mem_filter, List.mem_toFinset]
    exact ⟨hu, (is_face_iff T u tc).2 ⟨Slot.f c0 0, by simp [htc, Object.reads], hw⟩⟩
  obtain ⟨m0, hm0⟩ := hne
  set Ffin : Finset Triple := (circumradii T).toFinset.filter (fun t => t.second = 2) with hFfin
  have hFcsub : Fc ⊆ Ffin := by
    intro m hm
    obtain ⟨h1, h2⟩ := hdim2 m hm
    simp only [hFfin, Finset.mem_filter, List.mem_toFinset]
    exact ⟨h1, h2⟩
  have hcard : Ffin.card = 4 := by
    have : Ffin = ((circumradii T).filter fun t => decide (t.second = 2)).toFinset := by
      ext m
      simp [hFfin, List.mem_filter]
    rw [this, List.toFinset_card_of_nodup (hnd.filter _), ← List.countP_eq_length_filter,
      countP_dim_two, hF]
  have hm0' : face_vec T m0 = ∑ m in Fc.erase m0, face_vec T m := by
    rw [← Finset.add_sum_erase _ _ hm0] at hsum0
    funext u
    have h1 := congrFun hsum0 u
    simp only [Pi.add_apply, Pi.zero_apply] at h1
    have h3 := eq_neg_of_add_eq_zero_left h1
    rw [CharTwo.neg_eq] at h3
    exact h3
  set B : Submodule (ZMod 2) (Triple → ZMod 2) :=
    Submodule.span (ZMod 2) (↑((Ffin.erase m0).image (face_vec T)) : Set (Triple → ZMod 2))
    with hB
  have hBle : Module.finrank (ZMod 2) B ≤ 3 := by
    have h1 := finrank_span_finset_le_card ((Ffin.erase m0).image (face_vec T)) (R := ZMod 2)
    have h2 : ((Ffin.erase m0).image (face_vec T)).card ≤ 3 := by
      refine le_trans Finset.card_image_le ?_
      rw [Finset.card_erase_of_mem (hFcsub hm0), hcard]
    exact le_trans h1 h2
  haveI : FiniteDimensional (ZMod 2)
      (Submodule.span (ZMod 2)
        (face_vec T '' {t | t ∈ circumradii T ∧ dim_le 1 t = true})) :=
    FiniteDimensional.span_of_finite _ (span_generators_finite T 1)
  haveI : FiniteDimensional (ZMod 2) B := FiniteDimensional.span_finset _ _
  have hle : Submodule.span (ZMod 2)
      (face_vec T '' {t | t ∈ circumradii T ∧ dim_le 2 t = true}) ≤
      Submodule.span (ZMod 2)
        (face_vec T '' {t | t ∈ circumradii T ∧ dim_le 1 t = true}) ⊔ B := by
    rw [Submodule.span_le]
    rintro _ ⟨t, ⟨ht, hdim⟩, rfl⟩
    simp only [dim_le, decide_eq_true_eq] at hdim
    by_cases h1 : t.second ≤ 1
    · apply Submodule.mem_sup_left
      exact Submodule.subset_span ⟨t, ⟨ht, by simp [dim_le, h1]⟩, rfl⟩
    · apply Submodule.mem_sup_right
      have ht2 : t ∈ Ffin := by
        simp only [hFfin, Finset.mem_filter, List.mem_toFinset]
        exact ⟨ht, by omega⟩
      have hgen : ∀ m ∈ Ffin.erase m0, face_vec T m ∈ B := by
        intro m hm
        apply Submodule.subset_span
        rw [Finset.coe_image]
        exact ⟨m, hm, rfl⟩
      by_cases htm : t = m0
      · rw [htm, hm0']
        apply Submodule.sum_mem
        intro m hm
        apply hgen
        rw [Finset.mem_erase] at hm ⊢
        exact ⟨hm.1, hFcsub hm.2⟩
      · exact hgen t (Finset.mem_erase.2 ⟨htm, ht2⟩)
  calc Module.finrank (ZMod 2)
        (Submodule.span (ZMod 2)
          (face_vec T '' {t | t ∈ circumradii T ∧ dim_le 2 t = true}))
      ≤ Module.finrank (ZMod 2)
        (↥(Submodule.span (ZMod 2)
          (face_vec T '' {t | t ∈ circumradii T ∧ dim_le 1 t = true}) ⊔ B)) :=
        Submodule.finrank_mono hle
    _ ≤ Module.finrank (ZMod 2)
        (Submodule.span (ZMod 2)
          (face_vec T '' {t | t ∈ circumradii T ∧ dim_le 1 t = true})) +
          Module.finrank (ZMod 2) B := Submodule.finrank_add_le_finrank_add_finrank _ _
    _ ≤ _ := Nat.add_le_add_left hBle _

/-- C13: for every filled tetrahedron (four points, the six edges between
them, four facets and one 3-cell, with resolved faces and a boundary relation
whose square vanishes) in which every cell weighs strictly less than every cell
one dimension higher, the function returns three diagrams: the dimension-0
diagram has exactly 3 entries, the dimension-1 diagram at most 3, the
dimension-2 diagram at most 1, and every entry has its birth below its death. -/
theorem filled_tetrahedron (T : Alpha_shape_3) (a b c d : Vertex_handle) (c0 : Cell_handle)
    (hvalid : Valid_complex T)
    (hV : T.finite_vertices = [a, b, c, d])
    (hE : (T.finite_edges.map fun e => ({e.v1 T, e.v2 T} : Finset Vertex_handle)).Perm
      [{a, b}, {a, c}, {a, d}, {b, c}, {b, d}, {c, d}])
    (hF : T.finite_facets.length = 4) (hC : T.finite_cells = [c0])
    (hwf : ∀ t ∈ circumradii T, t.third.well_formed_bool T = true)
    (hres : ∀ t ∈ circumradii T, t.third.resolved T)
    (hdd : Boundary_squared_zero T)
    (hweights : ∀ t ∈ circumradii T, ∀ u ∈ circumradii T,
      t.second + 1 = u.second → t.first < u.first) :
    ∃ d0 d1 d2, pdb2persistence T = some [d0, d1, d2] ∧
      d0.length = 3 ∧ d1.length ≤ 3 ∧ d2.length ≤ 1 ∧
      ∀ diagram ∈ [d0, d1, d2], ∀ e ∈ diagram, e.1 < e.2 := by
  have hElen : T.finite_edges.length = 6 := by
    have := hE.length_eq
    simpa using this
  have hEne : T.finite_edges ≠ [] := by
    intro h
    rw [h] at hElen
    simp at hElen
  have hFne : T.finite_facets ≠ [] := by
    intro h
    rw [h] at hF
    simp at hF
  have hnd : [a, b, c, d].Nodup := by
    have h1 : (circumradii T).Nodup := hvalid.1
    simp only [circumradii, List.append_assoc] at h1
    have h2 := (List.nodup_append.1 h1).1
    rw [← hV]
    exact List.Nodup.of_map _ h2
  have hmono : ∀ t ∈ circumradii T, ∀ u ∈ circumradii T,
      t.second < u.second → t.first < u.first :=
    fun t ht u hu => weight_lt_of_dim_lt T hEne hFne hweights t u ht hu
  have hsorted := dims_sorted T hmono
  obtain ⟨s, hs⟩ := build_succeeds_of_resolved T hwf hres hweights
  obtain ⟨st, hst, hlen, hlow, hres', -⟩ := reduced_of_build T s hs
  obtain ⟨hN0, hN1, hN2, hn⟩ := countP_dim_le T
  rw [hV, hElen, hF, hC] at hn
  rw [hV, hElen, hF] at hN2
  rw [hV, hElen] at hN1
  rw [hV] at hN0
  simp only [List.length_cons, List.length_nil] at hn hN0 hN1 hN2
  have hρ1 := nonzero_count_eq_finrank T hvalid s hs st hst (dim_le 1)
    (dim_le_downward T hsorted 1)
  rw [finrank_edges T a b c d hnd hV hE] at hρ1
  have hρ2 := nonzero_count_eq_finrank T hvalid s hs st hst (dim_le 2)
    (dim_le_downward T hsorted 2)
  have hfac := finrank_facets T hvalid hF c0 (by simp [hC])
    (hres _ (cell_entry_mem T c0 (by simp [hC]))) hdd
  rw [← hρ2, finrank_edges T a b c d hnd hV hE] at hfac
  have hρ0 : ((Finset.range ((filtration T).countP (dim_le 0))).filter fun c =>
      st.matrix.getD c ∅ ≠ ∅).card = 0 := by
    rw [Finset.card_eq_zero, Finset.filter_eq_empty_iff]
    intro j hj hne
    rw [Finset.mem_range] at hj
    apply hne
    cases hm : get_max_index (st.matrix.getD j ∅) with
    | none => exact (get_max_index_eq_none _).1 hm
    | some r =>
      obtain ⟨-, hjl, hdim⟩ := hlow j r hm
      have := (dim_at_lt_countP T hsorted 0 j hjl).2 hj
      omega
  have hρ3 : ((Finset.range ((filtration T).countP (dim_le 3))).filter fun c =>
      st.matrix.getD c ∅ ≠ ∅).card ≤
      ((Finset.range ((filtration T).countP (dim_le 2))).filter fun c =>
        st.matrix.getD c ∅ ≠ ∅).card + 1 := by
    have hle : (filtration T).countP (dim_le 3) ≤ (filtration T).countP (dim_le 2) + 1 := by
      have := List.countP_le_length (dim_le 3) (l := filtration T)
      omega
    have hsub : ((Finset.range ((filtration T).countP (dim_le 3))).filter fun c =>
        st.matrix.getD c ∅ ≠ ∅) ⊆
        insert ((filtration T).countP (dim_le 2))
          ((Finset.range ((filtration T).countP (dim_le 2))).filter fun c =>
            st.matrix.getD c ∅ ≠ ∅) := by
      intro j hj
      simp only [Finset.mem_filter, Finset.mem_range, Finset.mem_insert] at hj ⊢
      by_cases hj2 : j < (filtration T).countP (dim_le 2)
      · exact Or.inr ⟨hj2, hj.2⟩
      · left
        omega
    exact le_trans (Finset.card_le_card hsub) (Finset.card_insert_le _ _)
  have hs0 := diagram_length_step T st hsorted hmono hlow hlen 0
  have hs1 := diagram_length_step T st hsorted hmono hlow hlen 1
  have hs2 := diagram_length_step T st hsorted hmono hlow hlen 2
  simp only [zero_add, Nat.reduceAdd] at hs0 hs1 hs2
  refine ⟨_, _, _, hres', by omega, by omega, by omega, ?_⟩
  intro diagram hd e hmem
  have hex : ∃ k, diagram = diagram_of (filtration T) (sort_pairs (emit_pairs st)) k := by
    simp only [List.mem_cons, List.mem_singleton, List.not_mem_nil, or_false] at hd
    rcases hd with rfl | rfl | rfl
    · exact ⟨0, rfl⟩
    · exact ⟨1, rfl⟩
    · exact ⟨2, rfl⟩
  obtain ⟨k, rfl⟩ := hex
  rw [mem_diagram_of] at hmem
  obtain ⟨p, hpm, -, hne, rfl⟩ := hmem
  have hp' := (mem_emit_pairs st p).1 ((mem_std_sort _ _ _).1 hpm)
  obtain ⟨hlt, hp2, -⟩ := hlow p.2 p.1 hp'.2
  exact lt_of_le_of_ne (filtration_weight_mono (circumradii T) p.1 p.2 hlt hp2) hne

/-! ## The statements on concrete input -/

theorem build_tetrahedron : build tetrahedron = some (built tetrahedron) := by
  rfl

theorem upper_triangular_invariant_witness :
    build tetrahedron = some (built tetrahedron) ∧
      12 ∈ (built tetrahedron).boundary_matrix.get_col 14 ∧ 12 < 14 :=
  ⟨build_tetrahedron, by decide,
    upper_triangular_invariant tetrahedron (built tetrahedron) build_tetrahedron 14 12 (by decide)⟩

theorem pairing_validity_witness :
    (built tetrahedron).boundary_matrix.upper_triangular ∧
      (built tetrahedron).boundary_matrix.graded ∧
      ∃ pairs, compute_persistence_pairs (built tetrahedron).boundary_matrix = some pairs ∧
        ∀ p ∈ pairs, p.1 < p.2 ∧
          (built tetrahedron).boundary_matrix.get_dim p.2 =
            (built tetrahedron).boundary_matrix.get_dim p.1 + 1 :=
  ⟨by decide, by decide,
    pairing_validity (built tetrahedron).boundary_matrix (by decide) (by decide)⟩

theorem strict_lifetimes_witness :
    pdb2persistence tetrahedron =
        some [[(0, 1), (0, 1), (0, 1)], [(1, 2), (1, 2), (1, 2)], [(2, 3)]] ∧
      ([[(0, 1), (0, 1), (0, 1)], [(1, 2), (1, 2), (1, 2)], [(2, 3)]] :
          persistence_diagrams_t).length = 3 ∧
      ∀ diagram ∈ ([[(0, 1), (0, 1), (0, 1)], [(1, 2), (1, 2), (1, 2)], [(2, 3)]] :
          persistence_diagrams_t), ∀ e ∈ diagram, e.1 < e.2 :=
  ⟨by decide, strict_lifetimes tetrahedron _ (by decide)⟩

theorem face_before_coface_witness :
    (std_sort Sort_triples (circumradii (two_points 1 1)))[1]? =
        some ⟨1, 0, Object.vertex 1⟩ ∧
      (std_sort Sort_triples (circumradii (two_points 1 1)))[2]? =
        some ⟨1, 1, Object.edge ⟨0, 0, 1⟩⟩ ∧ 1 < 2 :=
  ⟨by decide, by decide,
    face_before_coface (circumradii (two_points 1 1)) (fun a b => a.second + 1 = b.second)
      (by decide) 1 2 ⟨1, 0, Object.vertex 1⟩ ⟨1, 1, Object.edge ⟨0, 0, 1⟩⟩
      (by decide) (by decide) (by decide)⟩

theorem unresolved_faces_rejected_witness :
    (filtration (two_points 2 1))[0]? = some ⟨1, 1, Object.edge ⟨0, 0, 1⟩⟩ ∧
      some (Slot.v 0) ∈ (Object.edge ⟨0, 0, 1⟩).reads (two_points 2 1) ∧
      pdb2persistence (two_points 2 1) = none :=
  ⟨by decide, by decide,
    (unresolved_faces_rejected (two_points 2 1) 0 ⟨1, 1, Object.edge ⟨0, 0, 1⟩⟩ (Slot.v 0)
      (by decide) (by decide)).2 (by decide)⟩

theorem diagram_extraction_is_definition_witness :
    ∃ s pairs, build tetrahedron = some s ∧
      compute_persistence_pairs s.boundary_matrix = some pairs ∧
      ([[(0, 1), (0, 1), (0, 1)], [(1, 2), (1, 2), (1, 2)], [(2, 3)]] : persistence_diagrams_t) =
        [diagram_of (filtration tetrahedron) (sort_pairs pairs) 0,
          diagram_of (filtration tetrahedron) (sort_pairs pairs) 1,
          diagram_of (filtration tetrahedron) (sort_pairs pairs) 2] ∧
      ∀ d e, e ∈ ([[(0, 1), (0, 1), (0, 1)], [(1, 2), (1, 2), (1, 2)], [(2, 3)]] :
          persistence_diagrams_t).getD d [] →
        ∃ p ∈ pairs, ∃ tb td, (filtration tetrahedron)[p.1]? = some tb ∧
          (filtration tetrahedron)[p.2]? = some td ∧
          tb.second = d ∧ tb.first ≠ td.first ∧ e = (tb.first, td.first) :=
  diagram_extraction_is_definition tetrahedron _ (by decide)

theorem index_assignment_is_position_witness :
    build tetrahedron = some (built tetrahedron) ∧
      assigned_index tetrahedron 14 = some 14 ∧
      (built tetrahedron).alpha_map =
        (filtration tetrahedron).map (fun t => (t.second, t.first)) :=
  ⟨build_tetrahedron,
    ((index_assignment_is_position tetrahedron (built tetrahedron) build_tetrahedron).1 14
      ⟨3, 3, Object.cell 0⟩ (by decide)).1,
    (index_assignment_is_position tetrahedron (built tetrahedron) build_tetrahedron).2.1⟩

theorem boundary_column_shape_witness :
    build tetrahedron = some (built tetrahedron) ∧
      (filtration tetrahedron)[4]? = some ⟨1, 1, Object.edge ⟨0, 0, 1⟩⟩ ∧
      (built tetrahedron).boundary_matrix.get_col 4 = [0, 1] ∧
      ((built tetrahedron).boundary_matrix.get_col 4 =
          std_sort (fun a b : ℕ => decide (a < b)) [0, 1] ∧
        (∀ i ∈ [0, 1], i < 4) ∧
        (∀ r, r ∈ (built tetrahedron).boundary_matrix.get_col 4 ↔ r ∈ [0, 1]) ∧
        ((built tetrahedron).boundary_matrix.get_col 4).Pairwise (fun a b => a < b) ∧
        (1 ≤ (Object.edge ⟨0, 0, 1⟩).dim →
          ((built tetrahedron).boundary_matrix.get_col 4).length =
            (Object.edge ⟨0, 0, 1⟩).dim + 1)) ∧
      (filtration tetrahedron)[14]? = some ⟨3, 3, Object.cell 0⟩ ∧
      (built tetrahedron).boundary_matrix.get_col 14 = [10, 11, 12, 13] ∧
      ((built tetrahedron).boundary_matrix.get_col 14 =
          std_sort (fun a b : ℕ => decide (a < b)) [10, 11, 12, 13] ∧
        (∀ i ∈ [10, 11, 12, 13], i < 14) ∧
        (∀ r, r ∈ (built tetrahedron).boundary_matrix.get_col 14 ↔ r ∈ [10, 11, 12, 13]) ∧
        ((built tetrahedron).boundary_matrix.get_col 14).Pairwise (fun a b => a < b) ∧
        (1 ≤ (Object.cell 0).dim →
          ((built tetrahedron).boundary_matrix.get_col 14).length = (Object.cell 0).dim + 1)) :=
  ⟨build_tetrahedron, by decide, by decide,
    (boundary_column_shape tetrahedron (built tetrahedron) build_tetrahedron 4
      ⟨1, 1, Object.edge ⟨0, 0, 1⟩⟩ (by decide)).2.2 [0, 1] (by decide) (by decide),
    by decide, by decide,
    (boundary_column_shape tetrahedron (built tetrahedron) build_tetrahedron 14
      ⟨3, 3, Object.cell 0⟩ (by decide)).2.2 [10, 11, 12, 13] (by decide) (by decide)⟩

theorem invariance_under_relabeling_witness :
    Valid_complex tetrahedron ∧
      pdb2persistence tetrahedron =
        some [[(0, 1), (0, 1), (0, 1)], [(1, 2), (1, 2), (1, 2)], [(2, 3)]] ∧
      ∃ diagrams',
        pdb2persistence (reorder tetrahedron [3, 1, 0, 2]
            [⟨0, 2, 3⟩, ⟨0, 0, 1⟩, ⟨0, 1, 3⟩, ⟨0, 0, 2⟩, ⟨0, 1, 2⟩, ⟨0, 0, 3⟩]
            [⟨0, 2⟩, ⟨0, 0⟩, ⟨0, 3⟩, ⟨0, 1⟩] [0]) = some diagrams' ∧
          diagrams'.length =
            ([[(0, 1), (0, 1), (0, 1)], [(1, 2), (1, 2), (1, 2)], [(2, 3)]] :
              persistence_diagrams_t).length ∧
          ∀ d, (diagrams'.getD d []).Perm
            (([[(0, 1), (0, 1), (0, 1)], [(1, 2), (1, 2), (1, 2)], [(2, 3)]] :
              persistence_diagrams_t).getD d []) :=
  ⟨by decide, by decide,
    (invariance_under_relabeling tetrahedron (by decide) [3, 1, 0, 2]
      [⟨0, 2, 3⟩, ⟨0, 0, 1⟩, ⟨0, 1, 3⟩, ⟨0, 0, 2⟩, ⟨0, 1, 2⟩, ⟨0, 0, 3⟩]
      [⟨0, 2⟩, ⟨0, 0⟩, ⟨0, 3⟩, ⟨0, 1⟩] [0] (by decide) (by decide) (by decide) (by decide)).1 _
      (by decide)⟩

theorem twist_does_not_change_result_witness :
    (built tetrahedron).boundary_matrix.upper_triangular ∧
      (built tetrahedron).boundary_matrix.graded ∧
      (built tetrahedron).boundary_matrix.boundary_squared_zero ∧
      (Option.map (fun st => st.lowest_one_lookup 13)
        (reduce_in_order true [14] (built tetrahedron).boundary_matrix)) = some (some 14) ∧
      plain_persistence_pairs (built tetrahedron).boundary_matrix =
        some [(1, 4), (2, 5), (3, 6), (9, 10), (8, 11), (7, 12), (13, 14)] ∧
      (reduce_in_order true [14, 10, 11, 12, 13, 4, 5, 6, 7, 8, 9, 0, 1, 2, 3]
          (built tetrahedron).boundary_matrix).map emit_pairs =
        some [(1, 4), (2, 5), (3, 6), (9, 10), (8, 11), (7, 12), (13, 14)] ∧
      ∃ st st',
        reduce_in_order true [14, 10, 11, 12, 13, 4, 5, 6, 7, 8, 9, 0, 1, 2, 3]
          (built tetrahedron).boundary_matrix = some st ∧
        plain_reduction (built tetrahedron).boundary_matrix = some st' ∧
        st.matrix = st'.matrix ∧ emit_pairs st = emit_pairs st' ∧
        (reduce_in_order true [14, 10, 11, 12, 13, 4, 5, 6, 7, 8, 9, 0, 1, 2, 3]
          (built tetrahedron).boundary_matrix).map emit_pairs =
          plain_persistence_pairs (built tetrahedron).boundary_matrix :=
  ⟨by decide, by decide, by decide, by decide, by decide, by decide,
    (twist_does_not_change_result (built tetrahedron).boundary_matrix (by decide) (by decide)
      (by decide)).2.2.2 [14, 10, 11, 12, 13, 4, 5, 6, 7, 8, 9, 0, 1, 2, 3] (by decide)
      (by decide)⟩

theorem bucket_indexing_in_bounds_witness :
    build tetrahedron = some (built tetrahedron) ∧
      ∃ pairs, compute_persistence_pairs (built tetrahedron).boundary_matrix = some pairs ∧
        (∀ p ∈ pairs, p.1 < (filtration tetrahedron).length ∧
          p.2 < (filtration tetrahedron).length ∧
          ∃ tb, (filtration tetrahedron)[p.1]? = some tb ∧ tb.second ≤ 2 ∧
            ∀ pd : persistence_diagrams_t, pd.length = 3 →
              ∃ pd', extract_pair (filtration tetrahedron) pd p = some pd' ∧ pd'.length = 3) ∧
        ∃ diagrams, extract_diagrams (filtration tetrahedron) (sort_pairs pairs) =
            some diagrams ∧
          pdb2persistence tetrahedron = some diagrams ∧ diagrams.length = 3 :=
  ⟨build_tetrahedron,
    bucket_indexing_in_bounds tetrahedron (built tetrahedron) build_tetrahedron⟩

theorem output_order_witness :
    pdb2persistence tetrahedron =
        some [[(0, 1), (0, 1), (0, 1)], [(1, 2), (1, 2), (1, 2)], [(2, 3)]] ∧
      ∀ diagram ∈ ([[(0, 1), (0, 1), (0, 1)], [(1, 2), (1, 2), (1, 2)], [(2, 3)]] :
          persistence_diagrams_t), diagram.Pairwise (fun e e' => e.1 ≤ e'.1) :=
  ⟨by decide, output_order tetrahedron _ (by decide)⟩

theorem births_and_deaths_disjoint_witness :
    (built tetrahedron).boundary_matrix.upper_triangular ∧
      (built tetrahedron).boundary_matrix.boundary_squared_zero ∧
      ∃ pairs, compute_persistence_pairs (built tetrahedron).boundary_matrix = some pairs ∧
        (∀ p ∈ pairs, ∀ q ∈ pairs, p.1 ≠ q.2) ∧
        ∀ p ∈ pairs, ∀ q ∈ pairs, p ≠ q →
          p.1 ≠ q.1 ∧ p.2 ≠ q.2 ∧ p.1 ≠ q.2 ∧ p.2 ≠ q.1 :=
  ⟨by decide, by decide,
    births_and_deaths_disjoint (built tetrahedron).boundary_matrix (by decide) (by decide)⟩

theorem two_points_one_edge_witness :
    pdb2persistence (two_points 0 1) = some [[(0, 1)], [], []] :=
  two_points_one_edge (two_points 0 1) 0 1 ⟨0, 0, 1⟩ 0 1 rfl rfl rfl rfl
    (by decide) (by decide) (by decide) (by decide) (by decide) (by decide)

theorem triangle_loop_witness :
    (∃ d0, pdb2persistence (triangle 0 1 2) = some [d0, [(1, 2)], []]) ∧
      ∃ d0, pdb2persistence { triangle 0 1 2 with finite_facets := [] } = some [d0, [], []] :=
  triangle_loop (triangle 0 1 2) 0 1 2 ⟨0, 0, 1⟩ ⟨0, 0, 2⟩ ⟨0, 1, 2⟩ ⟨0, 3⟩ 0 1 2 rfl rfl rfl rfl
    (by decide) (by decide) (by decide) (by decide) (by decide) (by decide) (by decide)

theorem filled_tetrahedron_witness :
    ∃ d0 d1 d2, pdb2persistence tetrahedron = some [d0, d1, d2] ∧
      d0.length = 3 ∧ d1.length ≤ 3 ∧ d2.length ≤ 1 ∧
      ∀ diagram ∈ [d0, d1, d2], ∀ e ∈ diagram, e.1 < e.2 :=
  filled_tetrahedron tetrahedron 0 1 2 3 0 (by decide) rfl (by decide) rfl rfl
    (by decide) (by decide) (by decide) (by decide)

end ProteinPersistence
